import Mathlib

/-!
Protein-level statistics of `ProteinProbEstimator.cpp`.

A shallow embedding of the statistical core of `src/ProteinProbEstimator.cpp`
(protein registry, q-values, empirical q-values, p-values, pi0, ROC curve, ROC_N, FDR
curves, FDR divergence, grid search) and theorems about it.

Modelling conventions:

* `double` is modelled by `Dbl`: an exact rational, or one of `+inf`, `-inf`, `NaN`.
  Arithmetic on finite values is exact (rounding and overflow of finite values to
  infinity are not modelled); the special values follow IEEE 754 (`x/0`, `inf - inf`,
  `0 * inf`, comparisons with `NaN` false).  Zero is unsigned: every zero divisor
  in this program is a converted count or a difference `x - x`, that is `+0`.
* Where a property depends on rounding (the areas under a segment and the FDR
  divergence, whose differences of antiderivatives cancel), the functions are given a
  second time with the four operations as a parameter (`areaWith`, `areaSqWith`,
  `getFDR_divergenceWith`), to be read with `binary64`: every single operation rounded
  to the nearest double, ties to even.  With `exactArith` they are the exact functions.
* `unsigned`/`int` loop counters over the ranked list are natural numbers (a ranked
  list has fewer than `2^32` protein names); where the source multiplies or compares
  mixed `int`/`unsigned` operands (`getROC_N`) the 32-bit conversion is explicit.
* A `std::vector`/`std::multimap` is the list of its elements in iteration order;
  a loop that `push_back`s one value per step is a recursion that conses it.
* Library calls (`std::lower_bound`, `std::sort`, `std::min_element`, `std::partial_sum`)
  follow their contracts; `rand()` is a sequence `rnd` of draws given from outside.
* What lies outside the sources (the protein graph, the MAYU estimator) is a parameter
  of the function that calls it.
-/

namespace Percolator

/-! ## Doubles -/

/-- An idealised IEEE 754 double: an exact rational or a special value. -/
inductive Dbl where
  | fin (q : ℚ)
  | pinf
  | ninf
  | nan
  deriving DecidableEq

namespace Dbl

/-- Conversion `(double)n` of an unsigned count. -/
def ofNat (n : Nat) : Dbl := fin (n : ℚ)

/-- Unary minus. -/
def neg : Dbl → Dbl
  | fin a => fin (-a)
  | pinf => ninf
  | ninf => pinf
  | nan => nan

/-- The sum `a + b`. -/
def add : Dbl → Dbl → Dbl
  | fin a, fin b => fin (a + b)
  | fin _, pinf => pinf
  | fin _, ninf => ninf
  | pinf, fin _ => pinf
  | pinf, pinf => pinf
  | ninf, fin _ => ninf
  | ninf, ninf => ninf
  | _, _ => nan

/-- The difference `a - b`. -/
def sub (a b : Dbl) : Dbl := add a (neg b)

/-- Infinity carrying the sign of the rational `s`, `NaN` when `s = 0`. -/
def signedInf (s : ℚ) : Dbl :=
  if 0 < s then pinf else if s < 0 then ninf else nan

/-- The product `a * b`. -/
def mul : Dbl → Dbl → Dbl
  | fin a, fin b => fin (a * b)
  | fin a, pinf => signedInf a
  | fin a, ninf => signedInf (-a)
  | pinf, fin b => signedInf b
  | ninf, fin b => signedInf (-b)
  | pinf, pinf => pinf
  | pinf, ninf => ninf
  | ninf, pinf => ninf
  | ninf, ninf => pinf
  | _, _ => nan

/-- The quotient `a / b`; a zero divisor is `+0`. -/
def div : Dbl → Dbl → Dbl
  | fin a, fin b => if b = 0 then signedInf a else fin (a / b)
  | fin _, pinf => fin 0
  | fin _, ninf => fin 0
  | pinf, fin b => if 0 ≤ b then pinf else ninf
  | ninf, fin b => if 0 ≤ b then ninf else pinf
  | _, _ => nan

/-- The comparison `a < b`, false when either side is `NaN`. -/
def lt : Dbl → Dbl → Bool
  | fin a, fin b => decide (a < b)
  | fin _, pinf => true
  | ninf, fin _ => true
  | ninf, pinf => true
  | _, _ => false

/-- The comparison `a <= b`, false when either side is `NaN`. -/
def le : Dbl → Dbl → Bool
  | fin a, fin b => decide (a ≤ b)
  | fin _, pinf => true
  | ninf, fin _ => true
  | ninf, pinf => true
  | pinf, pinf => true
  | ninf, ninf => true
  | _, _ => false

/-- The comparison `a > b`. -/
def gt (a b : Dbl) : Bool := lt b a

/-- The comparison `a >= b`. -/
def ge (a b : Dbl) : Bool := le b a

/-- The test `isnan(a)`. -/
def isnan : Dbl → Bool
  | nan => true
  | _ => false

/-- The test `isinf(a)`. -/
def isinf : Dbl → Bool
  | pinf => true
  | ninf => true
  | _ => false

/-- The library `std::min(a, b)`, which is `(b < a) ? b : a`. -/
def min (a b : Dbl) : Dbl := if lt b a then b else a

/-- The library `std::max(a, b)`, which is `(a < b) ? b : a`. -/
def max (a b : Dbl) : Dbl := if lt a b then b else a

/-- Membership in the closed unit interval, as the two comparisons `0 <= a && a <= 1`. -/
def inUnit (a : Dbl) : Bool := le (fin 0) a && le a (fin 1)

end Dbl

/-! ## Decoy pattern matching -/

/-- Search of `std::string::find`: the first position at or after offset `i` where `pat`
occurs, or `none` for `npos`. -/
def findFrom (pat : List Char) : List Char → Nat → Option Nat
  | [], i => if pat.isEmpty then some i else none
  | c :: cs, i => if pat.isPrefixOf (c :: cs) then some i else findFrom pat cs (i + 1)

/-- The call `s.find(pat)`. -/
def find (s pat : String) : Option Nat := findFrom pat.toList s.toList 0

/-- The overload `countTargets(std::string protein)`: 1 when the decoy pattern does not
occur in the name, else 0. -/
def countTargetsName (decoyPattern protein : String) : Nat :=
  if find protein decoyPattern = none then 1 else 0

/-- The overload `countDecoys(std::string protein)`: 1 when the decoy pattern occurs in
the name, else 0. -/
def countDecoysName (decoyPattern protein : String) : Nat :=
  if find protein decoyPattern ≠ none then 1 else 0

/-- The overload `countTargets(const std::vector<std::string>&)`: number of names in the
group in which the decoy pattern does not occur. -/
def countTargets (decoyPattern : String) : List String → Nat
  | [] => 0
  | p :: ps => (if find p decoyPattern = none then 1 else 0) + countTargets decoyPattern ps

/-- The overload `countDecoys(const std::vector<std::string>&)`: number of names in the
group in which the decoy pattern occurs. -/
def countDecoys (decoyPattern : String) : List String → Nat
  | [] => 0
  | p :: ps => (if find p decoyPattern ≠ none then 1 else 0) + countDecoys decoyPattern ps

/-! ## Loops -/

/-- A loop over a sequence that carries a state and pushes one value per element. -/
def loopPush {σ α β : Type} (step : σ → α → σ × β) : σ → List α → σ × List β
  | s, [] => (s, [])
  | s, a :: as =>
    let r := step s a
    let t := loopPush step r.1 as
    (t.1, r.2 :: t.2)

/-- A loop over a sequence that carries a state and pushes a block of values per element
(an outer loop whose body is an inner pushing loop). -/
def loopPushMany {σ α β : Type} (step : σ → α → σ × List β) : σ → List α → σ × List β
  | s, [] => (s, [])
  | s, a :: as =>
    let r := step s a
    let t := loopPushMany step r.1 as
    (t.1, r.2 ++ t.2)

/-- The library `std::partial_sum(first, last, out, op)`: the running fold
`x0, op(x0,x1), op(op(x0,x1),x2), ...`. -/
def partialSumFrom (op : Dbl → Dbl → Dbl) : Dbl → List Dbl → List Dbl
  | acc, [] => [acc]
  | acc, x :: xs => acc :: partialSumFrom op (op acc x) xs

/-- The library `std::partial_sum` on a whole range. -/
def partial_sum (op : Dbl → Dbl → Dbl) : List Dbl → List Dbl
  | [] => []
  | x :: xs => partialSumFrom op x xs

/-- Modelled from the spec: `myminfunc` is declared in a header that is not among the
sources; the spec describes the scan it drives as "replacing each value with the running
minimum seen so far", so it returns the smaller of its two arguments. -/
def myminfunc (a b : Dbl) : Dbl := if Dbl.gt a b then b else a

/-- The call `std::partial_sum(v.rbegin(), v.rend(), v.rbegin(), myminfunc)`: the running
minimum taken from the last element towards the first, written back in place. -/
def monotonize (v : List Dbl) : List Dbl := (partial_sum myminfunc v.reverse).reverse

/-- The guard `if(isnan(q) || isinf(q) || q > 1.0) q = 1.0`. -/
def clampQ (q : Dbl) : Dbl :=
  if q.isnan || q.isinf || Dbl.gt q (Dbl.fin 1) then Dbl.fin 1 else q

/-! ## Estimator state -/

/-- A peptide record `Protein::Peptide`: sequence, decoy flag and the three peptide-level
statistics of the match it was made from. -/
structure Peptide where
  name : String
  isdecoy : Bool
  pep : Dbl
  q : Dbl
  p : Dbl
  deriving DecidableEq

/-- Modelled from the spec: the class `Protein` is declared in a header outside the
sources; the spec gives it an identity (name), a decoy flag, an owned list of Peptide
records and the mutable statistics PEP, q-value, empirical q-value and p-value. -/
structure Protein where
  name : String
  isDecoy : Bool
  peptides : List Peptide
  pep : Dbl := Dbl.fin 0
  q : Dbl := Dbl.fin 0
  qemp : Dbl := Dbl.fin 0
  p : Dbl := Dbl.fin 0
  deriving DecidableEq

/-- What `setTargetandDecoysNames` reads of one peptide-spectrum match (`ScoreHolder`):
`isDecoy()`, the peptide sequence, the set `proteinIds` in iteration order, and the
peptide-level `pep`, `q`, `p`. -/
structure ScoreHolder where
  isDecoy : Bool
  peptideSequence : String
  proteinIds : List String
  pep : Dbl
  q : Dbl
  p : Dbl
  deriving DecidableEq

/-- The fields of `ProteinProbEstimator` read or written by the statistical core.
`pepProteins` is the ranked probability list (the multimap in iteration order);
`proteins` is the registry `std::map<string, Protein*>` as an association list with
distinct keys (only look-ups and counts are made on it, so its order is that of
insertion); `truePosSet` and `falsePosSet` are the two name sets as duplicate-free
lists. -/
structure Estimator where
  decoyPattern : String := ""
  tiesAsOneProtein : Bool := false
  conservative : Bool := false
  updateRocN : Bool := false
  rocN : Nat := 0
  pi0 : Dbl := Dbl.fin 1
  threshold : Dbl := Dbl.fin 0
  thresholdRoc : Dbl := Dbl.fin 0
  numberTargetProteins : Nat := 0
  numberDecoyProteins : Nat := 0
  pepProteins : List (Dbl × List String) := []
  qvalues : List Dbl := []
  qvaluesEmp : List Dbl := []
  pvalues : List Dbl := []
  alpha : Dbl := Dbl.fin 0
  beta : Dbl := Dbl.fin 0
  gamma : Dbl := Dbl.fin 0
  lambda : Dbl := Dbl.fin 0
  deepness : Nat := 0
  usePi0 : Bool := false
  mayufdr : Bool := false
  proteins : List (String × Protein) := []
  truePosSet : List String := []
  falsePosSet : List String := []
  deriving DecidableEq

/-! ## estimateQValues -/

/-- Loop variables of `estimateQValues`: the running target count `nP` and the running
probability sum `sum`. -/
structure QAcc where
  nP : Nat
  sum : Dbl

/-- Body of the loop of `estimateQValues` in the `tiesAsOneProtein` branch, for one
ranked entry `(probability, group)`. -/
def qStepTies (decoyPattern : String) (s : QAcc) (e : Dbl × List String) : QAcc × Dbl :=
  let ntargets := countTargets decoyPattern e.2
  let sum := s.sum.add (e.1.mul (Dbl.ofNat ntargets))
  let nP := s.nP + ntargets
  (⟨nP, sum⟩, clampQ (sum.div (Dbl.ofNat nP)))

/-- Body of the inner loop of `estimateQValues` in the per-protein branch, for one
protein name of a group with probability `prob`. -/
def qStepName (decoyPattern : String) (prob : Dbl) (s : QAcc) (protein : String) :
    QAcc × Dbl :=
  let s1 : QAcc :=
    if countTargetsName decoyPattern protein ≠ 0 then ⟨s.nP + 1, s.sum.add prob⟩ else s
  (s1, clampQ (s1.sum.div (Dbl.ofNat s1.nP)))

/-- Body of the outer loop of `estimateQValues` in the per-protein branch. -/
def qStepGroup (decoyPattern : String) (s : QAcc) (e : Dbl × List String) :
    QAcc × List Dbl :=
  loopPush (qStepName decoyPattern e.1) s e.2

/-- The q-values pushed by the forward pass of `estimateQValues`, before the final
`partial_sum`. -/
def rawQValues (E : Estimator) : List Dbl :=
  if E.tiesAsOneProtein then
    (loopPush (qStepTies E.decoyPattern) ⟨0, Dbl.fin 0⟩ E.pepProteins).2
  else
    (loopPushMany (qStepGroup E.decoyPattern) ⟨0, Dbl.fin 0⟩ E.pepProteins).2

/-- The method `estimateQValues`: fills `qvalues`. -/
def estimateQValues (E : Estimator) : Estimator :=
  { E with qvalues := monotonize (rawQValues E) }

/-! ## estimateQValuesEmp -/

/-- Loop variables of `estimateQValuesEmp`: cumulative decoy and target counts and the
variable `qvalue`, which keeps its previous content while `nTargets` is zero. -/
structure EmpAcc where
  nDecoys : Nat
  nTargets : Nat
  qvalue : Dbl

/-- The two statements
`if(nTargets) qvalue = (double)(nDecoys * pi0 * TargetDecoyRatio) / (double)nTargets;`
`if(isnan(qvalue) || isinf(qvalue) || qvalue > 1.0) qvalue = 1.0;`. -/
def empQ (E : Estimator) (nDecoys nTargets : Nat) (qvalue : Dbl) : Dbl :=
  let TargetDecoyRatio :=
    (Dbl.ofNat E.numberTargetProteins).div (Dbl.ofNat E.numberDecoyProteins)
  let q :=
    if nTargets ≠ 0 then
      (((Dbl.ofNat nDecoys).mul E.pi0).mul TargetDecoyRatio).div (Dbl.ofNat nTargets)
    else qvalue
  clampQ q

/-- Body of the loop of `estimateQValuesEmp` in the `tiesAsOneProtein` branch; the pushed
pair is (empirical q-value, p-value). -/
def empStepTies (E : Estimator) (s : EmpAcc) (e : Dbl × List String) :
    EmpAcc × (Dbl × Dbl) :=
  let numTarget := countTargets E.decoyPattern e.2
  let numDecoy := countDecoys E.decoyPattern e.2
  let nDecoys := s.nDecoys + numDecoy
  let nTargets := s.nTargets + numTarget
  let qvalue := empQ E nDecoys nTargets s.qvalue
  let p :=
    if numDecoy > 0 then (Dbl.ofNat nDecoys).div (Dbl.ofNat E.numberDecoyProteins)
    else ((Dbl.ofNat nDecoys).add (Dbl.fin 1)).div
      ((Dbl.ofNat E.numberDecoyProteins).add (Dbl.fin 1))
  (⟨nDecoys, nTargets, qvalue⟩, (qvalue, p))

/-- Body of the inner loop of `estimateQValuesEmp` in the per-protein branch. -/
def empStepName (E : Estimator) (s : EmpAcc) (protein : String) : EmpAcc × (Dbl × Dbl) :=
  let isDecoy := countDecoysName E.decoyPattern protein ≠ 0
  let nDecoys := if isDecoy then s.nDecoys + 1 else s.nDecoys
  let nTargets := if isDecoy then s.nTargets else s.nTargets + 1
  let p :=
    if isDecoy then (Dbl.ofNat nDecoys).div (Dbl.ofNat E.numberDecoyProteins)
    else ((Dbl.ofNat nDecoys).add (Dbl.fin 1)).div
      ((Dbl.ofNat E.numberDecoyProteins).add (Dbl.fin 1))
  let qvalue := empQ E nDecoys nTargets s.qvalue
  (⟨nDecoys, nTargets, qvalue⟩, (qvalue, p))

/-- Body of the outer loop of `estimateQValuesEmp` in the per-protein branch. -/
def empStepGroup (E : Estimator) (s : EmpAcc) (e : Dbl × List String) :
    EmpAcc × List (Dbl × Dbl) :=
  loopPush (empStepName E) s e.2

/-- The (empirical q-value, p-value) pairs pushed by the loop of `estimateQValuesEmp`. -/
def rawEmp (E : Estimator) : List (Dbl × Dbl) :=
  if E.tiesAsOneProtein then
    (loopPush (empStepTies E) ⟨0, 0, Dbl.fin 0⟩ E.pepProteins).2
  else
    (loopPushMany (empStepGroup E) ⟨0, 0, Dbl.fin 0⟩ E.pepProteins).2

/-- The method `estimateQValuesEmp`: fills `qvaluesEmp` and `pvalues`. -/
def estimateQValuesEmp (E : Estimator) : Estimator :=
  { E with
    qvaluesEmp := monotonize ((rawEmp E).map Prod.fst)
    pvalues := (rawEmp E).map Prod.snd }

/-! ## Areas under a line segment -/

/-- The function `antiderivativeAt`: `m*xVal*xVal/2.0 + b*xVal`. -/
def antiderivativeAt (m b xVal : Dbl) : Dbl :=
  (((m.mul xVal).mul xVal).div (Dbl.fin 2)).add (b.mul xVal)

/-- The function `squareAntiderivativeAt`: with `u = m*m`, `v = 2*m*b`, `t = b*b`,
`u*xVal*xVal*xVal/3.0 + v*xVal*xVal/2.0 + t*xVal`. -/
def squareAntiderivativeAt (m b xVal : Dbl) : Dbl :=
  let u := m.mul m
  let v := ((Dbl.fin 2).mul m).mul b
  let t := b.mul b
  (((((u.mul xVal).mul xVal).mul xVal).div (Dbl.fin 3)).add
    (((v.mul xVal).mul xVal).div (Dbl.fin 2))).add (t.mul xVal)

/-- The function `area(x1, y1, x2, y2, max_x)`. -/
def area (x1 y1 x2 y2 max_x : Dbl) : Dbl :=
  let m := (y2.sub y1).div (x2.sub x1)
  let b := y1.sub (m.mul x1)
  let area := (antiderivativeAt m b (Dbl.min max_x x2)).sub (antiderivativeAt m b x1)
  if area.isnan then Dbl.fin 0 else area

/-- The function `areaSq(x1, y1, x2, y2, threshold)`. -/
def areaSq (x1 y1 x2 y2 threshold : Dbl) : Dbl :=
  let m := (y2.sub y1).div (x2.sub x1)
  let b := y1.sub (m.mul x1)
  let area := (squareAntiderivativeAt m b (Dbl.min threshold x2)).sub
    (squareAntiderivativeAt m b x1)
  if area.isnan then Dbl.fin 0 else area

/-! ## getROC_N -/

/-- How a call ends: it returns a value, it terminates the process with `exit(1)`, or it
reads outside a vector (undefined behaviour). -/
inductive Outcome where
  | value (d : Dbl)
  | fatal
  | undefined
  deriving DecidableEq

/-- Conversion of an `int` to `unsigned` (32 bits), as applied to the `int` operand of a
mixed comparison or product. -/
def toUnsigned (n : Int) : Nat := (n % 4294967296).toNat

/-- Conversion `(double)n` of an `int`. -/
def Dbl.ofInt (n : Int) : Dbl := Dbl.fin (n : ℚ)

/-- The `for` loop of `getROC_N` from index `k`, with `steps` iterations left before `k`
reaches `fpArray.size()-1`; `none` when a vector is read outside its bounds. -/
def rocLoop (fpArray tpArray : List Nat) (N : Int) : Nat → Nat → Dbl → Option Dbl
  | 0, _, rocNvalue => some rocNvalue
  | steps + 1, k, rocNvalue =>
    match fpArray[k]? with
    | none => none
    | some fk =>
      if fk ≥ toUnsigned N then some rocNvalue
      else
        match fpArray[k + 1]? with
        | none => none
        | some fk1 =>
          if fk ≠ fk1 then
            match tpArray[k]?, tpArray[k + 1]? with
            | some tk, some tk1 =>
              rocLoop fpArray tpArray N steps (k + 1)
                (rocNvalue.add (area (Dbl.ofNat fk) (Dbl.ofNat tk) (Dbl.ofNat fk1)
                  (Dbl.ofNat tk1) (Dbl.ofInt N)))
            | _, _ => none
          else rocLoop fpArray tpArray N steps (k + 1) rocNvalue

/-- The method `getROC_N(fpArray, tpArray, N)`.  The test `fpArray.back() < N`, the test
`fpArray[k] >= N` and the product `N * tpArray.back()` mix `unsigned` and `int`, so they
are evaluated in 32-bit unsigned arithmetic. -/
def getROC_N (fpArray tpArray : List Nat) (N : Int) : Outcome :=
  match fpArray.getLast? with
  | none => Outcome.undefined
  | some fpBack =>
    if fpBack < toUnsigned N then Outcome.fatal
    else
      match rocLoop fpArray tpArray N (fpArray.length - 1) 0 (Dbl.fin 0),
          tpArray.getLast? with
      | some rocNvalue, some tpBack =>
        Outcome.value (rocNvalue.div (Dbl.ofNat ((toUnsigned N * tpBack) % 4294967296)))
      | _, _ => Outcome.undefined

/-! ## getEstimated_and_Empirical_FDR -/

/-- A loop over a sequence that carries a state, pushes one value per element and leaves
by `break` after the push when the step says so; the flag tells whether it left so. -/
def loopPushBreak {σ α β : Type} (step : σ → α → σ × β × Bool) :
    σ → List α → σ × List β × Bool
  | s, [] => (s, [], false)
  | s, a :: as =>
    let r := step s a
    if r.2.2 then (r.1, [r.2.1], true)
    else
      let t := loopPushBreak step r.1 as
      (t.1, r.2.1 :: t.2.1, t.2.2)

/-- Conversion `(int)x` of a double (truncation towards zero); the operand here is a count. -/
def Dbl.toInt : Dbl → Int
  | Dbl.fin q => if 0 ≤ q then Int.floor q else Int.ceil q
  | _ => 0

/-- Local variables of `getEstimated_and_Empirical_FDR`, with the field `rocN`. -/
structure FdrAcc where
  fpCount : Dbl
  tpCount : Dbl
  totalFDR : Dbl
  estFDR : Dbl
  empFDR : Dbl
  previousEmpQ : Dbl
  previousEstQ : Dbl
  rocN : Nat
  deriving DecidableEq

/-- The statements shared by both branches of `getEstimated_and_Empirical_FDR`, from the
update of `empFDR` to the `break` test: entered with the counts, `totalFDR` and `estFDR`
already updated, they give the next state, the pushed pair `(estFDR, empFDR)` and whether
`estFDR > threshold`. -/
def fdrFinish (E : Estimator) (s : FdrAcc) : FdrAcc × (Dbl × Dbl) × Bool :=
  let TargetDecoyRatio :=
    (Dbl.ofNat E.numberTargetProteins).div (Dbl.ofNat E.numberDecoyProteins)
  let empFDR0 :=
    if s.tpCount ≠ Dbl.fin 0 then ((s.fpCount.mul E.pi0).mul TargetDecoyRatio).div s.tpCount
    else s.empFDR
  let empFDR1 :=
    if Dbl.gt empFDR0 (Dbl.fin 1) || empFDR0.isnan || empFDR0.isinf then Dbl.fin 1
    else empFDR0
  let estFDR1 :=
    if Dbl.gt s.estFDR (Dbl.fin 1) || s.estFDR.isnan || s.estFDR.isinf then Dbl.fin 1
    else s.estFDR
  let estFDR := if Dbl.lt estFDR1 s.previousEstQ then s.previousEstQ else estFDR1
  let previousEstQ := if Dbl.lt estFDR1 s.previousEstQ then s.previousEstQ else estFDR1
  let empFDR := if Dbl.lt empFDR1 s.previousEmpQ then s.previousEmpQ else empFDR1
  let previousEmpQ := if Dbl.lt empFDR1 s.previousEmpQ then s.previousEmpQ else empFDR1
  let rocN :=
    if Dbl.le estFDR E.thresholdRoc && E.updateRocN then
      Max.max s.rocN (toUnsigned (Max.max 50 (Min.min s.fpCount.toInt 1000)))
    else s.rocN
  ({ s with estFDR := estFDR, empFDR := empFDR, previousEstQ := previousEstQ,
            previousEmpQ := previousEmpQ, rocN := rocN },
   (estFDR, empFDR), Dbl.gt estFDR E.threshold)

/-- Body of the loop of `getEstimated_and_Empirical_FDR` in the `tiesAsOneProtein`
branch, for the group `names[k]` with probability `probabilities[k]`. -/
def fdrStepTies (E : Estimator) (s : FdrAcc) (e : Dbl × List String) :
    FdrAcc × (Dbl × Dbl) × Bool :=
  let fpChange := countDecoys E.decoyPattern e.2
  let tpChange := countTargets E.decoyPattern e.2
  let fpCount := s.fpCount.add (Dbl.ofNat fpChange)
  let tpCount := s.tpCount.add (Dbl.ofNat tpChange)
  let totalFDR := s.totalFDR.add (e.1.mul (Dbl.ofNat tpChange))
  let estFDR := totalFDR.div tpCount
  fdrFinish E { s with fpCount := fpCount, tpCount := tpCount, totalFDR := totalFDR,
                       estFDR := estFDR }

/-- Body of the inner loop of `getEstimated_and_Empirical_FDR` in the per-protein branch,
for one protein name of a group with probability `prob`. -/
def fdrStepName (E : Estimator) (prob : Dbl) (s : FdrAcc) (protein : String) :
    FdrAcc × (Dbl × Dbl) × Bool :=
  if countDecoysName E.decoyPattern protein ≠ 0 then
    fdrFinish E { s with fpCount := s.fpCount.add (Dbl.fin 1) }
  else
    let tpCount := s.tpCount.add (Dbl.fin 1)
    let totalFDR := s.totalFDR.add prob
    fdrFinish E { s with tpCount := tpCount, totalFDR := totalFDR,
                         estFDR := totalFDR.div tpCount }

/-- Body of the outer loop of `getEstimated_and_Empirical_FDR` in the per-protein branch:
the `break` of the inner loop leaves the inner loop only. -/
def fdrStepGroup (E : Estimator) (s : FdrAcc) (e : Dbl × List String) :
    FdrAcc × List (Dbl × Dbl) :=
  let r := loopPushBreak (fdrStepName E e.1) s e.2
  (r.1, r.2.1)

/-- The walk of `getEstimated_and_Empirical_FDR` over the entries
`(probabilities[k], names[k])`: final state and pushed pairs `(estFDR, empFDR)`. -/
def fdrWalk (E : Estimator) (l : List (Dbl × List String)) : FdrAcc × List (Dbl × Dbl) :=
  let s0 : FdrAcc :=
    { fpCount := Dbl.fin 0, tpCount := Dbl.fin 0, totalFDR := Dbl.fin 0,
      estFDR := Dbl.fin 0, empFDR := Dbl.fin 0, previousEmpQ := Dbl.fin 0,
      previousEstQ := Dbl.fin 0, rocN := E.rocN }
  if E.tiesAsOneProtein then
    let r := loopPushBreak (fdrStepTies E) s0 l
    (r.1, r.2.1)
  else loopPushMany (fdrStepGroup E) s0 l

/-- The method `getEstimated_and_Empirical_FDR(names, probabilities)`: the estimator with
its updated `rocN`, and the pair (estimated-FDR curve, empirical-FDR curve).  The loop
runs over `names` and reads `probabilities[k]`; the result is `none` (a read outside the
vector) when `probabilities` is shorter than `names`. -/
def getEstimated_and_Empirical_FDR (E : Estimator) (names : List (List String))
    (probabilities : List Dbl) : Option (Estimator × (List Dbl × List Dbl)) :=
  if names.length ≤ probabilities.length then
    let r := fdrWalk E (List.zip probabilities names)
    some ({ E with rocN := r.1.rocN }, (r.2.map Prod.fst, r.2.map Prod.snd))
  else none

/-! ## getFDR_divergence -/

/-- The `for` loop of `getFDR_divergence` from index `k`, with `steps` iterations left
before `k` reaches `diff.size()-1`: the value of `k` and of `tot` when the loop is left;
`none` when a vector is read outside its bounds. -/
def divergenceLoop (conservative : Bool) (estFDR diff : List Dbl) (THRESH : Dbl) :
    Nat → Nat → Dbl → Option (Nat × Dbl)
  | 0, k, tot => some (k, tot)
  | steps + 1, k, tot =>
    match estFDR[k]? with
    | none => none
    | some ek =>
      if Dbl.ge ek THRESH then
        some (k, if k = 0 then (Dbl.fin 1).div (Dbl.fin 0) else tot)
      else
        match estFDR[k + 1]?, diff[k]?, diff[k + 1]? with
        | some ek1, some dk, some dk1 =>
          divergenceLoop conservative estFDR diff THRESH steps (k + 1)
            (tot.add (if conservative then area ek dk ek1 dk1 ek1
              else areaSq ek dk ek1 dk1 ek1))
        | _, _, _ => none

/-- Modelled from the spec: the class `Vector` is declared outside the sources; the spec
describes `Vector(estFDR) - Vector(empFDR)` as the "signed pointwise differences
(estimated − empirical) along ranks". -/
def vectorDiff (a b : List Dbl) : List Dbl := List.zipWith Dbl.sub a b

/-- The method `getFDR_divergence(estFDR, empFDR, THRESH)`.  The two curves have one size
(`none` otherwise), and the `k` read after the loop is the index at which the loop was
left. -/
def getFDR_divergence (E : Estimator) (estFDR empFDR : List Dbl) (THRESH : Dbl) :
    Option Dbl :=
  if estFDR.length ≠ empFDR.length then none
  else
    let diff := vectorDiff estFDR empFDR
    match divergenceLoop E.conservative estFDR diff THRESH (diff.length - 1) 0 (Dbl.fin 0) with
    | none => none
    | some (k, tot) =>
      match estFDR[k]?, estFDR[0]? with
      | some ek, some e0 =>
        let xRange := (Dbl.min THRESH ek).sub e0
        if tot.isinf then some tot else some (tot.div xRange)
      | _, _ => none

/-! ## Binary64 arithmetic -/

/-- The power `2^e` for an integer exponent. -/
def pow2 (e : Int) : ℚ :=
  if 0 ≤ e then (2 : ℚ) ^ e.toNat else 1 / (2 : ℚ) ^ (-e).toNat

/-- The number of halvings that bring `n` below 2, at most `fuel` of them. -/
def halvings : Nat → Nat → Nat
  | 0, _ => 0
  | fuel + 1, n => if 2 ≤ n then halvings fuel (n / 2) + 1 else 0

/-- The binary exponent of a positive rational `a`: the integer `e` with
`2^e <= a < 2^(e+1)`. -/
def floorLog2 (a : ℚ) : Int :=
  let e0 : Int := (halvings a.num.toNat a.num.toNat : Int) - (halvings a.den a.den : Int)
  if pow2 e0 ≤ a then e0 else e0 - 1

/-- Rounding of a non-negative rational to the nearest integer, a tie going to the even
neighbour. -/
def roundNearestEven (n : ℚ) : Int :=
  let k := Int.floor n
  let r := n - k
  if r < 1 / 2 then k else if 1 / 2 < r then k + 1 else if k % 2 = 0 then k else k + 1

/-- Rounding of an exact result to binary64 (IEEE 754 double, round to nearest, ties to
even): 53 significant bits, exponents from `-1022` to `1023`, gradual underflow below
`2^-1022`, overflow to an infinity from `2^1024` on. -/
def round64 (q : ℚ) : Dbl :=
  if q = 0 then Dbl.fin 0
  else
    let a := if 0 < q then q else -q
    let e := Max.max (floorLog2 a) (-1022)
    let ulp := pow2 (e - 52)
    let r := (roundNearestEven (a / ulp) : ℚ) * ulp
    if pow2 1024 ≤ r then (if 0 < q then Dbl.pinf else Dbl.ninf)
    else Dbl.fin (if 0 < q then r else -r)

/-- The result of a floating-point operation: a finite exact result is rounded to
binary64, a special value is kept. -/
def Dbl.round : Dbl → Dbl
  | Dbl.fin q => round64 q
  | x => x

/-- The four arithmetic operations on doubles.  The other definitions of this file use
the exact operations; the functions whose claims depend on rounding are given once more
below with the operations as a parameter, to be read with `binary64`. -/
structure Arith where
  add : Dbl → Dbl → Dbl
  sub : Dbl → Dbl → Dbl
  mul : Dbl → Dbl → Dbl
  div : Dbl → Dbl → Dbl

/-- The exact operations. -/
def exactArith : Arith := ⟨Dbl.add, Dbl.sub, Dbl.mul, Dbl.div⟩

/-- The operations of binary64: the exact result of each single operation, rounded (no
fused multiply-add, no extended precision). -/
def binary64 : Arith :=
  ⟨fun a b => (a.add b).round, fun a b => (a.sub b).round, fun a b => (a.mul b).round,
   fun a b => (a.div b).round⟩

/-- The function `antiderivativeAt`, `m*xVal*xVal/2.0 + b*xVal`, with the operations of
`A` in the order of evaluation of the source. -/
def antiderivativeAtWith (A : Arith) (m b xVal : Dbl) : Dbl :=
  A.add (A.div (A.mul (A.mul m xVal) xVal) (Dbl.fin 2)) (A.mul b xVal)

/-- The function `squareAntiderivativeAt` with the operations of `A`. -/
def squareAntiderivativeAtWith (A : Arith) (m b xVal : Dbl) : Dbl :=
  let u := A.mul m m
  let v := A.mul (A.mul (Dbl.fin 2) m) b
  let t := A.mul b b
  A.add (A.add (A.div (A.mul (A.mul (A.mul u xVal) xVal) xVal) (Dbl.fin 3))
    (A.div (A.mul (A.mul v xVal) xVal) (Dbl.fin 2))) (A.mul t xVal)

/-- The function `area(x1, y1, x2, y2, max_x)` with the operations of `A`. -/
def areaWith (A : Arith) (x1 y1 x2 y2 max_x : Dbl) : Dbl :=
  let m := A.div (A.sub y2 y1) (A.sub x2 x1)
  let b := A.sub y1 (A.mul m x1)
  let area := A.sub (antiderivativeAtWith A m b (Dbl.min max_x x2))
    (antiderivativeAtWith A m b x1)
  if area.isnan then Dbl.fin 0 else area

/-- The function `areaSq(x1, y1, x2, y2, threshold)` with the operations of `A`. -/
def areaSqWith (A : Arith) (x1 y1 x2 y2 threshold : Dbl) : Dbl :=
  let m := A.div (A.sub y2 y1) (A.sub x2 x1)
  let b := A.sub y1 (A.mul m x1)
  let area := A.sub (squareAntiderivativeAtWith A m b (Dbl.min threshold x2))
    (squareAntiderivativeAtWith A m b x1)
  if area.isnan then Dbl.fin 0 else area

/-- The `for` loop of `getFDR_divergence` with the operations of `A`, from index `k` with
`steps` iterations left: the value of `k` and of `tot` when the loop is left; `none` when
a vector is read outside its bounds. -/
def divergenceLoopWith (A : Arith) (conservative : Bool) (estFDR diff : List Dbl)
    (THRESH : Dbl) : Nat → Nat → Dbl → Option (Nat × Dbl)
  | 0, k, tot => some (k, tot)
  | steps + 1, k, tot =>
    match estFDR[k]? with
    | none => none
    | some ek =>
      if Dbl.ge ek THRESH then
        some (k, if k = 0 then A.div (Dbl.fin 1) (Dbl.fin 0) else tot)
      else
        match estFDR[k + 1]?, diff[k]?, diff[k + 1]? with
        | some ek1, some dk, some dk1 =>
          divergenceLoopWith A conservative estFDR diff THRESH steps (k + 1)
            (A.add tot (if conservative then areaWith A ek dk ek1 dk1 ek1
              else areaSqWith A ek dk ek1 dk1 ek1))
        | _, _, _ => none

/-- Modelled from the spec: `Vector(estFDR) - Vector(empFDR)`, the "signed pointwise
differences (estimated − empirical) along ranks", with the subtraction of `A`. -/
def vectorDiffWith (A : Arith) (a b : List Dbl) : List Dbl := List.zipWith A.sub a b

/-- The last two statements of `getFDR_divergence`: `tot` itself when it is an infinity,
else `tot / xRange`. -/
def divergenceResult (A : Arith) (tot xRange : Dbl) : Option Dbl :=
  if tot.isinf then some tot else some (A.div tot xRange)

/-- The method `getFDR_divergence(estFDR, empFDR, THRESH)` with the operations of `A`. -/
def getFDR_divergenceWith (A : Arith) (E : Estimator) (estFDR empFDR : List Dbl)
    (THRESH : Dbl) : Option Dbl :=
  if estFDR.length ≠ empFDR.length then none
  else
    let diff := vectorDiffWith A estFDR empFDR
    match divergenceLoopWith A E.conservative estFDR diff THRESH (diff.length - 1) 0
        (Dbl.fin 0) with
    | none => none
    | some (k, tot) =>
      match estFDR[k]?, estFDR[0]? with
      | some ek, some e0 => divergenceResult A tot (A.sub (Dbl.min THRESH ek) e0)
      | _, _ => none

/-! ## Protein registry: setTargetandDecoysNames -/

/-- The call `proteins.find(name)`: the protein stored under `name`, if any. -/
def mapFind : List (String × Protein) → String → Option Protein
  | [], _ => none
  | (k, v) :: rest, name => if k = name then some v else mapFind rest name

/-- The statement `proteins[name]->f(...)` for a key that is present: the protein stored
under `name` is changed by `f`. -/
def mapUpdate (name : String) (f : Protein → Protein) :
    List (String × Protein) → List (String × Protein)
  | [] => []
  | (k, v) :: rest => (k, if k = name then f v else v) :: mapUpdate name f rest

/-- The call `set.insert(name)` of a `std::set<std::string>`. -/
def setInsert (s : List String) (name : String) : List String :=
  if name ∈ s then s else s ++ [name]

/-- The record `new Protein::Peptide(sequence, isDecoy, pep, q, p)` made from a match. -/
def peptideOf (psm : ScoreHolder) : Peptide :=
  { name := psm.peptideSequence, isdecoy := psm.isDecoy, pep := psm.pep, q := psm.q,
    p := psm.p }

/-- Modelled from the spec: the constructor call
`new Protein(name, 0.0, 0.0, 0.0, 0.0, isDecoy, peptide)` is declared outside the
sources; the spec "creates a Protein on first sight (decoy flag = the match's decoy flag)
and appends a Peptide record". -/
def newProtein (name : String) (isDecoy : Bool) (peptide : Peptide) : Protein :=
  { name := name, isDecoy := isDecoy, peptides := [peptide] }

/-- Modelled from the spec: the method `Protein::setPeptide(peptide)` is declared outside
the sources; the spec "on subsequent sight, only appends the Peptide record (the decoy
flag is never revised)". -/
def Protein.setPeptide (P : Protein) (peptide : Peptide) : Protein :=
  { P with peptides := P.peptides ++ [peptide] }

/-- Body of the inner loop of `setTargetandDecoysNames`, for one protein identifier of
one match. -/
def registerProtein (psm : ScoreHolder) (E : Estimator) (protId : String) : Estimator :=
  let peptide := peptideOf psm
  match mapFind E.proteins protId with
  | none =>
    let newprotein := newProtein protId psm.isDecoy peptide
    let E1 := { E with proteins := E.proteins ++ [(protId, newprotein)] }
    if psm.isDecoy then { E1 with falsePosSet := setInsert E1.falsePosSet protId }
    else { E1 with truePosSet := setInsert E1.truePosSet protId }
  | some _ =>
    { E with proteins := mapUpdate protId (fun P => P.setPeptide peptide) E.proteins }

/-- Body of the outer loop of `setTargetandDecoysNames`, for one match. -/
def registerMatch (E : Estimator) (psm : ScoreHolder) : Estimator :=
  psm.proteinIds.foldl (registerProtein psm) E

/-- The method `setTargetandDecoysNames`, reading the matches `peptideScores`. -/
def setTargetandDecoysNames (E : Estimator) (peptideScores : List ScoreHolder) : Estimator :=
  let E1 := peptideScores.foldl registerMatch E
  { E1 with numberDecoyProteins := E1.falsePosSet.length,
            numberTargetProteins := E1.truePosSet.length }

/-! ## getQvaluesBelowLevel -/

/-- The loop of `getQvaluesBelowLevel(level)` over the registry, `nP` being the counter on
entry. -/
def qvaluesBelowLoop (level : Dbl) : Nat → List (String × Protein) → Nat
  | nP, [] => nP
  | nP, (_, P) :: rest =>
    qvaluesBelowLoop level (if Dbl.le P.q level && !P.isDecoy then nP + 1 else nP) rest

/-- The method `getQvaluesBelowLevel(level)`. -/
def getQvaluesBelowLevel (E : Estimator) (level : Dbl) : Nat :=
  qvaluesBelowLoop level 0 E.proteins

/-- The loop of `getQvaluesBelowLevelDecoy(level)` over the registry. -/
def qvaluesBelowDecoyLoop (level : Dbl) : Nat → List (String × Protein) → Nat
  | nP, [] => nP
  | nP, (_, P) :: rest =>
    qvaluesBelowDecoyLoop level (if Dbl.le P.q level && P.isDecoy then nP + 1 else nP) rest

/-- The method `getQvaluesBelowLevelDecoy(level)`. -/
def getQvaluesBelowLevelDecoy (E : Estimator) (level : Dbl) : Nat :=
  qvaluesBelowDecoyLoop level 0 E.proteins

/-! ## estimatePValues -/

/-- The comparison `a == b` of two doubles, false when either side is `NaN`. -/
def Dbl.eq : Dbl → Dbl → Bool
  | Dbl.fin a, Dbl.fin b => decide (a = b)
  | Dbl.pinf, Dbl.pinf => true
  | Dbl.ninf, Dbl.ninf => true
  | _, _ => false

/-- The inner loop of the first part of `estimatePValues` over the names of one group:
the pairs `(prob, proteins[name]->getIsDecoy())`; `none` when a name has no protein in
the registry (a null pointer is dereferenced). -/
def combinedOfGroup (proteins : List (String × Protein)) (prob : Dbl) :
    List String → Option (List (Dbl × Bool))
  | [] => some []
  | proteinName :: rest =>
    match mapFind proteins proteinName, combinedOfGroup proteins prob rest with
    | some P, some r => some ((prob, P.isDecoy) :: r)
    | _, _ => none

/-- The first part of `estimatePValues`: the vector `combined`. -/
def combinedOfList (proteins : List (String × Protein)) :
    List (Dbl × List String) → Option (List (Dbl × Bool))
  | [] => some []
  | e :: rest =>
    match combinedOfGroup proteins e.1 e.2, combinedOfList proteins rest with
    | some a, some r => some (a ++ r)
    | _, _ => none

/-- Loop variables of the `while` loop of `estimatePValues`. -/
structure PvalAcc where
  nDecoys : Nat
  posSame : Nat
  negSame : Nat
  prevScore : Dbl

/-- Body of the `while` loop of `estimatePValues` for one pair `(score, isDecoy)`: when
the score changes, one value per target of the finished score group is pushed, namely
`(double)nDecoys + ((double)negSame / (double)(posSame + 1)) * (ix + 1)`. -/
def pvalStep (s : PvalAcc) (myPair : Dbl × Bool) : PvalAcc × List Dbl :=
  let flushed : PvalAcc × List Dbl :=
    if !Dbl.eq myPair.1 s.prevScore then
      (⟨s.nDecoys + s.negSame, 0, 0, myPair.1⟩,
       (List.range s.posSame).map (fun ix =>
         (Dbl.ofNat s.nDecoys).add
           (((Dbl.ofNat s.negSame).div (Dbl.ofNat (s.posSame + 1))).mul (Dbl.ofNat (ix + 1)))))
    else (s, [])
  let s1 := flushed.1
  (if myPair.2 then { s1 with negSame := s1.negSame + 1 }
   else { s1 with posSame := s1.posSame + 1 }, flushed.2)

/-- The method `estimatePValues`: fills `pvalues`. -/
def estimatePValues (E : Estimator) : Option Estimator :=
  match combinedOfList E.proteins E.pepProteins with
  | none => none
  | some combined =>
    let r := loopPushMany pvalStep ⟨0, 0, 0, Dbl.fin (-47114711 / 10000)⟩ combined
    some { E with pvalues := r.2.map (fun x => x.div (Dbl.ofNat r.1.nDecoys)) }

/-! ## estimatePi0 -/

/-- The library `std::lower_bound(v.begin(), v.end(), value)` by its contract, as an
index: on a range partitioned by `x < value` (every ascending range is), the position of
the first element that is not less than `value`. -/
def lower_bound (v : List Dbl) (value : Dbl) : Nat :=
  (v.takeWhile (fun x => Dbl.lt x value)).length

/-- The library `std::sort` by its contract: the values in ascending order, here by
insertion. -/
def sort : List Dbl → List Dbl
  | [] => []
  | x :: xs => List.orderedInsert (fun a b => Dbl.le a b = true) x (sort xs)

/-- The library `std::min_element` as an index, scanning from position `i` with the
smallest value so far `smallest` found at position `best`: the first smallest element. -/
def minElementLoop : Dbl → Nat → Nat → List Dbl → Nat
  | _, best, _, [] => best
  | smallest, best, i, x :: xs =>
    if Dbl.lt x smallest then minElementLoop x i (i + 1) xs
    else minElementLoop smallest best (i + 1) xs

/-- The library `std::min_element(v.begin(), v.end())` as an index. -/
def min_element : List Dbl → Nat
  | [] => 0
  | x :: xs => minElementLoop x 0 1 xs

/-- The two statements `Wl = distance(lower_bound(v, lambda), v.end())` and
`pi0 = Wl / n / (1 - lambda)`. -/
def pi0AtLambda (v : List Dbl) (n : Nat) (lambda : Dbl) : Dbl :=
  let Wl := Dbl.ofNat (v.length - lower_bound v lambda)
  (Wl.div (Dbl.ofNat n)).div ((Dbl.fin 1).sub lambda)

/-- The threshold `lambda = ((ix + 1) / (double)numLambda) * maxLambda` with
`numLambda = 100` and `maxLambda = 0.5`. -/
def lambdaAt (ix : Nat) : Dbl :=
  ((Dbl.ofNat (ix + 1)).div (Dbl.ofNat 100)).mul (Dbl.fin (1 / 2))

/-- The first loop of `estimatePi0`, `for (ix = 0; ix <= numLambda; ++ix)`: the pairs
`(lambda, pi0)` pushed on `lambdas` and `pi0s`, those with `pi0 > 0.0`. -/
def pi0Candidates (pvalues : List Dbl) : List (Dbl × Dbl) :=
  (List.range 101).filterMap (fun ix =>
    let lambda := lambdaAt ix
    let pi0 := pi0AtLambda pvalues pvalues.length lambda
    if Dbl.gt pi0 (Dbl.fin 0) then some (lambda, pi0) else none)

/-- The index `(size_t)((double)rand() / ((double)RAND_MAX + (double)1) * n)` drawn by
`bootstrap`; the result of the `call`-th call of `rand()` is `rnd call` reduced to the
range `0..RAND_MAX`. -/
def bootstrapDraw (rnd : Nat → Nat) (randMax : Nat) (n : Nat) (call : Nat) : Nat :=
  ((((Dbl.ofNat (rnd call % (randMax + 1))).div
    ((Dbl.ofNat randMax).add (Dbl.fin 1))).mul (Dbl.ofNat n)).toInt).toNat

/-- The reads `in[draw]` of `bootstrap`; `none` when one is outside the vector. -/
def drawAll (v : List Dbl) : List Nat → Option (List Dbl)
  | [] => some []
  | draw :: rest =>
    match v[draw]?, drawAll v rest with
    | some x, some r => some (x :: r)
    | _, _ => none

/-- The helper `bootstrap(in, out, max_size)`: `min(in.size(), max_size)` draws with
replacement, sorted; `firstCall` numbers the first call of `rand()` it makes. -/
def bootstrap (v : List Dbl) (rnd : Nat → Nat) (randMax : Nat) (firstCall : Nat)
    (max_size : Nat) : Option (List Dbl) :=
  let num_draw := Min.min v.length max_size
  match drawAll v ((List.range num_draw).map
      (fun ix => bootstrapDraw rnd randMax v.length (firstCall + ix))) with
  | none => none
  | some out => some (sort out)

/-- The bootstrap loop of `estimatePi0`, with `iterations` rounds left and `boot` rounds
done: every round adds `(pi0Boot - minPi0)^2` to `mse[ix]` for every kept lambda. -/
def mseLoop (pvalues : List Dbl) (lambdas : List Dbl) (minPi0 : Dbl) (rnd : Nat → Nat)
    (randMax : Nat) : Nat → Nat → List Dbl → Option (List Dbl)
  | 0, _, mse => some mse
  | iterations + 1, boot, mse =>
    match bootstrap pvalues rnd randMax (boot * Min.min pvalues.length 1000) 1000 with
    | none => none
    | some pBoot =>
      mseLoop pvalues lambdas minPi0 rnd randMax iterations (boot + 1)
        (List.zipWith (fun m lambda =>
          let pi0Boot := pi0AtLambda pBoot pBoot.length lambda
          m.add ((pi0Boot.sub minPi0).mul (pi0Boot.sub minPi0))) mse lambdas)

/-- The method `estimatePi0(numBoot)` on the field `pvalues`; `rnd` and `randMax` stand
for the library `rand()` and `RAND_MAX`.  The failure sentinel is `-1`; `none` is a read
outside a vector. -/
def estimatePi0 (E : Estimator) (numBoot : Nat) (rnd : Nat → Nat) (randMax : Nat) :
    Option Dbl :=
  let lambdas := (pi0Candidates E.pvalues).map Prod.fst
  let pi0s := (pi0Candidates E.pvalues).map Prod.snd
  if pi0s.length = 0 then some (Dbl.fin (-1))
  else
    match pi0s[min_element pi0s]? with
    | none => none
    | some minPi0 =>
      match mseLoop E.pvalues lambdas minPi0 rnd randMax numBoot 0
          (pi0s.map (fun _ => Dbl.fin 0)) with
      | none => none
      | some mse =>
        match pi0s[min_element mse]? with
        | none => none
        | some x => some (Dbl.max (Dbl.min x (Dbl.fin 1)) (Dbl.fin 0))

/-! ## run: how pi0 is set -/

/-- The statements of `run()` after the call of `estimateFDR` in the MAYU-style branch,
for its result `fptol` and the size of the implicated target set `TPandPF.first`. -/
def run_mayuPi0 (E : Estimator) (fptol : Dbl) (tpSize : Nat) : Estimator :=
  if Dbl.eq fptol (Dbl.fin (-1)) then { E with pi0 := Dbl.fin 1 }
  else
    let pi0 := fptol.div (Dbl.ofNat tpSize)
    { E with pi0 := if Dbl.le pi0 (Dbl.fin 0) || Dbl.ge pi0 (Dbl.fin 1) then Dbl.fin 1
                    else pi0 }

/-- The two statements `pi0 = r; if(pi0 <= 0.0 || pi0 > 1.0) pi0 = *qvalues.rbegin();` of
`run()`, `r` being what `estimatePi0()` returned; `none` when `qvalues` is empty and its
last element is read. -/
def run_pi0Fallback (E : Estimator) (r : Dbl) : Option Estimator :=
  if Dbl.le r (Dbl.fin 0) || Dbl.gt r (Dbl.fin 1) then
    match E.qvalues.getLast? with
    | none => none
    | some last => some { E with pi0 := last }
  else some { E with pi0 := r }

/-- The statements of `run()` from `estimateQValues()` to the end of the
`if(usePi0 && !mayufdr)` block. -/
def run_estimatePi0 (E : Estimator) (numBoot : Nat) (rnd : Nat → Nat) (randMax : Nat) :
    Option Estimator :=
  let E1 := estimateQValues E
  if E1.usePi0 && !E1.mayufdr then
    match estimatePValues E1 with
    | none => none
    | some E2 =>
      match estimatePi0 E2 numBoot rnd randMax with
      | none => none
      | some r => run_pi0Fallback E2 r
  else some E1

/-! ## getROC -/

/-- Loop variables of `getROC`. -/
structure RocAcc where
  fpCount : Nat
  tpCount : Nat

/-- Body of the loop of `getROC` for the group `names[k]`: the counts are pushed, and the
loop is left when `fpCount > rocN`. -/
def rocStep (E : Estimator) (s : RocAcc) (group : List String) : RocAcc × (Nat × Nat) × Bool :=
  let fpChange := countDecoys E.decoyPattern group
  let tpChange := countTargets E.decoyPattern group
  let fpCount := s.fpCount + fpChange
  let tpCount := s.tpCount + tpChange
  (⟨fpCount, tpCount⟩, (fpCount, tpCount), decide (fpCount > E.rocN))

/-- The method `getROC(names)`: the vectors `fps` and `tps`.  After the loop the current
counts are pushed once more, and then the sizes of the two name sets. -/
def getROC (E : Estimator) (names : List (List String)) : List Nat × List Nat :=
  let r := loopPushBreak (rocStep E) ⟨0, 0⟩ names
  let points := r.2.1 ++ [(r.1.fpCount, r.1.tpCount),
    (E.falsePosSet.length, E.truePosSet.length)]
  (points.map Prod.fst, points.map Prod.snd)

/-! ## gridSearch -/

/-- How a method that returns nothing or an object ends: normally with a result, by
`exit(1)`, or by a read outside a vector. -/
inductive Run (α : Type) where
  | done (a : α)
  | fatal
  | undefined

/-- The result of a normal end, if the run ended normally. -/
def Run.toOption {α : Type} : Run α → Option α
  | Run.done a => some a
  | _ => none

/-- Conversion of an `unsigned` to `int` (32 bits), as applied to `rocN` when it is
passed for the parameter `int N` of `getROC_N`. -/
def toInt32 (n : Nat) : Int :=
  if n % 4294967296 < 2147483648 then ((n % 4294967296 : Nat) : Int)
  else ((n % 4294967296 : Nat) : Int) - 4294967296

/-- The arrays `gamma_search`, `beta_search`, `alpha_search` declared at the top of
`gridSearch`. -/
def gamma_search : List Dbl := [Dbl.fin (1/2)]

/-- The array `beta_search` declared at the top of `gridSearch`. -/
def beta_search : List Dbl :=
  [Dbl.fin 0, Dbl.fin (1/100), Dbl.fin (15/100), Dbl.fin (25/1000), Dbl.fin (5/100)]

/-- The array `alpha_search` declared at the top of `gridSearch`. -/
def alpha_search : List Dbl :=
  [Dbl.fin (1/100), Dbl.fin (4/100), Dbl.fin (16/100), Dbl.fin (25/100), Dbl.fin (36/100)]

/-- The arrays `(gamma_search, beta_search, alpha_search)` that the block of
`if(deepness == d)` declares for `d = 0, 1, 2, 3`.  They are new variables of that block
and end with it; `075` is an octal literal, 61. -/
def blockArrays (deepness : Nat) : List Dbl × List Dbl × List Dbl :=
  if deepness = 0 then
    ([Dbl.fin (1/10), Dbl.fin (1/4), Dbl.fin (1/2), Dbl.fin 61, Dbl.fin (9/10)],
     [Dbl.fin 0, Dbl.fin (1/100), Dbl.fin (15/100), Dbl.fin (25/1000), Dbl.fin (35/100),
      Dbl.fin (5/100), Dbl.fin (1/10)],
     [Dbl.fin (1/100), Dbl.fin (4/100), Dbl.fin (9/100), Dbl.fin (16/100), Dbl.fin (25/100),
      Dbl.fin (36/100), Dbl.fin (1/2)])
  else if deepness = 1 then
    ([Dbl.fin (1/10), Dbl.fin (1/4), Dbl.fin (1/2), Dbl.fin 61],
     [Dbl.fin 0, Dbl.fin (1/100), Dbl.fin (15/100), Dbl.fin (20/1000), Dbl.fin (25/1000),
      Dbl.fin (5/100)],
     [Dbl.fin (1/100), Dbl.fin (4/100), Dbl.fin (9/100), Dbl.fin (16/100), Dbl.fin (25/100),
      Dbl.fin (36/100)])
  else if deepness = 2 then
    ([Dbl.fin (1/10), Dbl.fin (1/2), Dbl.fin (3/4)],
     [Dbl.fin 0, Dbl.fin (1/100), Dbl.fin (15/100), Dbl.fin (25/1000), Dbl.fin (5/100)],
     [Dbl.fin (1/100), Dbl.fin (4/100), Dbl.fin (16/100), Dbl.fin (25/100), Dbl.fin (36/100)])
  else
    ([Dbl.fin (1/2)],
     [Dbl.fin 0, Dbl.fin (1/100), Dbl.fin (15/100), Dbl.fin (25/1000), Dbl.fin (5/100)],
     [Dbl.fin (1/100), Dbl.fin (4/100), Dbl.fin (16/100), Dbl.fin (25/100), Dbl.fin (36/100)])

/-- The triples `(gamma, alpha, beta)` in the order of the three nested `for` loops:
`gamma` outermost, then `alpha`, then `beta`. -/
def gridTriples (gammas alphas betas : List Dbl) : List (Dbl × Dbl × Dbl) :=
  gammas.flatMap (fun gamma => alphas.flatMap (fun alpha =>
    betas.map (fun beta => (gamma, alpha, beta))))

/-- Loop variables of `gridSearch`, with the estimator whose fields the loop body writes
and the list of the triples `(gamma, alpha, beta)` handed to the inference engine so far. -/
structure GridAcc where
  E : Estimator
  gamma_best : Dbl
  alpha_best : Dbl
  beta_best : Dbl
  best_objective : Dbl
  evaluated : List (Dbl × Dbl × Dbl)

/-- First part of the body of the innermost loop of `gridSearch` for one triple: the
estimator after the calls, and `current_objective`.  `engine alpha beta gamma` stands for
the calls `setAlphaBetaGamma`, `getProteinProbs`, `getProteinProbsAndNames` of the protein
graph, which is outside the sources: it gives `(prot_names, prot_probs)`. -/
def candidateObjective (engine : Dbl → Dbl → Dbl → List (List String) × List Dbl)
    (E : Estimator) (c : Dbl × Dbl × Dbl) : Run (Estimator × Dbl) :=
  let E1 := { E with gamma := c.1, alpha := c.2.1, beta := c.2.2 }
  let NameProbs := engine E1.alpha E1.beta E1.gamma
  let prot_probs := NameProbs.2
  let prot_names := NameProbs.1
  match getEstimated_and_Empirical_FDR E1 prot_names prot_probs with
  | none => Run.undefined
  | some (E2, EstEmp) =>
    let roc := getROC E2 prot_names
    match getROC_N roc.1 roc.2 (toInt32 E2.rocN) with
    | Outcome.fatal => Run.fatal
    | Outcome.undefined => Run.undefined
    | Outcome.value rocR =>
      match getFDR_divergence E2 EstEmp.1 EstEmp.2 E2.threshold with
      | none => Run.undefined
      | some fdr_mse =>
        Run.done (E2, (E2.lambda.mul rocR).sub (((Dbl.fin 1).sub E2.lambda).mul fdr_mse))

/-- Body of the innermost loop of `gridSearch` for one triple: the objective is computed
and the triple is kept when `current_objective > best_objective`. -/
def gridStep (engine : Dbl → Dbl → Dbl → List (List String) × List Dbl) (s : GridAcc)
    (c : Dbl × Dbl × Dbl) : Run GridAcc :=
  match candidateObjective engine s.E c with
  | Run.fatal => Run.fatal
  | Run.undefined => Run.undefined
  | Run.done (E2, current_objective) =>
    if Dbl.gt current_objective s.best_objective then
      Run.done { E := E2, gamma_best := E2.gamma, alpha_best := E2.alpha,
                 beta_best := E2.beta, best_objective := current_objective,
                 evaluated := s.evaluated ++ [c] }
    else Run.done { s with E := E2, evaluated := s.evaluated ++ [c] }

/-- The three nested loops of `gridSearch` over the triples still to visit. -/
def gridLoop (engine : Dbl → Dbl → Dbl → List (List String) × List Dbl) :
    GridAcc → List (Dbl × Dbl × Dbl) → Run GridAcc
  | s, [] => Run.done s
  | s, c :: rest =>
    match gridStep engine s c with
    | Run.done s1 => gridLoop engine s1 rest
    | Run.fatal => Run.fatal
    | Run.undefined => Run.undefined

/-- The method `gridSearch(__alpha, __gamma, __beta)`: the estimator it leaves, and the
triples `(gamma, alpha, beta)` handed to the inference engine, in order.

The loops read the three arrays declared at the top of the function.  The arrays of the
same names declared in the blocks of `if(deepness == ...)` (`blockArrays`) and in the
statements `if(__alpha != -1) double alpha_search[] = {__alpha};` (and the like for
`__beta`, `__gamma`) are other variables, which end with their block or statement, so
neither `deepness` nor the three arguments reach the loops. -/
def gridSearch (engine : Dbl → Dbl → Dbl → List (List String) × List Dbl) (E : Estimator)
    (__alpha __gamma __beta : Dbl) : Run (Estimator × List (Dbl × Dbl × Dbl)) :=
  let s0 : GridAcc :=
    { E := E, gamma_best := Dbl.fin (-1), alpha_best := Dbl.fin (-1),
      beta_best := Dbl.fin (-1), best_objective := Dbl.fin (-100000000), evaluated := [] }
  let _blockLocal := blockArrays E.deepness
  let _pinned := (if !Dbl.eq __alpha (Dbl.fin (-1)) then [__alpha] else [],
    if !Dbl.eq __beta (Dbl.fin (-1)) then [__beta] else [],
    if !Dbl.eq __gamma (Dbl.fin (-1)) then [__gamma] else [])
  match gridLoop engine s0 (gridTriples gamma_search alpha_search beta_search) with
  | Run.done s =>
    Run.done ({ s.E with alpha := s.alpha_best, beta := s.beta_best, gamma := s.gamma_best },
      s.evaluated)
  | Run.fatal => Run.fatal
  | Run.undefined => Run.undefined

/-- An estimator for the grid-search examples: threshold `0.1`, weight `lambda = 0.5`,
`rocN = 1` fixed, two known targets and one known decoy. -/
def gridEstimator (ties : Bool) : Estimator :=
  { decoyPattern := "random"
    tiesAsOneProtein := ties
    threshold := Dbl.fin (1/10)
    lambda := Dbl.fin (1/2)
    rocN := 1
    numberTargetProteins := 2
    numberDecoyProteins := 1
    truePosSet := ["P1", "P2"]
    falsePosSet := ["random_D"] }

/-- An inference engine whose ranked list does not depend on the parameters: two
confident targets, then the decoy. -/
def confidentEngine (_alpha _beta _gamma : Dbl) : List (List String) × List Dbl :=
  ([["P1"], ["P2"], ["random_D"]], [Dbl.fin (1/100), Dbl.fin (5/100), Dbl.fin (9/10)])

/-- An inference engine whose best protein already has probability `0.5`, above the
threshold `0.1`, whatever the parameters. -/
def hopelessEngine (_alpha _beta _gamma : Dbl) : List (List String) × List Dbl :=
  ([["P1"], ["P2"], ["random_D"]], [Dbl.fin (1/2), Dbl.fin (6/10), Dbl.fin (7/10)])

/-! ## Divisions evaluated by the q-value estimators -/

/-- The operands `(sum, (double)nP)` of the division `qvalue = (sum / (double)nP)` that
the `tiesAsOneProtein` branch of `estimateQValues` evaluates for one ranked entry, after
the update of `sum` and `nP`. -/
def qDivisionTies (decoyPattern : String) (s : QAcc) (e : Dbl × List String) :
    QAcc × (Dbl × Dbl) :=
  let s1 := (qStepTies decoyPattern s e).1
  (s1, (s1.sum, Dbl.ofNat s1.nP))

/-- The operands `(sum, (double)nP)` of the division `qvalue = (sum / (double)nP)` that
the per-protein branch of `estimateQValues` evaluates for one protein name. -/
def qDivisionName (decoyPattern : String) (prob : Dbl) (s : QAcc) (protein : String) :
    QAcc × (Dbl × Dbl) :=
  let s1 := (qStepName decoyPattern prob s protein).1
  (s1, (s1.sum, Dbl.ofNat s1.nP))

/-- The operands of the divisions `sum / (double)nP` evaluated by `estimateQValues`, one
per pushed q-value, in the order of evaluation. -/
def qDivisions (E : Estimator) : List (Dbl × Dbl) :=
  if E.tiesAsOneProtein then
    (loopPush (qDivisionTies E.decoyPattern) ⟨0, Dbl.fin 0⟩ E.pepProteins).2
  else
    (loopPushMany (fun s e => loopPush (qDivisionName E.decoyPattern e.1) s e.2)
      ⟨0, Dbl.fin 0⟩ E.pepProteins).2

/-- The statement
`if(nTargets) qvalue = (double)(nDecoys * pi0 * TargetDecoyRatio) / (double)nTargets;`
of `estimateQValuesEmp` in the state `s1` reached after the update of the counts: the
operands of the division when it is evaluated, `none` when the guard skips it. -/
def empDivisionAt (E : Estimator) (s1 : EmpAcc) : Option (Dbl × Dbl) :=
  let TargetDecoyRatio :=
    (Dbl.ofNat E.numberTargetProteins).div (Dbl.ofNat E.numberDecoyProteins)
  if s1.nTargets ≠ 0 then
    some (((Dbl.ofNat s1.nDecoys).mul E.pi0).mul TargetDecoyRatio, Dbl.ofNat s1.nTargets)
  else none

/-- The divisions by `(double)nTargets` evaluated by `estimateQValuesEmp`, one item per
pushed empirical q-value: the operands, or `none` where the division is skipped. -/
def empDivisions (E : Estimator) : List (Option (Dbl × Dbl)) :=
  if E.tiesAsOneProtein then
    (loopPush (fun s e => ((empStepTies E s e).1, empDivisionAt E (empStepTies E s e).1))
      ⟨0, 0, Dbl.fin 0⟩ E.pepProteins).2
  else
    (loopPushMany (fun s e =>
        loopPush (fun s name => ((empStepName E s name).1,
          empDivisionAt E (empStepName E s name).1)) s e.2)
      ⟨0, 0, Dbl.fin 0⟩ E.pepProteins).2

/-- The last statement of the constructor,
`if(__rocN > 0) { updateRocN = false; rocN = __rocN; } else { updateRocN = true; }`:
with `__rocN = 0` the member `rocN` is not assigned and keeps what it held. -/
def constructRocN (E : Estimator) (__rocN : Nat) : Estimator :=
  if __rocN > 0 then { E with updateRocN := false, rocN := __rocN }
  else { E with updateRocN := true }

/-! ## updateProteinProbabilities -/

/-- Modelled from the spec: the four setters `setPEP`, `setQ`, `setQemp`, `setP` of
`Protein` are declared in a header outside the sources; the spec gives a Protein the
"mutable statistics PEP, q-value, empirical q-value, p-value", so the four calls in a row
store these four values. -/
def Protein.setStatistics (P : Protein) (pep q qemp p : Dbl) : Protein :=
  { P with pep := pep, q := q, qemp := qemp, p := p }

/-- The index at which the body of `updateProteinProbabilities` reads `qvalues`,
`qvaluesEmp` and `pvalues`: the entry index `i` in the `tiesAsOneProtein` branch, the
running name index `qindex` in the other. -/
def updateIndex (E : Estimator) (i qindex : Nat) : Nat :=
  if E.tiesAsOneProtein then i else qindex

/-- Body of the inner loop of `updateProteinProbabilities` for the name `proteinName` of
entry `i` with probability `pep`; `none` when one of the three vectors is read outside its
bounds or when the name has no protein in the registry (a null pointer is
dereferenced). -/
def updateProtein (E : Estimator) (pep : Dbl) (i qindex : Nat) (proteinName : String) :
    Option Estimator :=
  match mapFind E.proteins proteinName, E.qvalues[updateIndex E i qindex]?,
      E.qvaluesEmp[updateIndex E i qindex]?, E.pvalues[updateIndex E i qindex]? with
  | some _, some q, some qemp, some p =>
    let updated := mapUpdate proteinName (fun P => P.setStatistics pep q qemp p) E.proteins
    some { E with proteins := updated }
  | _, _, _, _ => none

/-- The inner loop of `updateProteinProbabilities` over the names of entry `i`, entered
with the running index `qindex`, which is incremented for every name. -/
def updateNames (pep : Dbl) (i : Nat) : Estimator → Nat → List String → Option (Estimator × Nat)
  | E, qindex, [] => some (E, qindex)
  | E, qindex, proteinName :: rest =>
    match updateProtein E pep i qindex proteinName with
    | none => none
    | some E1 => updateNames pep i E1 (qindex + 1) rest

/-- The outer loop of `updateProteinProbabilities` from entry `i`. -/
def updateEntries : Estimator → Nat → Nat → List (Dbl × List String) → Option Estimator
  | E, _, _, [] => some E
  | E, i, qindex, e :: rest =>
    match updateNames e.1 i E qindex e.2 with
    | none => none
    | some r => updateEntries r.1 (i + 1) r.2 rest

/-- The method `updateProteinProbabilities`: `peps` and `proteinNames` are the keys and
the values of `pepProteins`. -/
def updateProteinProbabilities (E : Estimator) : Option Estimator :=
  updateEntries E 0 0 E.pepProteins

/-! ## Predicates, counts and sample inputs used by the theorems -/

/-- A double that is an ordinary number (neither infinite nor `NaN`). -/
def Dbl.IsFinite (a : Dbl) : Prop := ∃ q : ℚ, a = Dbl.fin q

/-- A double that, when it is an ordinary number, is non-negative. -/
def Dbl.NonNeg (a : Dbl) : Prop := ∀ q : ℚ, a = Dbl.fin q → 0 ≤ q

/-- Invariant of the loop of `estimateQValues` on probabilities in `[0,1]`: the running
sum is an ordinary number between 0 and the running count. -/
def QAcc.Bounded (s : QAcc) : Prop := ∃ q : ℚ, s.sum = Dbl.fin q ∧ 0 ≤ q ∧ q ≤ (s.nP : ℚ)

/-- Number of decoy names in a whole ranked list. -/
def totalDecoys (decoyPattern : String) (l : List (Dbl × List String)) : Nat :=
  (l.map (fun e => countDecoys decoyPattern e.2)).sum

/-- Number of target names in a whole ranked list. -/
def totalTargets (decoyPattern : String) (l : List (Dbl × List String)) : Nat :=
  (l.map (fun e => countTargets decoyPattern e.2)).sum

/-- A ranked list with one target entry and one tie-group holding a decoy and a target,
in an estimator that knows two targets and one decoy. -/
def sampleEstimator (ties : Bool) : Estimator :=
  { decoyPattern := "random"
    tiesAsOneProtein := ties
    pi0 := Dbl.fin 1
    numberTargetProteins := 2
    numberDecoyProteins := 1
    pepProteins := [(Dbl.fin (1/10), ["P1"]), (Dbl.fin (1/2), ["random_P2", "P3"])] }

/-- A ranked list whose single tie-group holds two decoy names, in an estimator whose
decoy name set has one element. -/
def twoDecoyEstimator : Estimator :=
  { decoyPattern := "random"
    tiesAsOneProtein := true
    numberTargetProteins := 1
    numberDecoyProteins := 1
    pepProteins := [(Dbl.fin (1/10), ["random_A", "random_B"])] }

/-- An estimator in ties-as-one-protein mode with divergence threshold `0.1`, knowing one
target and one decoy protein. -/
def firstRankEstimator : Estimator :=
  { decoyPattern := "random"
    tiesAsOneProtein := true
    threshold := Dbl.fin (1/10)
    numberTargetProteins := 1
    numberDecoyProteins := 1 }

/-- What the registry holds under `name` after one match that references `name`, when it
held `o` before: a new protein on first sight, one more peptide record otherwise. -/
def seenIn (psm : ScoreHolder) (name : String) : Option Protein → Option Protein
  | none => some (newProtein name psm.isDecoy (peptideOf psm))
  | some P => some (P.setPeptide (peptideOf psm))

/-- What the registry holds under `name` after a stream of matches, when it held `o`
before. -/
def afterStream (name : String) : Option Protein → List ScoreHolder → Option Protein
  | o, [] => o
  | o, m :: ms =>
    afterStream name (if name ∈ m.proteinIds then seenIn m name o else o) ms

/-- Consistency of the registry with the two name sets: distinct keys, duplicate-free
sets, and a name is in the target (decoy) set exactly when the registry holds a protein
under it whose decoy flag is false (true). -/
def RegistryInv (E : Estimator) : Prop :=
  (E.proteins.map Prod.fst).Nodup ∧ E.truePosSet.Nodup ∧ E.falsePosSet.Nodup ∧
  (∀ name, name ∈ E.truePosSet ↔
    ∃ P, mapFind E.proteins name = some P ∧ P.isDecoy = false) ∧
  (∀ name, name ∈ E.falsePosSet ↔
    ∃ P, mapFind E.proteins name = some P ∧ P.isDecoy = true)

/-- A stream of three matches: a target match of `P1` and `P2`, a decoy match of
`random_P3` and (again) `P1`, and a target match of `P2`. -/
def sampleMatches : List ScoreHolder :=
  [ { isDecoy := false, peptideSequence := "AAK", proteinIds := ["P1", "P2"],
      pep := Dbl.fin (1/100), q := Dbl.fin (1/100), p := Dbl.fin (1/100) },
    { isDecoy := true, peptideSequence := "CCK", proteinIds := ["P1", "random_P3"],
      pep := Dbl.fin (1/2), q := Dbl.fin (1/5), p := Dbl.fin (1/2) },
    { isDecoy := false, peptideSequence := "DDR", proteinIds := ["P2"],
      pep := Dbl.fin (1/50), q := Dbl.fin (1/100), p := Dbl.fin (1/50) } ]

/-- An estimator after `setTargetandDecoysNames` on `sampleMatches`, with `usePi0` set and
a ranked list in which the decoy `random_P3` lies between the targets `P1` and `P2`. -/
def sampleRunEstimator : Estimator :=
  { setTargetandDecoysNames {} sampleMatches with
    decoyPattern := "random"
    usePi0 := true
    pepProteins := [(Dbl.fin (1/10), ["P1"]), (Dbl.fin (1/2), ["random_P3"]),
      (Dbl.fin (9/10), ["P2"])] }

/-- The number of values pushed while the entries `D` are walked: one per entry in
ties-as-one-protein mode, one per protein name in per-protein mode. -/
def pushesOver (ties : Bool) (D : List (Dbl × List String)) : Nat :=
  if ties then D.length else (D.map (fun e => e.2.length)).sum

/-- The flattened list of the specification: every protein name of every tie-group
becomes its own single-name entry carrying the probability of the group, order
preserved. -/
def flattenRanked (l : List (Dbl × List String)) : List (Dbl × List String) :=
  l.flatMap (fun e => e.2.map (fun name => (e.1, [name])))

/-- A ranked list with a leading decoy entry, in per-protein or ties mode. -/
def leadingDecoyEstimator (ties : Bool) : Estimator :=
  { decoyPattern := "random", tiesAsOneProtein := ties,
    numberTargetProteins := 2, numberDecoyProteins := 2,
    pepProteins := [(Dbl.fin (1/10), ["random_A", "random_B"]), (Dbl.fin (1/5), ["P1", "P2"])] }

/-- The estimator of the specification's comparison: ties-as-one-protein mode on the
flattened ranked list, every other field unchanged. -/
def tiesOnFlattened (E : Estimator) : Estimator :=
  { E with tiesAsOneProtein := true, pepProteins := flattenRanked E.pepProteins }

/-- The cumulative decoy count of the first `k` groups of `names`. -/
def decoysOfFirst (decoyPattern : String) (names : List (List String)) (k : Nat) : Nat :=
  ((names.take k).map (countDecoys decoyPattern)).sum

/-- The cumulative target count of the first `k` groups of `names`. -/
def targetsOfFirst (decoyPattern : String) (names : List (List String)) (k : Nat) : Nat :=
  ((names.take k).map (countTargets decoyPattern)).sum

/-- An estimator in per-protein or ties mode with threshold `0.1`, used on a two-group
ranked list whose best protein already has an estimated FDR above the threshold. -/
def earlyStopEstimator (ties : Bool) : Estimator :=
  { decoyPattern := "random", tiesAsOneProtein := ties, threshold := Dbl.fin (1/10),
    numberTargetProteins := 3, numberDecoyProteins := 1 }

/-- The value `clamp(falsePositiveCount, 50, 1000)` of the specification. -/
def clampCount (fpCount : Dbl) : Nat :=
  if fpCount.toInt < 50 then 50
  else if 1000 < fpCount.toInt then 1000 else fpCount.toInt.toNat

/-- An estimator with automatic update of `rocN` (secondary threshold `0.05`, primary
threshold `0.1`) whose member `rocN` holds 7 before the walk. -/
def autoRocNEstimator : Estimator :=
  { decoyPattern := "random", tiesAsOneProtein := true, updateRocN := true, rocN := 7,
    threshold := Dbl.fin (1/10), thresholdRoc := Dbl.fin (1/20),
    numberTargetProteins := 1, numberDecoyProteins := 1 }

/-- The `while` loop of `estimatePValues` on the vector `combined`: the final loop
variables and the values pushed, before the division by the decoy total. -/
def pvalWalk (combined : List (Dbl × Bool)) : PvalAcc × List Dbl :=
  loopPushMany pvalStep ⟨0, 0, 0, Dbl.fin (-47114711 / 10000)⟩ combined

/-- The last statement of `estimatePValues`: every pushed value divided by the final
`nDecoys`. -/
def pvaluesOfCombined (combined : List (Dbl × Bool)) : List Dbl :=
  (pvalWalk combined).2.map (fun x => x.div (Dbl.ofNat (pvalWalk combined).1.nDecoys))

/-- The number of targets in a list of (probability, is-decoy) pairs. -/
def targetPairs (c : List (Dbl × Bool)) : Nat := c.countP (fun y => !y.2)

/-- The number of decoys in a list of (probability, is-decoy) pairs. -/
def decoyPairs (c : List (Dbl × Bool)) : Nat := c.countP (fun y => y.2)

/-- The final probability group of a list of (probability, is-decoy) pairs: the last pair
and the pairs that precede it without interruption with a probability equal to its
own. -/
def lastGroup (c : List (Dbl × Bool)) : List (Dbl × Bool) :=
  match c.reverse with
  | [] => []
  | x :: rest => (x :: rest.takeWhile (fun y => Dbl.eq y.1 x.1)).reverse

/-- A registry and a ranked list with three probability groups: a target; a target and a
decoy; two targets and a decoy. -/
def pvalueEstimator : Estimator :=
  { decoyPattern := "random",
    proteins := [("P1", { name := "P1", isDecoy := false, peptides := [] }),
      ("P2", { name := "P2", isDecoy := false, peptides := [] }),
      ("random_A", { name := "random_A", isDecoy := true, peptides := [] }),
      ("P3", { name := "P3", isDecoy := false, peptides := [] }),
      ("P4", { name := "P4", isDecoy := false, peptides := [] }),
      ("random_B", { name := "random_B", isDecoy := true, peptides := [] })],
    pepProteins := [(Dbl.fin (1/100), ["P1"]), (Dbl.fin (1/10), ["P2", "random_A"]),
      (Dbl.fin (1/2), ["P3", "random_B", "P4"])] }

/-- The vector `combined` of the sample registry and ranked list. -/
def pvalueCombined : List (Dbl × Bool) :=
  [(Dbl.fin (1/100), false), (Dbl.fin (1/10), false), (Dbl.fin (1/10), true),
    (Dbl.fin (1/2), false), (Dbl.fin (1/2), true), (Dbl.fin (1/2), false)]

/-- The indices at which `updateProteinProbabilities` reads the three vectors while it
walks the entries `l` from entry `i` and running name index `qindex`: one read per
protein name. -/
def indicesRead (ties : Bool) : Nat → Nat → List (Dbl × List String) → List Nat
  | _, _, [] => []
  | i, qindex, e :: rest =>
    (List.range e.2.length).map (fun j => if ties then i else qindex + j) ++
      indicesRead ties (i + 1) (qindex + e.2.length) rest

/-- Every protein name of the ranked list has a protein in the registry. -/
def AllRegistered (E : Estimator) : Prop :=
  ∀ e ∈ E.pepProteins, ∀ name ∈ e.2, mapFind E.proteins name ≠ none

/-- The estimator `E1` differs from `E` at most in the statistics stored in the proteins
of the registry: the three vectors, the tie mode and the set of registered names are
those of `E`. -/
def SameVectors (E E1 : Estimator) : Prop :=
  E1.qvalues = E.qvalues ∧ E1.qvaluesEmp = E.qvaluesEmp ∧ E1.pvalues = E.pvalues ∧
  E1.tiesAsOneProtein = E.tiesAsOneProtein ∧
  ∀ name, mapFind E1.proteins name = none ↔ mapFind E.proteins name = none

/-- An infinity or `NaN`. -/
def Dbl.IsSpecial (x : Dbl) : Prop := x = Dbl.pinf ∨ x = Dbl.ninf ∨ x = Dbl.nan

/-- A per-protein ranked list whose second entry, a decoy, has the probability `+inf`. -/
def infiniteDecoyEstimator : Estimator :=
  { decoyPattern := "random", tiesAsOneProtein := false,
    pepProteins := [(Dbl.fin (1/4), ["P1"]), (Dbl.pinf, ["random_A"])] }

/-! ## Per-rank formulas in the words of the specification -/

/-- The contribution `probability × targetCountInGroup` of one ranked entry. -/
def entryWeight (decoyPattern : String) (e : Dbl × List String) : Dbl :=
  e.1.mul (Dbl.ofNat (countTargets decoyPattern e.2))

/-- The running weighted sum `sum_{i<=k} p_i * t_i` through rank `k` (ranks from 0). -/
def weightedSumThrough (decoyPattern : String) (l : List (Dbl × List String)) (k : Nat) :
    Dbl :=
  ((l.take (k + 1)).map (entryWeight decoyPattern)).foldl Dbl.add (Dbl.fin 0)

/-- The cumulative target count `T_k` through rank `k`. -/
def targetsThrough (decoyPattern : String) (l : List (Dbl × List String)) (k : Nat) : Nat :=
  totalTargets decoyPattern (l.take (k + 1))

/-- The cumulative decoy count `D_k` through rank `k`. -/
def decoysThrough (decoyPattern : String) (l : List (Dbl × List String)) (k : Nat) : Nat :=
  totalDecoys decoyPattern (l.take (k + 1))

/-- A quotient "replaced by 1.0 when it is undefined, infinite or > 1". -/
def replaceByOne : Dbl → Dbl
  | Dbl.fin q => if 1 < q then Dbl.fin 1 else Dbl.fin q
  | _ => Dbl.fin 1

/-- The raw q-value of the specification at rank `k`, ties-as-one-protein mode:
`runningSum / runningCount`, replaced by 1 when undefined, infinite or above 1. -/
def specRawQ (decoyPattern : String) (l : List (Dbl × List String)) (k : Nat) : Dbl :=
  replaceByOne ((weightedSumThrough decoyPattern l k).div
    (Dbl.ofNat (targetsThrough decoyPattern l k)))

/-- The raw empirical q-value of the specification at rank `k`, ties-as-one-protein mode,
for a finite `pi0` and a positive number of decoy proteins:
`min(1, D_k * pi0 * (nT / nD) / T_k)` when `T_k > 0`, and 0 when `T_k = 0`. -/
def specRawEmpQ (decoyPattern : String) (l : List (Dbl × List String)) (pi0 : ℚ)
    (nT nD : Nat) (k : Nat) : Dbl :=
  if 0 < targetsThrough decoyPattern l k then
    Dbl.fin (Min.min 1 ((decoysThrough decoyPattern l k : ℚ) * pi0 * ((nT : ℚ) / (nD : ℚ)) /
      (targetsThrough decoyPattern l k : ℚ)))
  else Dbl.fin 0

/-- The p-value of the specification at rank `k`, ties-as-one-protein mode, for the entry
`e` at that rank: `D_k / nD` if the entry contains a decoy, else `(D_k + 1) / (nD + 1)`. -/
def specPValue (decoyPattern : String) (l : List (Dbl × List String)) (nD : Nat) (k : Nat)
    (e : Dbl × List String) : Dbl :=
  if 1 ≤ countDecoys decoyPattern e.2 then
    (Dbl.ofNat (decoysThrough decoyPattern l k)).div (Dbl.ofNat nD)
  else
    ((Dbl.ofNat (decoysThrough decoyPattern l k)).add (Dbl.fin 1)).div
      ((Dbl.ofNat nD).add (Dbl.fin 1))

/-- The value `m` is the minimum of `raw k, ..., raw (n-1)`: it is one of them and it is
at most each of them. -/
def IsMinFrom (raw : Nat → Dbl) (k n : Nat) (m : Dbl) : Prop :=
  (∃ j, k ≤ j ∧ j < n ∧ m = raw j) ∧ ∀ j, k ≤ j → j < n → Dbl.le m (raw j) = true

/-! ## Lemmas on doubles -/

theorem Dbl.le_trans' {a b c : Dbl} (h1 : Dbl.le a b = true) (h2 : Dbl.le b c = true) :
    Dbl.le a c = true := by
  cases a <;> cases b <;> cases c <;> simp_all [Dbl.le]
  exact h1.trans h2

theorem Dbl.inUnit_iff (a : Dbl) :
    Dbl.inUnit a = true ↔ ∃ q : ℚ, a = Dbl.fin q ∧ 0 ≤ q ∧ q ≤ 1 := by
  cases a <;> simp [Dbl.inUnit, Dbl.le]

theorem myminfunc_fin (a b : ℚ) : myminfunc (Dbl.fin a) (Dbl.fin b) = Dbl.fin (min a b) := by
  unfold myminfunc Dbl.gt Dbl.lt
  by_cases h : b < a
  · simp [h, min_eq_right h.le]
  · simp [h, min_eq_left (not_lt.mp h)]

theorem myminfunc_mem (a b : Dbl) : myminfunc a b = a ∨ myminfunc a b = b := by
  unfold myminfunc
  split <;> simp

theorem clampQ_spec (v : Dbl) : ∃ q : ℚ, clampQ v = Dbl.fin q ∧ q ≤ 1 := by
  cases v with
  | fin a =>
    by_cases h : 1 < a
    · exact ⟨1, by simp [clampQ, Dbl.isnan, Dbl.isinf, Dbl.gt, Dbl.lt, h], le_refl _⟩
    · exact ⟨a, by simp [clampQ, Dbl.isnan, Dbl.isinf, Dbl.gt, Dbl.lt, h], not_lt.mp h⟩
  | pinf => exact ⟨1, by simp [clampQ, Dbl.isnan, Dbl.isinf, Dbl.gt, Dbl.lt], le_refl _⟩
  | ninf => exact ⟨1, by simp [clampQ, Dbl.isnan, Dbl.isinf, Dbl.gt, Dbl.lt], le_refl _⟩
  | nan => exact ⟨1, by simp [clampQ, Dbl.isnan, Dbl.isinf, Dbl.gt, Dbl.lt], le_refl _⟩

theorem clampQ_fin (a : ℚ) : clampQ (Dbl.fin a) = if 1 < a then Dbl.fin 1 else Dbl.fin a := by
  simp [clampQ, Dbl.isnan, Dbl.isinf, Dbl.gt, Dbl.lt]

/-! ## Lemmas on loops -/

theorem loopPush_inv {σ α β : Type} (step : σ → α → σ × β) (I : σ → Prop) (Q : α → Prop)
    (P : β → Prop) (h : ∀ s a, I s → Q a → I (step s a).1 ∧ P (step s a).2) :
    ∀ (l : List α) (s : σ), I s → (∀ a ∈ l, Q a) →
      I (loopPush step s l).1 ∧ ∀ b ∈ (loopPush step s l).2, P b := by
  intro l
  induction l with
  | nil => intro s hs _; simp [loopPush, hs]
  | cons a as ih =>
    intro s hs hq
    have h1 := h s a hs (hq a (List.mem_cons_self _ _))
    have h2 := ih (step s a).1 h1.1 (fun x hx => hq x (List.mem_cons_of_mem _ hx))
    refine ⟨h2.1, ?_⟩
    intro b hb
    simp only [loopPush, List.mem_cons] at hb
    rcases hb with hb | hb
    · rw [hb]; exact h1.2
    · exact h2.2 b hb

theorem loopPushMany_inv {σ α β : Type} (step : σ → α → σ × List β) (I : σ → Prop)
    (Q : α → Prop) (P : β → Prop)
    (h : ∀ s a, I s → Q a → I (step s a).1 ∧ ∀ b ∈ (step s a).2, P b) :
    ∀ (l : List α) (s : σ), I s → (∀ a ∈ l, Q a) →
      I (loopPushMany step s l).1 ∧ ∀ b ∈ (loopPushMany step s l).2, P b := by
  intro l
  induction l with
  | nil => intro s hs _; simp [loopPushMany, hs]
  | cons a as ih =>
    intro s hs hq
    have h1 := h s a hs (hq a (List.mem_cons_self _ _))
    have h2 := ih (step s a).1 h1.1 (fun x hx => hq x (List.mem_cons_of_mem _ hx))
    refine ⟨h2.1, ?_⟩
    intro b hb
    simp only [loopPushMany, List.mem_append] at hb
    rcases hb with hb | hb
    · exact h1.2 b hb
    · exact h2.2 b hb

/-! ## Lemmas on the running minimum -/

theorem partialSumFrom_append (op : Dbl → Dbl → Dbl) (l : List Dbl) (acc x : Dbl) :
    partialSumFrom op acc (l ++ [x]) = partialSumFrom op acc l ++ [op (l.foldl op acc) x] := by
  induction l generalizing acc with
  | nil => simp [partialSumFrom]
  | cons y ys ih => simp [partialSumFrom, ih]

theorem partialSumFrom_reverse_head (op : Dbl → Dbl → Dbl) (l : List Dbl) (acc : Dbl) :
    ∃ t, (partialSumFrom op acc l).reverse = l.foldl op acc :: t := by
  induction l generalizing acc with
  | nil => exact ⟨[], by simp [partialSumFrom]⟩
  | cons y ys ih =>
    obtain ⟨t, ht⟩ := ih (op acc y)
    exact ⟨t ++ [acc], by simp [partialSumFrom, ht]⟩

/-- The backward running minimum unfolds at the head: the new head is `myminfunc` of the
running minimum of the tail and the head element. -/
theorem monotonize_cons (x : Dbl) (xs : List Dbl) :
    monotonize (x :: xs) =
      (match monotonize xs with
        | [] => x
        | y :: _ => myminfunc y x) :: monotonize xs := by
  unfold monotonize
  rw [List.reverse_cons]
  cases h : xs.reverse with
  | nil => simp [partial_sum, partialSumFrom]
  | cons a l =>
    obtain ⟨t, ht⟩ := partialSumFrom_reverse_head myminfunc l a
    simp [partial_sum, partialSumFrom_append, ht]

theorem monotonize_nil : monotonize [] = [] := by
  simp [monotonize, partial_sum]

theorem monotonize_length (v : List Dbl) : (monotonize v).length = v.length := by
  induction v with
  | nil => simp [monotonize_nil]
  | cons x xs ih => rw [monotonize_cons]; simp [ih]

/-- Every value of the monotonized vector is one of the input values. -/
theorem monotonize_mem (v : List Dbl) : ∀ y ∈ monotonize v, y ∈ v := by
  induction v with
  | nil => simp [monotonize_nil]
  | cons x xs ih =>
    intro y hy
    rw [monotonize_cons] at hy
    rcases List.mem_cons.mp hy with h | h
    · cases hm : monotonize xs with
      | nil => rw [hm] at h; simp [h]
      | cons z zs =>
        rw [hm] at h
        simp only at h
        rcases myminfunc_mem z x with h2 | h2
        · rw [h2] at h
          rw [h]
          exact List.mem_cons_of_mem _ (ih z (by rw [hm]; simp))
        · rw [h2] at h; simp [h]
    · exact List.mem_cons_of_mem _ (ih y h)

/-- On ordinary numbers the monotonized vector is non-decreasing from first to last. -/
theorem monotonize_sorted (v : List Dbl) (hv : ∀ x ∈ v, Dbl.IsFinite x) :
    List.Pairwise (fun a b => Dbl.le a b = true) (monotonize v) := by
  induction v with
  | nil => simp [monotonize_nil]
  | cons x xs ih =>
    have ihs := ih (fun y hy => hv y (List.mem_cons_of_mem _ hy))
    rw [monotonize_cons]
    refine List.Pairwise.cons ?_ ihs
    intro b hb
    obtain ⟨qx, hqx⟩ := hv x (List.mem_cons_self _ _)
    cases hm : monotonize xs with
    | nil => rw [hm] at hb; simp at hb
    | cons z zs =>
      have hz : z ∈ xs := monotonize_mem xs z (by rw [hm]; simp)
      obtain ⟨qz, hqz⟩ := hv z (List.mem_cons_of_mem _ hz)
      have hle : Dbl.le (myminfunc z x) z = true := by
        rw [hqz, hqx, myminfunc_fin]; simp [Dbl.le]
      simp only
      rw [hm] at hb ihs
      rcases List.mem_cons.mp hb with h | h
      · rw [h]; exact hle
      · exact Dbl.le_trans' hle (List.rel_of_pairwise_cons ihs h)

/-! ## Lemmas on the forward passes -/

theorem Dbl.NonNeg_ofNat (n : Nat) : Dbl.NonNeg (Dbl.ofNat n) := by
  intro q h
  simp only [Dbl.ofNat, Dbl.fin.injEq] at h
  rw [← h]; exact Nat.cast_nonneg n

theorem Dbl.NonNeg_of_le {a : Dbl} (h : Dbl.le (Dbl.fin 0) a = true) : Dbl.NonNeg a := by
  intro q hq
  rw [hq] at h
  simpa [Dbl.le] using h

theorem Dbl.NonNeg_mul {a b : Dbl} (ha : Dbl.NonNeg a) (hb : Dbl.NonNeg b) :
    Dbl.NonNeg (Dbl.mul a b) := by
  intro q hq
  cases a <;> cases b <;> simp [Dbl.mul, Dbl.signedInf] at hq
  · rw [← hq]; exact mul_nonneg (ha _ rfl) (hb _ rfl)
  all_goals (split_ifs at hq)

theorem Dbl.NonNeg_div {a b : Dbl} (ha : Dbl.NonNeg a) (hb : Dbl.NonNeg b) :
    Dbl.NonNeg (Dbl.div a b) := by
  intro q hq
  cases a <;> cases b <;> simp [Dbl.div, Dbl.signedInf] at hq
  · split_ifs at hq
    simp only [Dbl.fin.injEq] at hq
    rw [← hq]; exact div_nonneg (ha _ rfl) (hb _ rfl)
  · rw [← hq]
  · rw [← hq]
  all_goals (split_ifs at hq)

theorem clampQ_inUnit {v : Dbl} (h : Dbl.NonNeg v) : Dbl.inUnit (clampQ v) = true := by
  cases v with
  | fin a =>
    have ha := h a rfl
    rw [clampQ_fin]
    split_ifs with h1
    · simp [Dbl.inUnit, Dbl.le]
    · simp [Dbl.inUnit, Dbl.le, ha, not_lt.mp h1]
  | pinf => simp [clampQ, Dbl.isnan, Dbl.isinf, Dbl.inUnit, Dbl.le]
  | ninf => simp [clampQ, Dbl.isnan, Dbl.isinf, Dbl.inUnit, Dbl.le]
  | nan => simp [clampQ, Dbl.isnan, Dbl.isinf, Dbl.inUnit, Dbl.le]

theorem clampQ_isFinite (v : Dbl) : Dbl.IsFinite (clampQ v) := by
  obtain ⟨q, hq, _⟩ := clampQ_spec v
  exact ⟨q, hq⟩

theorem rawQValues_finite (E : Estimator) : ∀ x ∈ rawQValues E, Dbl.IsFinite x := by
  unfold rawQValues
  split
  · exact (loopPush_inv (qStepTies E.decoyPattern) (fun _ => True) (fun _ => True)
      Dbl.IsFinite (fun s a _ _ => ⟨trivial, clampQ_isFinite _⟩) E.pepProteins _ trivial
      (fun _ _ => trivial)).2
  · refine (loopPushMany_inv (qStepGroup E.decoyPattern) (fun _ => True) (fun _ => True)
      Dbl.IsFinite (fun s a _ _ => ?_) E.pepProteins _ trivial (fun _ _ => trivial)).2
    exact loopPush_inv (qStepName E.decoyPattern a.1) (fun _ => True) (fun _ => True)
      Dbl.IsFinite (fun s a _ _ => ⟨trivial, clampQ_isFinite _⟩) a.2 s trivial
      (fun _ _ => trivial)

theorem rawEmp_finite (E : Estimator) : ∀ x ∈ (rawEmp E).map Prod.fst, Dbl.IsFinite x := by
  have key : ∀ x ∈ rawEmp E, Dbl.IsFinite x.1 := by
    unfold rawEmp
    split
    · exact (loopPush_inv (empStepTies E) (fun _ => True) (fun _ => True)
        (fun x => Dbl.IsFinite x.1) (fun s a _ _ => ⟨trivial, clampQ_isFinite _⟩)
        E.pepProteins _ trivial (fun _ _ => trivial)).2
    · refine (loopPushMany_inv (empStepGroup E) (fun _ => True) (fun _ => True)
        (fun x => Dbl.IsFinite x.1) (fun s a _ _ => ?_) E.pepProteins _ trivial
        (fun _ _ => trivial)).2
      exact loopPush_inv (empStepName E) (fun _ => True) (fun _ => True)
        (fun x => Dbl.IsFinite x.1) (fun s a _ _ => ⟨trivial, clampQ_isFinite _⟩) a.2 s
        trivial (fun _ _ => trivial)
  intro x hx
  obtain ⟨y, hy, rfl⟩ := List.mem_map.mp hx
  exact key y hy

theorem QAcc.Bounded.quotient {s : QAcc} (h : s.Bounded) :
    Dbl.inUnit (clampQ (s.sum.div (Dbl.ofNat s.nP))) = true := by
  obtain ⟨q, hq, h0, h1⟩ := h
  apply clampQ_inUnit
  rw [hq]
  exact Dbl.NonNeg_div (fun r hr => by simp only [Dbl.fin.injEq] at hr; rw [← hr]; exact h0)
    (Dbl.NonNeg_ofNat _)

theorem qStepTies_bounded (pat : String) (s : QAcc) (e : Dbl × List String)
    (hs : s.Bounded) (he : Dbl.inUnit e.1 = true) :
    (qStepTies pat s e).1.Bounded ∧ Dbl.inUnit (qStepTies pat s e).2 = true := by
  obtain ⟨q, hq, h0, h1⟩ := hs
  obtain ⟨p, hp, hp0, hp1⟩ := (Dbl.inUnit_iff _).mp he
  have hb : (qStepTies pat s e).1.Bounded := by
    refine ⟨q + p * (countTargets pat e.2 : ℚ), ?_, ?_, ?_⟩
    · simp [qStepTies, hq, hp, Dbl.ofNat, Dbl.mul, Dbl.add]
    · have := mul_nonneg hp0 (Nat.cast_nonneg (countTargets pat e.2) : (0:ℚ) ≤ _)
      linarith
    · have : p * (countTargets pat e.2 : ℚ) ≤ 1 * (countTargets pat e.2 : ℚ) :=
        mul_le_mul_of_nonneg_right hp1 (Nat.cast_nonneg _)
      simp only [qStepTies, Nat.cast_add]
      linarith
  exact ⟨hb, hb.quotient⟩

theorem qStepName_bounded (pat : String) (prob : Dbl) (s : QAcc) (name : String)
    (hs : s.Bounded) (he : Dbl.inUnit prob = true) :
    (qStepName pat prob s name).1.Bounded ∧ Dbl.inUnit (qStepName pat prob s name).2 = true := by
  obtain ⟨p, hp, hp0, hp1⟩ := (Dbl.inUnit_iff _).mp he
  have hb : (qStepName pat prob s name).1.Bounded := by
    unfold qStepName
    simp only
    split
    · obtain ⟨q, hq, h0, h1⟩ := hs
      refine ⟨q + p, by simp [hq, hp, Dbl.add], by linarith, ?_⟩
      simp only [Nat.cast_add, Nat.cast_one]
      linarith
    · exact hs
  exact ⟨hb, hb.quotient⟩

theorem rawQValues_inUnit (E : Estimator)
    (hp : ∀ e ∈ E.pepProteins, Dbl.inUnit e.1 = true) :
    ∀ x ∈ rawQValues E, Dbl.inUnit x = true := by
  have h0 : QAcc.Bounded ⟨0, Dbl.fin 0⟩ := ⟨0, rfl, le_refl _, by simp⟩
  unfold rawQValues
  split
  · exact (loopPush_inv (qStepTies E.decoyPattern) QAcc.Bounded
      (fun e => Dbl.inUnit e.1 = true) (fun x => Dbl.inUnit x = true)
      (fun s a hs ha => qStepTies_bounded _ s a hs ha) E.pepProteins _ h0 hp).2
  · refine (loopPushMany_inv (qStepGroup E.decoyPattern) QAcc.Bounded
      (fun e => Dbl.inUnit e.1 = true) (fun x => Dbl.inUnit x = true)
      (fun s a hs ha => ?_) E.pepProteins _ h0 hp).2
    exact loopPush_inv (qStepName E.decoyPattern a.1) QAcc.Bounded (fun _ => True)
      (fun x => Dbl.inUnit x = true) (fun s n hs _ => qStepName_bounded _ _ s n hs ha)
      a.2 s hs (fun _ _ => trivial)

theorem empQ_inUnit (E : Estimator) (hpi : Dbl.le (Dbl.fin 0) E.pi0 = true)
    (d t : Nat) (q : Dbl) (hq : Dbl.inUnit q = true) : Dbl.inUnit (empQ E d t q) = true := by
  unfold empQ
  apply clampQ_inUnit
  split
  · exact Dbl.NonNeg_div (Dbl.NonNeg_mul (Dbl.NonNeg_mul (Dbl.NonNeg_ofNat _)
      (Dbl.NonNeg_of_le hpi)) (Dbl.NonNeg_div (Dbl.NonNeg_ofNat _) (Dbl.NonNeg_ofNat _)))
      (Dbl.NonNeg_ofNat _)
  · obtain ⟨r, hr, hr0, _⟩ := (Dbl.inUnit_iff _).mp hq
    intro x hx
    rw [hr] at hx
    simp only [Dbl.fin.injEq] at hx
    rw [← hx]; exact hr0

theorem rawEmp_inUnit (E : Estimator) (hpi : Dbl.le (Dbl.fin 0) E.pi0 = true) :
    ∀ x ∈ (rawEmp E).map Prod.fst, Dbl.inUnit x = true := by
  have h0 : Dbl.inUnit (EmpAcc.mk 0 0 (Dbl.fin 0)).qvalue = true := by
    simp [Dbl.inUnit, Dbl.le]
  have key : ∀ x ∈ rawEmp E, Dbl.inUnit x.1 = true := by
    unfold rawEmp
    split
    · exact (loopPush_inv (empStepTies E) (fun s => Dbl.inUnit s.qvalue = true)
        (fun _ => True) (fun x => Dbl.inUnit x.1 = true)
        (fun s a hs _ => ⟨empQ_inUnit E hpi _ _ _ hs, empQ_inUnit E hpi _ _ _ hs⟩)
        E.pepProteins _ h0 (fun _ _ => trivial)).2
    · refine (loopPushMany_inv (empStepGroup E) (fun s => Dbl.inUnit s.qvalue = true)
        (fun _ => True) (fun x => Dbl.inUnit x.1 = true) (fun s a hs _ => ?_)
        E.pepProteins _ h0 (fun _ _ => trivial)).2
      exact loopPush_inv (empStepName E) (fun s => Dbl.inUnit s.qvalue = true)
        (fun _ => True) (fun x => Dbl.inUnit x.1 = true)
        (fun s a hs _ => ⟨empQ_inUnit E hpi _ _ _ hs, empQ_inUnit E hpi _ _ _ hs⟩) a.2 s hs
        (fun _ _ => trivial)
  intro x hx
  obtain ⟨y, hy, rfl⟩ := List.mem_map.mp hx
  exact key y hy

/-! ## Lemmas on the p-values -/

theorem pvalue_decoy_inUnit (d n : Nat) (h : d ≤ n) (hn : 0 < n) :
    Dbl.inUnit ((Dbl.ofNat d).div (Dbl.ofNat n)) = true := by
  have hn' : (n : ℚ) ≠ 0 := by exact_mod_cast hn.ne'
  have hn0 : (0 : ℚ) < n := by exact_mod_cast hn
  rw [Dbl.inUnit_iff]
  refine ⟨(d : ℚ) / n, by simp [Dbl.div, Dbl.ofNat, hn'], by positivity, ?_⟩
  rw [div_le_one hn0]
  exact_mod_cast h

theorem pvalue_target_inUnit (d n : Nat) (h : d ≤ n) :
    Dbl.inUnit (((Dbl.ofNat d).add (Dbl.fin 1)).div ((Dbl.ofNat n).add (Dbl.fin 1))) = true := by
  have hn0 : (0 : ℚ) < (n : ℚ) + 1 := by positivity
  rw [Dbl.inUnit_iff]
  refine ⟨((d : ℚ) + 1) / ((n : ℚ) + 1), by simp [Dbl.div, Dbl.ofNat, Dbl.add, hn0.ne'],
    by positivity, ?_⟩
  rw [div_le_one hn0]
  have : (d : ℚ) ≤ n := by exact_mod_cast h
  linarith

theorem empStepTies_pvalues (E : Estimator) (hD : 0 < E.numberDecoyProteins) :
    ∀ (l : List (Dbl × List String)) (s : EmpAcc),
      s.nDecoys + totalDecoys E.decoyPattern l ≤ E.numberDecoyProteins →
      ∀ x ∈ (loopPush (empStepTies E) s l).2, Dbl.inUnit x.2 = true := by
  intro l
  induction l with
  | nil => intro s _ x hx; simp [loopPush] at hx
  | cons e rest ih =>
    intro s hs x hx
    simp only [totalDecoys, List.map_cons, List.sum_cons] at hs
    simp only [loopPush, List.mem_cons] at hx
    rcases hx with hx | hx
    · rw [hx]
      simp only [empStepTies]
      split
      · exact pvalue_decoy_inUnit _ _ (by omega) hD
      · exact pvalue_target_inUnit _ _ (by omega)
    · refine ih _ ?_ x hx
      simp only [empStepTies, totalDecoys]
      omega

theorem empStepName_pvalues (E : Estimator) (hD : 0 < E.numberDecoyProteins) :
    ∀ (names : List String) (s : EmpAcc),
      s.nDecoys + countDecoys E.decoyPattern names ≤ E.numberDecoyProteins →
      (loopPush (empStepName E) s names).1.nDecoys =
          s.nDecoys + countDecoys E.decoyPattern names ∧
      ∀ x ∈ (loopPush (empStepName E) s names).2, Dbl.inUnit x.2 = true := by
  intro names
  induction names with
  | nil => intro s _; simp [loopPush, countDecoys]
  | cons n rest ih =>
    intro s hs
    simp only [countDecoys] at hs
    have hstep : (empStepName E s n).1.nDecoys =
        s.nDecoys + (if find n E.decoyPattern ≠ none then 1 else 0) := by
      simp only [empStepName, countDecoysName]
      split <;> simp_all
    have h2 := ih (empStepName E s n).1 (by rw [hstep]; omega)
    refine ⟨?_, ?_⟩
    · simp only [loopPush, countDecoys]
      rw [h2.1, hstep]; omega
    · intro x hx
      simp only [loopPush, List.mem_cons] at hx
      rcases hx with hx | hx
      · rw [hx]
        simp only [empStepName, countDecoysName]
        by_cases hf : find n E.decoyPattern = none
        · simp only [hf, ne_eq, not_true_eq_false, if_false]
          simp only [hf] at hs
          exact pvalue_target_inUnit _ _ (by omega)
        · simp only [hf, ne_eq, not_false_eq_true, if_true]
          simp only [ne_eq, hf, not_false_eq_true, if_true] at hs
          exact pvalue_decoy_inUnit _ _ (by simp; omega) hD
      · exact h2.2 x hx

theorem empStepGroup_pvalues (E : Estimator) (hD : 0 < E.numberDecoyProteins) :
    ∀ (l : List (Dbl × List String)) (s : EmpAcc),
      s.nDecoys + totalDecoys E.decoyPattern l ≤ E.numberDecoyProteins →
      ∀ x ∈ (loopPushMany (empStepGroup E) s l).2, Dbl.inUnit x.2 = true := by
  intro l
  induction l with
  | nil => intro s _ x hx; simp [loopPushMany] at hx
  | cons e rest ih =>
    intro s hs x hx
    simp only [totalDecoys, List.map_cons, List.sum_cons] at hs
    have h1 := empStepName_pvalues E hD e.2 s (by omega)
    simp only [loopPushMany, List.mem_append] at hx
    rcases hx with hx | hx
    · exact h1.2 x hx
    · refine ih _ ?_ x hx
      simp only [empStepGroup, totalDecoys]
      rw [h1.1]; omega

/-! ## Lemmas on the per-rank formulas -/

theorem myminfunc_le {y x : Dbl} (hy : Dbl.IsFinite y) (hx : Dbl.IsFinite x) :
    Dbl.le (myminfunc y x) y = true ∧ Dbl.le (myminfunc y x) x = true := by
  obtain ⟨a, rfl⟩ := hy
  obtain ⟨b, rfl⟩ := hx
  rw [myminfunc_fin]
  simp [Dbl.le]

theorem Dbl.le_refl_of_finite {x : Dbl} (hx : Dbl.IsFinite x) : Dbl.le x x = true := by
  obtain ⟨a, rfl⟩ := hx
  simp [Dbl.le]

/-- Entry `k` of the monotonized vector is the minimum of the input entries `k, k+1, ...`. -/
theorem monotonize_isMin (v : List Dbl) (hv : ∀ x ∈ v, Dbl.IsFinite x) :
    ∀ k, k < v.length → ∃ m, (monotonize v)[k]? = some m ∧
      (∃ j, k ≤ j ∧ v[j]? = some m) ∧
      ∀ j x, k ≤ j → v[j]? = some x → Dbl.le m x = true := by
  induction v with
  | nil => intro k hk; simp at hk
  | cons x xs ih =>
    have hxs : ∀ y ∈ xs, Dbl.IsFinite y := fun y hy => hv y (List.mem_cons_of_mem _ hy)
    have hx : Dbl.IsFinite x := hv x (List.mem_cons_self _ _)
    have ih' := ih hxs
    intro k hk
    rw [monotonize_cons]
    cases k with
    | zero =>
      cases hm : monotonize xs with
      | nil =>
        have hl : xs.length = 0 := by rw [← monotonize_length, hm]; rfl
        have hnil : xs = [] := List.length_eq_zero.mp hl
        subst hnil
        refine ⟨x, by simp, ⟨0, le_refl _, by simp⟩, ?_⟩
        intro j y _ hj
        cases j with
        | zero =>
          simp only [List.getElem?_cons_zero, Option.some.injEq] at hj
          rw [← hj]; exact Dbl.le_refl_of_finite hx
        | succ j => simp at hj
      | cons y ys =>
        have hpos : 0 < xs.length := by
          rw [← monotonize_length, hm]; simp
        obtain ⟨m0, hm0, ⟨j0, _, hj0⟩, hall⟩ := ih' 0 hpos
        rw [hm] at hm0
        simp only [List.getElem?_cons_zero, Option.some.injEq] at hm0
        subst hm0
        have hy : Dbl.IsFinite y := hxs y (List.getElem?_mem hj0)
        have hle := myminfunc_le hy hx
        refine ⟨myminfunc y x, by simp, ?_, ?_⟩
        · rcases myminfunc_mem y x with h | h
          · exact ⟨j0 + 1, Nat.zero_le _, by rw [h]; simpa using hj0⟩
          · exact ⟨0, le_refl _, by rw [h]; simp⟩
        · intro j z _ hj
          cases j with
          | zero =>
            simp only [List.getElem?_cons_zero, Option.some.injEq] at hj
            rw [← hj]; exact hle.2
          | succ j =>
            simp only [List.getElem?_cons_succ] at hj
            exact Dbl.le_trans' hle.1 (hall j z (Nat.zero_le _) hj)
    | succ k =>
      have hk' : k < xs.length := by simpa using hk
      obtain ⟨m, hm, ⟨j, hkj, hj⟩, hall⟩ := ih' k hk'
      refine ⟨m, by simpa using hm, ⟨j + 1, by omega, by simpa using hj⟩, ?_⟩
      intro i z hki hi
      cases i with
      | zero => omega
      | succ i =>
        simp only [List.getElem?_cons_succ] at hi
        exact hall i z (by omega) hi

/-- When every entry `j` of `v` is `raw j`, entry `k` of the monotonized vector is the
minimum of `raw k, ..., raw (n-1)`. -/
theorem monotonize_isMinFrom (v : List Dbl) (raw : Nat → Dbl)
    (hv : ∀ x ∈ v, Dbl.IsFinite x) (hraw : ∀ j, j < v.length → v[j]? = some (raw j))
    (k : Nat) (hk : k < v.length) :
    ∃ m, (monotonize v)[k]? = some m ∧ IsMinFrom raw k v.length m := by
  obtain ⟨m, hm, ⟨j, hkj, hj⟩, hall⟩ := monotonize_isMin v hv k hk
  have hjl : j < v.length := by
    by_contra hc
    rw [List.getElem?_eq_none (not_lt.mp hc)] at hj
    simp at hj
  refine ⟨m, hm, ⟨j, hkj, hjl, ?_⟩, ?_⟩
  · have := hraw j hjl
    rw [hj] at this
    simpa using this
  · intro i hki hil
    exact hall i (raw i) hki (hraw i hil)

theorem clampQ_eq_replaceByOne (v : Dbl) : clampQ v = replaceByOne v := by
  cases v with
  | fin a => rw [clampQ_fin]; rfl
  | pinf => simp [clampQ, replaceByOne, Dbl.isnan, Dbl.isinf]
  | ninf => simp [clampQ, replaceByOne, Dbl.isnan, Dbl.isinf]
  | nan => simp [clampQ, replaceByOne, Dbl.isnan, Dbl.isinf]

theorem loopPush_length {σ α β : Type} (step : σ → α → σ × β) :
    ∀ (l : List α) (s : σ), (loopPush step s l).2.length = l.length := by
  intro l
  induction l with
  | nil => intro s; simp [loopPush]
  | cons a as ih => intro s; simp [loopPush, ih]

/-- Entry `k` pushed by the ties-mode loop of `estimateQValues`, started in state `s`. -/
theorem qStepTies_get (pat : String) :
    ∀ (l : List (Dbl × List String)) (s : QAcc) (k : Nat), k < l.length →
      (loopPush (qStepTies pat) s l).2[k]? =
        some (clampQ ((((l.take (k + 1)).map (entryWeight pat)).foldl Dbl.add s.sum).div
          (Dbl.ofNat (s.nP + totalTargets pat (l.take (k + 1)))))) := by
  intro l
  induction l with
  | nil => intro s k hk; simp at hk
  | cons e rest ih =>
    intro s k hk
    cases k with
    | zero => simp [loopPush, qStepTies, entryWeight, totalTargets]
    | succ k =>
      have hk' : k < rest.length := by simpa using hk
      simp only [loopPush, List.getElem?_cons_succ, List.take_succ_cons, List.map_cons,
        List.foldl_cons]
      rw [ih _ k hk']
      simp [qStepTies, entryWeight, totalTargets, Nat.add_assoc]

/-- Entry `k` pushed by the ties-mode loop of `estimateQValuesEmp`, started in state `s`:
its cumulative counts are those of `s` plus the counts of the first `k+1` entries, and
the variable `qvalue` is only read while the target count is still zero. -/
theorem empStepTies_get (E : Estimator) :
    ∀ (l : List (Dbl × List String)) (s : EmpAcc) (k : Nat) (e : Dbl × List String),
      l[k]? = some e → (s.nTargets = 0 → s.qvalue = Dbl.fin 0) →
      (loopPush (empStepTies E) s l).2[k]? =
        some (empQ E (s.nDecoys + totalDecoys E.decoyPattern (l.take (k + 1)))
            (s.nTargets + totalTargets E.decoyPattern (l.take (k + 1))) (Dbl.fin 0),
          if 1 ≤ countDecoys E.decoyPattern e.2 then
            (Dbl.ofNat (s.nDecoys + totalDecoys E.decoyPattern (l.take (k + 1)))).div
              (Dbl.ofNat E.numberDecoyProteins)
          else
            ((Dbl.ofNat (s.nDecoys + totalDecoys E.decoyPattern (l.take (k + 1)))).add
              (Dbl.fin 1)).div ((Dbl.ofNat E.numberDecoyProteins).add (Dbl.fin 1))) := by
  intro l
  induction l with
  | nil => intro s k e hk; simp at hk
  | cons a rest ih =>
    intro s k e hk hs
    have hq : ∀ d t, t = s.nTargets + countTargets E.decoyPattern a.2 →
        empQ E d t s.qvalue = empQ E d t (Dbl.fin 0) := by
      intro d t ht
      by_cases h0 : t = 0
      · have : s.nTargets = 0 := by omega
        rw [hs this]
      · simp [empQ, h0]
    cases k with
    | zero =>
      simp only [List.getElem?_cons_zero, Option.some.injEq] at hk
      subst hk
      simp only [loopPush, List.getElem?_cons_zero, empStepTies, List.take_succ_cons,
        List.take_zero, totalDecoys, totalTargets, List.map_cons, List.map_nil,
        List.sum_cons, List.sum_nil, Nat.add_zero, Option.some.injEq, Prod.mk.injEq]
      refine ⟨hq _ _ rfl, ?_⟩
      rfl
    | succ k =>
      simp only [List.getElem?_cons_succ] at hk
      simp only [loopPush, List.getElem?_cons_succ]
      rw [ih _ k e hk]
      · simp [empStepTies, totalDecoys, totalTargets, Nat.add_assoc]
      · intro h0
        simp only [empStepTies] at h0 ⊢
        rw [hq _ _ rfl]
        simp [empQ, h0, clampQ_fin]

theorem empQ_eq_spec (E : Estimator) (pi0 : ℚ) (hpi : E.pi0 = Dbl.fin pi0)
    (hD : 0 < E.numberDecoyProteins) (d t : Nat) :
    empQ E d t (Dbl.fin 0) =
      if 0 < t then
        Dbl.fin (Min.min 1 ((d : ℚ) * pi0 *
          ((E.numberTargetProteins : ℚ) / (E.numberDecoyProteins : ℚ)) / (t : ℚ)))
      else Dbl.fin 0 := by
  have hD' : (E.numberDecoyProteins : ℚ) ≠ 0 := by exact_mod_cast hD.ne'
  by_cases ht : t = 0
  · subst ht
    simp [empQ, clampQ_fin]
  · have ht' : (t : ℚ) ≠ 0 := by exact_mod_cast ht
    have htp : 0 < t := Nat.pos_of_ne_zero ht
    simp only [empQ, hpi, Dbl.ofNat, Dbl.div, Dbl.mul, hD', ht', ht, if_false, ne_eq,
      not_false_eq_true, if_true, htp, clampQ_fin]
    split_ifs with h1
    · rw [min_eq_left h1.le]
    · rw [min_eq_right (not_lt.mp h1)]

/-! ## Lemmas on the forward running maximum -/

/-- A breaking loop whose step pushes the updated value of a state variable that never
decreases pushes a non-decreasing sequence lying between the initial and the final value
of that variable. -/
theorem loopPushBreak_mono {σ α β : Type} (step : σ → α → σ × β × Bool) (key : σ → Dbl)
    (out : β → Dbl)
    (h : ∀ s a, Dbl.IsFinite (key s) → Dbl.IsFinite (key (step s a).1) ∧
      Dbl.le (key s) (key (step s a).1) = true ∧ out (step s a).2.1 = key (step s a).1) :
    ∀ (l : List α) (s : σ), Dbl.IsFinite (key s) →
      Dbl.IsFinite (key (loopPushBreak step s l).1) ∧
      Dbl.le (key s) (key (loopPushBreak step s l).1) = true ∧
      (∀ b ∈ (loopPushBreak step s l).2.1, Dbl.le (key s) (out b) = true ∧
        Dbl.le (out b) (key (loopPushBreak step s l).1) = true) ∧
      List.Pairwise (fun a b => Dbl.le (out a) (out b) = true)
        (loopPushBreak step s l).2.1 := by
  intro l
  induction l with
  | nil =>
    intro s hs
    simp [loopPushBreak, hs, Dbl.le_refl_of_finite hs]
  | cons a as ih =>
    intro s hs
    obtain ⟨h1, h2, h3⟩ := h s a hs
    by_cases hb : (step s a).2.2 = true
    · simp only [loopPushBreak, hb, if_true, List.mem_singleton, forall_eq,
        List.pairwise_cons, List.not_mem_nil, false_implies, implies_true,
        List.Pairwise.nil, and_true]
      rw [h3]
      exact ⟨h1, h2, h2, Dbl.le_refl_of_finite h1⟩
    · obtain ⟨i1, i2, i3, i4⟩ := ih (step s a).1 h1
      have hb' : (step s a).2.2 = false := by simpa using hb
      simp only [loopPushBreak, hb', Bool.false_eq_true, if_false, List.mem_cons,
        List.pairwise_cons]
      refine ⟨i1, Dbl.le_trans' h2 i2, ?_, ?_, i4⟩
      · intro b hbm
        rcases hbm with hbm | hbm
        · rw [hbm, h3]; exact ⟨h2, i2⟩
        · exact ⟨Dbl.le_trans' h2 (i3 b hbm).1, (i3 b hbm).2⟩
      · intro b hbm
        rw [h3]; exact (i3 b hbm).1

/-- The same for an outer loop whose body pushes a block with these properties. -/
theorem loopPushMany_mono {σ α β : Type} (step : σ → α → σ × List β) (key : σ → Dbl)
    (out : β → Dbl)
    (h : ∀ s a, Dbl.IsFinite (key s) → Dbl.IsFinite (key (step s a).1) ∧
      Dbl.le (key s) (key (step s a).1) = true ∧
      (∀ b ∈ (step s a).2, Dbl.le (key s) (out b) = true ∧
        Dbl.le (out b) (key (step s a).1) = true) ∧
      List.Pairwise (fun a b => Dbl.le (out a) (out b) = true) (step s a).2) :
    ∀ (l : List α) (s : σ), Dbl.IsFinite (key s) →
      Dbl.IsFinite (key (loopPushMany step s l).1) ∧
      Dbl.le (key s) (key (loopPushMany step s l).1) = true ∧
      (∀ b ∈ (loopPushMany step s l).2, Dbl.le (key s) (out b) = true ∧
        Dbl.le (out b) (key (loopPushMany step s l).1) = true) ∧
      List.Pairwise (fun a b => Dbl.le (out a) (out b) = true)
        (loopPushMany step s l).2 := by
  intro l
  induction l with
  | nil =>
    intro s hs
    simp [loopPushMany, hs, Dbl.le_refl_of_finite hs]
  | cons a as ih =>
    intro s hs
    obtain ⟨h1, h2, h3, h4⟩ := h s a hs
    obtain ⟨i1, i2, i3, i4⟩ := ih (step s a).1 h1
    simp only [loopPushMany, List.mem_append, List.pairwise_append]
    refine ⟨i1, Dbl.le_trans' h2 i2, ?_, h4, i4, ?_⟩
    · intro b hbm
      rcases hbm with hbm | hbm
      · exact ⟨(h3 b hbm).1, Dbl.le_trans' (h3 b hbm).2 i2⟩
      · exact ⟨Dbl.le_trans' h2 (i3 b hbm).1, (i3 b hbm).2⟩
    · intro x hx y hy
      exact Dbl.le_trans' (h3 x hx).2 (i3 y hy).1

theorem fdrClamp_eq (x : Dbl) :
    (if Dbl.gt x (Dbl.fin 1) || x.isnan || x.isinf then Dbl.fin 1 else x) = clampQ x := by
  cases x <;> simp [clampQ, Dbl.isnan, Dbl.isinf, Dbl.gt, Dbl.lt]

theorem runningMax_spec {x prev : Dbl} (hx : Dbl.IsFinite x) (hp : Dbl.IsFinite prev) :
    Dbl.IsFinite (if Dbl.lt x prev then prev else x) ∧
    Dbl.le prev (if Dbl.lt x prev then prev else x) = true := by
  obtain ⟨a, rfl⟩ := hx
  obtain ⟨b, rfl⟩ := hp
  by_cases h : a < b
  · simp [Dbl.lt, Dbl.le, h, Dbl.IsFinite]
  · simp [Dbl.lt, Dbl.le, h, Dbl.IsFinite, not_lt.mp h]

theorem fdrFinish_est (E : Estimator) (s : FdrAcc) (hs : Dbl.IsFinite s.previousEstQ) :
    Dbl.IsFinite (fdrFinish E s).1.previousEstQ ∧
    Dbl.le s.previousEstQ (fdrFinish E s).1.previousEstQ = true ∧
    (fdrFinish E s).2.1.1 = (fdrFinish E s).1.previousEstQ := by
  simp only [fdrFinish, fdrClamp_eq, and_true]
  exact ⟨(runningMax_spec (clampQ_isFinite _) hs).1, (runningMax_spec (clampQ_isFinite _) hs).2⟩

theorem fdrFinish_emp (E : Estimator) (s : FdrAcc) (hs : Dbl.IsFinite s.previousEmpQ) :
    Dbl.IsFinite (fdrFinish E s).1.previousEmpQ ∧
    Dbl.le s.previousEmpQ (fdrFinish E s).1.previousEmpQ = true ∧
    (fdrFinish E s).2.1.2 = (fdrFinish E s).1.previousEmpQ := by
  simp only [fdrFinish, fdrClamp_eq, and_true]
  exact ⟨(runningMax_spec (clampQ_isFinite _) hs).1, (runningMax_spec (clampQ_isFinite _) hs).2⟩

theorem fdrStepTies_est (E : Estimator) (s : FdrAcc) (e : Dbl × List String)
    (hs : Dbl.IsFinite s.previousEstQ) :
    Dbl.IsFinite (fdrStepTies E s e).1.previousEstQ ∧
    Dbl.le s.previousEstQ (fdrStepTies E s e).1.previousEstQ = true ∧
    (fdrStepTies E s e).2.1.1 = (fdrStepTies E s e).1.previousEstQ :=
  fdrFinish_est E _ hs

theorem fdrStepTies_emp (E : Estimator) (s : FdrAcc) (e : Dbl × List String)
    (hs : Dbl.IsFinite s.previousEmpQ) :
    Dbl.IsFinite (fdrStepTies E s e).1.previousEmpQ ∧
    Dbl.le s.previousEmpQ (fdrStepTies E s e).1.previousEmpQ = true ∧
    (fdrStepTies E s e).2.1.2 = (fdrStepTies E s e).1.previousEmpQ :=
  fdrFinish_emp E _ hs

theorem fdrStepName_est (E : Estimator) (prob : Dbl) (s : FdrAcc) (n : String)
    (hs : Dbl.IsFinite s.previousEstQ) :
    Dbl.IsFinite (fdrStepName E prob s n).1.previousEstQ ∧
    Dbl.le s.previousEstQ (fdrStepName E prob s n).1.previousEstQ = true ∧
    (fdrStepName E prob s n).2.1.1 = (fdrStepName E prob s n).1.previousEstQ := by
  unfold fdrStepName
  split
  · exact fdrFinish_est E _ hs
  · exact fdrFinish_est E _ hs

theorem fdrStepName_emp (E : Estimator) (prob : Dbl) (s : FdrAcc) (n : String)
    (hs : Dbl.IsFinite s.previousEmpQ) :
    Dbl.IsFinite (fdrStepName E prob s n).1.previousEmpQ ∧
    Dbl.le s.previousEmpQ (fdrStepName E prob s n).1.previousEmpQ = true ∧
    (fdrStepName E prob s n).2.1.2 = (fdrStepName E prob s n).1.previousEmpQ := by
  unfold fdrStepName
  split
  · exact fdrFinish_emp E _ hs
  · exact fdrFinish_emp E _ hs

/-- Both curves pushed by the walk are non-decreasing. -/
theorem fdrWalk_sorted (E : Estimator) (l : List (Dbl × List String)) :
    List.Pairwise (fun a b => Dbl.le a.1 b.1 = true) (fdrWalk E l).2 ∧
    List.Pairwise (fun a b => Dbl.le a.2 b.2 = true) (fdrWalk E l).2 := by
  have h0 : Dbl.IsFinite (Dbl.fin 0) := ⟨0, rfl⟩
  unfold fdrWalk
  split
  · exact ⟨(loopPushBreak_mono (fdrStepTies E) FdrAcc.previousEstQ Prod.fst
        (fun s a hs => fdrStepTies_est E s a hs) l _ h0).2.2.2,
      (loopPushBreak_mono (fdrStepTies E) FdrAcc.previousEmpQ Prod.snd
        (fun s a hs => fdrStepTies_emp E s a hs) l _ h0).2.2.2⟩
  · exact ⟨(loopPushMany_mono (fdrStepGroup E) FdrAcc.previousEstQ Prod.fst
        (fun s a hs => loopPushBreak_mono (fdrStepName E a.1) FdrAcc.previousEstQ Prod.fst
          (fun s n hs => fdrStepName_est E a.1 s n hs) a.2 s hs) l _ h0).2.2.2,
      (loopPushMany_mono (fdrStepGroup E) FdrAcc.previousEmpQ Prod.snd
        (fun s a hs => loopPushBreak_mono (fdrStepName E a.1) FdrAcc.previousEmpQ Prod.snd
          (fun s n hs => fdrStepName_emp E a.1 s n hs) a.2 s hs) l _ h0).2.2.2⟩

theorem zip_map_fst_map_snd {α β : Type} (l : List (α × β)) :
    List.zip (l.map Prod.fst) (l.map Prod.snd) = l := by
  induction l with
  | nil => rfl
  | cons a as ih => simp [ih]

/-- On curves of one size with at least two points, `getFDR_divergence` returns `+inf` as
soon as the first estimated-FDR value exceeds the threshold. -/
theorem getFDR_divergence_first_exceeds (E : Estimator) (e0 e1 m0 m1 : Dbl)
    (est emp : List Dbl) (T : Dbl) (hlen : est.length = emp.length)
    (h : Dbl.gt e0 T = true) :
    getFDR_divergence E (e0 :: e1 :: est) (m0 :: m1 :: emp) T = some Dbl.pinf := by
  have hge : Dbl.ge e0 T = true := by
    cases e0 <;> cases T <;> simp_all [Dbl.gt, Dbl.ge, Dbl.lt, Dbl.le]
    exact le_of_lt h
  have hl : (List.zipWith Dbl.sub est emp).length + 1 + 1 - 1 =
      (List.zipWith Dbl.sub est emp).length + 1 := by omega
  simp only [getFDR_divergence, vectorDiff, List.length_cons, hlen, ne_eq, not_true_eq_false,
    if_false, List.zipWith_cons_cons, hl, divergenceLoop, List.getElem?_cons_zero, hge,
    if_true]
  simp [Dbl.div, Dbl.signedInf, Dbl.isinf]

/-! ## Lemmas on getROC_N -/

theorem toUnsigned_of_nonneg (N : Int) (h0 : 0 ≤ N) (h1 : N < 4294967296) :
    (toUnsigned N : Int) = N := by
  unfold toUnsigned
  rw [Int.emod_eq_of_lt h0 h1]
  exact Int.toNat_of_nonneg h0

/-- With curves of one size the loop of `getROC_N` never reads outside a vector. -/
theorem rocLoop_isSome (fp tp : List Nat) (N : Int) (hlen : tp.length = fp.length) :
    ∀ (steps k : Nat) (acc : Dbl), k + steps + 1 ≤ fp.length →
      ∃ v, rocLoop fp tp N steps k acc = some v := by
  intro steps
  induction steps with
  | zero => intro k acc _; exact ⟨acc, rfl⟩
  | succ n ih =>
    intro k acc hk
    have h0 : k < fp.length := by omega
    have h1 : k + 1 < fp.length := by omega
    have h2 : k < tp.length := by omega
    have h3 : k + 1 < tp.length := by omega
    simp only [rocLoop, List.getElem?_eq_getElem h0, List.getElem?_eq_getElem h1,
      List.getElem?_eq_getElem h2, List.getElem?_eq_getElem h3]
    split
    · exact ⟨acc, rfl⟩
    · split
      · exact ih (k + 1) _ (by omega)
      · exact ih (k + 1) _ (by omega)

/-- The two-point curve `(0,0) -> (n,T)` evaluated at `N = n` has ROC_N `1/2` as long as
the normaliser `N * tpArray.back()` fits in 32 bits. -/
theorem getROC_N_two_point (n T : Nat) (hn : 0 < n) (hT : 0 < T)
    (hfit : n * T < 4294967296) :
    getROC_N [0, n] [0, T] (n : Int) = Outcome.value (Dbl.fin (1 / 2)) := by
  have hn32 : n < 4294967296 := lt_of_le_of_lt (Nat.le_mul_of_pos_right n hT) hfit
  have hu : toUnsigned (n : Int) = n := by
    have := toUnsigned_of_nonneg (n : Int) (Int.ofNat_nonneg n) (by exact_mod_cast hn32)
    exact_mod_cast this
  have hnq : (n : ℚ) ≠ 0 := by exact_mod_cast hn.ne'
  have hTq : (T : ℚ) ≠ 0 := by exact_mod_cast hT.ne'
  have harea : area (Dbl.ofNat 0) (Dbl.ofNat 0) (Dbl.ofNat n) (Dbl.ofNat T)
      (Dbl.ofInt (n : Int)) = Dbl.fin ((n : ℚ) * T / 2) := by
    simp only [area, antiderivativeAt, Dbl.ofNat, Dbl.ofInt, Dbl.sub, Dbl.neg, Dbl.add,
      Dbl.div, Dbl.mul, Dbl.min, Dbl.lt, Dbl.isnan, Nat.cast_zero, Int.cast_natCast]
    simp only [neg_zero, add_zero, hnq, if_false, mul_zero, zero_mul, zero_div, lt_self_iff_false,
      decide_False, Bool.false_eq_true, two_ne_zero]
    congr 1
    field_simp
    ring
  have hne0 : ¬ (0 ≥ n) := by omega
  have hne1 : (0 : Nat) ≠ n := by omega
  have hmod : n * T % 4294967296 = n * T := Nat.mod_eq_of_lt hfit
  have hprod : ((n * T : Nat) : ℚ) ≠ 0 := by
    exact_mod_cast (Nat.mul_pos hn hT).ne'
  simp only [getROC_N, List.getLast?, List.getLast, hu, lt_self_iff_false, if_false,
    List.length_cons, List.length_nil, rocLoop, List.getElem?_cons_zero,
    List.getElem?_cons_succ, hne0, hne1, ne_eq, not_false_eq_true, if_true, harea, hmod,
    Nat.reduceAdd, Nat.add_one_sub_one, zero_add]
  simp only [Dbl.add, Dbl.div, Dbl.ofNat, hprod, if_false, zero_add]
  congr 2
  push_cast
  field_simp
  ring

/-! ## Lemmas on the protein registry -/

theorem qvaluesBelowLoop_eq (level : Dbl) (l : List (String × Protein)) (nP : Nat) :
    qvaluesBelowLoop level nP l =
      nP + l.countP (fun e => Dbl.le e.2.q level && !e.2.isDecoy) := by
  induction l generalizing nP with
  | nil => simp [qvaluesBelowLoop]
  | cons e rest ih =>
    obtain ⟨k, P⟩ := e
    simp only [qvaluesBelowLoop, ih, List.countP_cons]
    split
    · simp_all; omega
    · simp_all

theorem qvaluesBelowDecoyLoop_eq (level : Dbl) (l : List (String × Protein)) (nP : Nat) :
    qvaluesBelowDecoyLoop level nP l =
      nP + l.countP (fun e => Dbl.le e.2.q level && e.2.isDecoy) := by
  induction l generalizing nP with
  | nil => simp [qvaluesBelowDecoyLoop]
  | cons e rest ih =>
    obtain ⟨k, P⟩ := e
    simp only [qvaluesBelowDecoyLoop, ih, List.countP_cons]
    split
    · simp_all; omega
    · simp_all

theorem countP_split_decoy (level : Dbl) (l : List (String × Protein)) :
    l.countP (fun e => Dbl.le e.2.q level && !e.2.isDecoy) +
      l.countP (fun e => Dbl.le e.2.q level && e.2.isDecoy) =
    l.countP (fun e => Dbl.le e.2.q level) := by
  induction l with
  | nil => simp
  | cons e rest ih =>
    simp only [List.countP_cons]
    cases h1 : Dbl.le e.2.q level <;> cases h2 : e.2.isDecoy <;> simp <;> omega

theorem mapFind_append (m : List (String × Protein)) (k name : String) (v : Protein) :
    mapFind (m ++ [(k, v)]) name =
      match mapFind m name with
      | some x => some x
      | none => if k = name then some v else none := by
  induction m with
  | nil => simp [mapFind]
  | cons e rest ih =>
    obtain ⟨k1, v1⟩ := e
    simp only [List.cons_append, mapFind]
    split
    · rfl
    · exact ih

theorem mapFind_mapUpdate (m : List (String × Protein)) (k name : String)
    (f : Protein → Protein) :
    mapFind (mapUpdate k f m) name =
      if k = name then (mapFind m name).map f else mapFind m name := by
  induction m with
  | nil => simp [mapFind, mapUpdate]
  | cons e rest ih =>
    obtain ⟨k1, v1⟩ := e
    simp only [mapUpdate, mapFind, ih]
    by_cases h2 : k1 = name
    · subst h2
      by_cases h1 : k1 = k
      · simp [h1]
      · simp [h1, Ne.symm h1]
    · simp [h2]

theorem mapUpdate_keys (m : List (String × Protein)) (k : String) (f : Protein → Protein) :
    (mapUpdate k f m).map Prod.fst = m.map Prod.fst := by
  induction m with
  | nil => rfl
  | cons e rest ih =>
    obtain ⟨k1, v1⟩ := e
    simp [mapUpdate, ih]

theorem mapFind_eq_none_iff (m : List (String × Protein)) (name : String) :
    mapFind m name = none ↔ name ∉ m.map Prod.fst := by
  induction m with
  | nil => simp [mapFind]
  | cons e rest ih =>
    obtain ⟨k1, v1⟩ := e
    simp only [mapFind, List.map_cons, List.mem_cons, not_or]
    by_cases h : k1 = name
    · simp [h]
    · simp [h, ih, Ne.symm h]

theorem mapFind_of_mem (m : List (String × Protein)) (hm : (m.map Prod.fst).Nodup)
    (name : String) (P : Protein) (h : (name, P) ∈ m) : mapFind m name = some P := by
  induction m with
  | nil => simp at h
  | cons e rest ih =>
    obtain ⟨k1, v1⟩ := e
    simp only [List.map_cons, List.nodup_cons] at hm
    rcases List.mem_cons.mp h with h1 | h1
    · simp only [Prod.mk.injEq] at h1
      simp [mapFind, h1.1, h1.2]
    · have hk : k1 ≠ name := by
        intro hc
        apply hm.1
        rw [hc]
        exact List.mem_map.mpr ⟨(name, P), h1, rfl⟩
      simp only [mapFind, hk, if_false]
      exact ih hm.2 h1

theorem registerProtein_proteins (psm : ScoreHolder) (E : Estimator) (protId : String) :
    (registerProtein psm E protId).proteins =
      match mapFind E.proteins protId with
      | none => E.proteins ++ [(protId, newProtein protId psm.isDecoy (peptideOf psm))]
      | some _ => mapUpdate protId (fun P => P.setPeptide (peptideOf psm)) E.proteins := by
  unfold registerProtein
  cases h : mapFind E.proteins protId with
  | none => cases hd : psm.isDecoy <;> simp
  | some P0 => simp

/-- What the registry holds under `name` after the inner-loop body for `protId`. -/
theorem mapFind_registerProtein (psm : ScoreHolder) (E : Estimator) (protId name : String) :
    mapFind (registerProtein psm E protId).proteins name =
      if protId = name then seenIn psm name (mapFind E.proteins name)
      else mapFind E.proteins name := by
  rw [registerProtein_proteins]
  cases h : mapFind E.proteins protId with
  | none =>
    simp only [mapFind_append]
    by_cases hn : protId = name
    · subst hn; simp [h, seenIn]
    · simp only [hn, if_false]
      cases mapFind E.proteins name <;> rfl
  | some P0 =>
    simp only [mapFind_mapUpdate]
    by_cases hn : protId = name
    · subst hn; simp [h, seenIn]
    · simp [hn]

/-- What the registry holds under `name` after one match with distinct identifiers. -/
theorem mapFind_registerMatch (psm : ScoreHolder) (name : String) :
    ∀ (ids : List String) (E : Estimator), ids.Nodup →
      mapFind (ids.foldl (registerProtein psm) E).proteins name =
        if name ∈ ids then seenIn psm name (mapFind E.proteins name)
        else mapFind E.proteins name := by
  intro ids
  induction ids with
  | nil => intro E _; simp
  | cons protId rest ih =>
    intro E hnd
    simp only [List.nodup_cons] at hnd
    simp only [List.foldl_cons]
    rw [ih _ hnd.2, mapFind_registerProtein]
    by_cases hn : protId = name
    · subst hn
      simp [hnd.1]
    · simp [hn, Ne.symm hn]

/-- What the registry holds under `name` after a stream of matches. -/
theorem mapFind_stream (name : String) :
    ∀ (S : List ScoreHolder) (E : Estimator), (∀ m ∈ S, m.proteinIds.Nodup) →
      mapFind (S.foldl registerMatch E).proteins name =
        afterStream name (mapFind E.proteins name) S := by
  intro S
  induction S with
  | nil => intro E _; rfl
  | cons m ms ih =>
    intro E hS
    simp only [List.foldl_cons, afterStream]
    rw [ih _ (fun x hx => hS x (List.mem_cons_of_mem _ hx))]
    unfold registerMatch
    rw [mapFind_registerMatch m name _ E (hS m (List.mem_cons_self _ _))]

theorem afterStream_some (name : String) (S : List ScoreHolder) (P : Protein) :
    afterStream name (some P) S =
      some { P with peptides := P.peptides ++
        (S.filter (fun m => decide (name ∈ m.proteinIds))).map peptideOf } := by
  induction S generalizing P with
  | nil => simp [afterStream]
  | cons m ms ih =>
    simp only [afterStream]
    by_cases h : name ∈ m.proteinIds
    · simp [h, seenIn, ih, Protein.setPeptide]
    · simp [h, ih]

theorem afterStream_none (name : String) (S : List ScoreHolder) :
    afterStream name none S =
      (S.find? (fun m => decide (name ∈ m.proteinIds))).map (fun m =>
        { name := name, isDecoy := m.isDecoy,
          peptides := (S.filter (fun m => decide (name ∈ m.proteinIds))).map peptideOf }) := by
  induction S with
  | nil => simp [afterStream]
  | cons m ms ih =>
    simp only [afterStream]
    by_cases h : name ∈ m.proteinIds
    · simp [h, seenIn, afterStream_some, newProtein]
    · simp [h, ih]

theorem registerProtein_keys (psm : ScoreHolder) (E : Estimator) (protId : String) :
    (registerProtein psm E protId).proteins.map Prod.fst =
      if mapFind E.proteins protId = none then E.proteins.map Prod.fst ++ [protId]
      else E.proteins.map Prod.fst := by
  rw [registerProtein_proteins]
  cases h : mapFind E.proteins protId with
  | none => simp
  | some P0 => simp [mapUpdate_keys]

theorem registerProtein_truePosSet (psm : ScoreHolder) (E : Estimator) (protId : String) :
    (registerProtein psm E protId).truePosSet =
      if mapFind E.proteins protId = none ∧ psm.isDecoy = false then
        setInsert E.truePosSet protId
      else E.truePosSet := by
  unfold registerProtein
  cases h : mapFind E.proteins protId with
  | none => cases hd : psm.isDecoy <;> simp
  | some P0 => simp

theorem registerProtein_falsePosSet (psm : ScoreHolder) (E : Estimator) (protId : String) :
    (registerProtein psm E protId).falsePosSet =
      if mapFind E.proteins protId = none ∧ psm.isDecoy = true then
        setInsert E.falsePosSet protId
      else E.falsePosSet := by
  unfold registerProtein
  cases h : mapFind E.proteins protId with
  | none => cases hd : psm.isDecoy <;> simp
  | some P0 => simp

theorem setInsert_of_not_mem (s : List String) (name : String) (h : name ∉ s) :
    setInsert s name = s ++ [name] := by
  simp [setInsert, h]

/-- The body of the inner loop of `setTargetandDecoysNames` keeps the registry and the
two name sets consistent. -/
theorem RegistryInv.step (psm : ScoreHolder) (E : Estimator) (protId : String)
    (h : RegistryInv E) : RegistryInv (registerProtein psm E protId) := by
  obtain ⟨hk, hT, hF, hTm, hFm⟩ := h
  cases hfind : mapFind E.proteins protId with
  | none =>
    have hnk : protId ∉ E.proteins.map Prod.fst := (mapFind_eq_none_iff _ _).mp hfind
    have hnT : protId ∉ E.truePosSet := by
      intro hc
      obtain ⟨P, hP, _⟩ := (hTm protId).mp hc
      rw [hfind] at hP; exact Option.noConfusion hP
    have hnF : protId ∉ E.falsePosSet := by
      intro hc
      obtain ⟨P, hP, _⟩ := (hFm protId).mp hc
      rw [hfind] at hP; exact Option.noConfusion hP
    have hkeys : ((registerProtein psm E protId).proteins.map Prod.fst).Nodup := by
      rw [registerProtein_keys, if_pos hfind]
      exact List.Nodup.append hk (List.nodup_singleton _) (by simpa using hnk)
    cases hd : psm.isDecoy with
    | true =>
      refine ⟨hkeys, ?_, ?_, ?_, ?_⟩
      · rw [registerProtein_truePosSet]; simpa [hd] using hT
      · rw [registerProtein_falsePosSet, if_pos ⟨hfind, hd⟩, setInsert_of_not_mem _ _ hnF]
        exact List.Nodup.append hF (List.nodup_singleton _) (by simpa using hnF)
      · intro name
        rw [registerProtein_truePosSet, mapFind_registerProtein]
        simp only [hd, and_false, if_false, Bool.true_eq_false]
        by_cases hn : protId = name
        · subst hn
          simp [hfind, seenIn, newProtein, hd, hnT]
        · simp only [hn, if_false]; exact hTm name
      · intro name
        rw [registerProtein_falsePosSet, if_pos ⟨hfind, hd⟩, setInsert_of_not_mem _ _ hnF,
          mapFind_registerProtein]
        by_cases hn : protId = name
        · subst hn
          simp [hfind, seenIn, newProtein, hd]
        · simp only [hn, if_false, List.mem_append, List.mem_singleton]
          rw [hFm name]
          constructor
          · rintro (h1 | h1)
            · exact h1
            · exact absurd h1.symm hn
          · intro h1; exact Or.inl h1
    | false =>
      refine ⟨hkeys, ?_, ?_, ?_, ?_⟩
      · rw [registerProtein_truePosSet, if_pos ⟨hfind, hd⟩, setInsert_of_not_mem _ _ hnT]
        exact List.Nodup.append hT (List.nodup_singleton _) (by simpa using hnT)
      · rw [registerProtein_falsePosSet]; simpa [hd] using hF
      · intro name
        rw [registerProtein_truePosSet, if_pos ⟨hfind, hd⟩, setInsert_of_not_mem _ _ hnT,
          mapFind_registerProtein]
        by_cases hn : protId = name
        · subst hn
          simp [hfind, seenIn, newProtein, hd]
        · simp only [hn, if_false, List.mem_append, List.mem_singleton]
          rw [hTm name]
          constructor
          · rintro (h1 | h1)
            · exact h1
            · exact absurd h1.symm hn
          · intro h1; exact Or.inl h1
      · intro name
        rw [registerProtein_falsePosSet, mapFind_registerProtein]
        simp only [hd, and_false, if_false, Bool.false_eq_true]
        by_cases hn : protId = name
        · subst hn
          simp [hfind, seenIn, newProtein, hd, hnF]
        · simp only [hn, if_false]; exact hFm name
  | some P0 =>
    have hne : mapFind E.proteins protId ≠ none := by rw [hfind]; simp
    refine ⟨?_, ?_, ?_, ?_, ?_⟩
    · rw [registerProtein_keys, if_neg hne]; exact hk
    · rw [registerProtein_truePosSet, if_neg (fun hc => hne hc.1)]; exact hT
    · rw [registerProtein_falsePosSet, if_neg (fun hc => hne hc.1)]; exact hF
    · intro name
      rw [registerProtein_truePosSet, if_neg (fun hc => hne hc.1), mapFind_registerProtein,
        hTm name]
      by_cases hn : protId = name
      · subst hn
        simp [hfind, seenIn, Protein.setPeptide]
      · simp [hn]
    · intro name
      rw [registerProtein_falsePosSet, if_neg (fun hc => hne hc.1), mapFind_registerProtein,
        hFm name]
      by_cases hn : protId = name
      · subst hn
        simp [hfind, seenIn, Protein.setPeptide]
      · simp [hn]

theorem RegistryInv.stream (S : List ScoreHolder) (E : Estimator) (h : RegistryInv E) :
    RegistryInv (S.foldl registerMatch E) := by
  induction S generalizing E with
  | nil => exact h
  | cons m ms ih =>
    simp only [List.foldl_cons]
    apply ih
    unfold registerMatch
    generalize m.proteinIds = ids
    induction ids generalizing E with
    | nil => exact h
    | cons protId rest ih2 =>
      simp only [List.foldl_cons]
      exact ih2 _ (RegistryInv.step m E protId h)

theorem RegistryInv.of_empty (E : Estimator) (hp : E.proteins = []) (hT : E.truePosSet = [])
    (hF : E.falsePosSet = []) : RegistryInv E := by
  simp [RegistryInv, hp, hT, hF, mapFind]

theorem registry_keys_nodup (S : List ScoreHolder) (E : Estimator)
    (h : (E.proteins.map Prod.fst).Nodup) :
    ((S.foldl registerMatch E).proteins.map Prod.fst).Nodup := by
  induction S generalizing E with
  | nil => exact h
  | cons m ms ih =>
    simp only [List.foldl_cons]
    apply ih
    unfold registerMatch
    generalize m.proteinIds = ids
    induction ids generalizing E with
    | nil => exact h
    | cons protId rest ih2 =>
      simp only [List.foldl_cons]
      apply ih2
      rw [registerProtein_keys]
      split
      · rename_i hfind
        exact List.Nodup.append h (List.nodup_singleton _)
          (by simpa using (mapFind_eq_none_iff _ _).mp hfind)
      · exact h

theorem setTargetandDecoysNames_proteins (E : Estimator) (S : List ScoreHolder) :
    (setTargetandDecoysNames E S).proteins = (S.foldl registerMatch E).proteins := rfl

/-! ## Lemmas on estimatePi0 -/

theorem minElementLoop_lt (xs : List Dbl) :
    ∀ (smallest : Dbl) (best i : Nat), best < i →
      minElementLoop smallest best i xs < i + xs.length := by
  induction xs with
  | nil => intro s best i h; simpa [minElementLoop] using h
  | cons x rest ih =>
    intro s best i h
    simp only [minElementLoop, List.length_cons]
    split
    · have := ih x i (i + 1) (Nat.lt_succ_self i)
      omega
    · have := ih s best (i + 1) (Nat.lt_succ_of_lt h)
      omega

theorem min_element_lt (v : List Dbl) (hv : v ≠ []) : min_element v < v.length := by
  cases v with
  | nil => exact absurd rfl hv
  | cons x xs =>
    have := minElementLoop_lt xs x 0 1 Nat.zero_lt_one
    simp only [min_element, List.length_cons]
    omega

theorem bootstrapDraw_lt (rnd : Nat → Nat) (randMax n call : Nat) (hn : 0 < n) :
    bootstrapDraw rnd randMax n call < n := by
  have hM : ((randMax : ℚ) + 1) ≠ 0 := by positivity
  have hMpos : (0 : ℚ) < (randMax : ℚ) + 1 := by positivity
  have hr : ((rnd call % (randMax + 1) : Nat) : ℚ) < (randMax : ℚ) + 1 := by
    have := Nat.mod_lt (rnd call) (Nat.succ_pos randMax)
    exact_mod_cast this
  have hq0 : (0 : ℚ) ≤ ((rnd call % (randMax + 1) : Nat) : ℚ) / ((randMax : ℚ) + 1) * n := by
    positivity
  have hq1 : ((rnd call % (randMax + 1) : Nat) : ℚ) / ((randMax : ℚ) + 1) * n < n := by
    have h1 : ((rnd call % (randMax + 1) : Nat) : ℚ) / ((randMax : ℚ) + 1) < 1 := by
      rw [div_lt_one hMpos]; exact hr
    have hnq : (0 : ℚ) < n := by exact_mod_cast hn
    calc ((rnd call % (randMax + 1) : Nat) : ℚ) / ((randMax : ℚ) + 1) * n < 1 * n :=
          mul_lt_mul_of_pos_right h1 hnq
      _ = n := one_mul _
  simp only [bootstrapDraw, Dbl.ofNat, Dbl.add, Dbl.div, hM, if_false, Dbl.mul, Dbl.toInt,
    hq0, if_true]
  rw [Int.toNat_lt (Int.floor_nonneg.mpr hq0), Int.floor_lt]
  exact_mod_cast hq1

theorem drawAll_isSome (v : List Dbl) (draws : List Nat) (h : ∀ d ∈ draws, d < v.length) :
    ∃ out, drawAll v draws = some out := by
  induction draws with
  | nil => exact ⟨[], rfl⟩
  | cons d rest ih =>
    obtain ⟨r, hr⟩ := ih (fun x hx => h x (List.mem_cons_of_mem _ hx))
    have hd := h d (List.mem_cons_self _ _)
    exact ⟨v[d] :: r, by simp [drawAll, hr, List.getElem?_eq_getElem hd]⟩

theorem bootstrap_isSome (v : List Dbl) (hv : v ≠ []) (rnd : Nat → Nat)
    (randMax firstCall max_size : Nat) :
    ∃ pBoot, bootstrap v rnd randMax firstCall max_size = some pBoot := by
  have hn : 0 < v.length := List.length_pos.mpr hv
  obtain ⟨out, hout⟩ := drawAll_isSome v
    ((List.range (Min.min v.length max_size)).map
      (fun ix => bootstrapDraw rnd randMax v.length (firstCall + ix)))
    (by
      intro d hd
      obtain ⟨ix, _, rfl⟩ := List.mem_map.mp hd
      exact bootstrapDraw_lt rnd randMax v.length _ hn)
  exact ⟨sort out, by simp [bootstrap, hout]⟩

theorem mseLoop_isSome (pvalues lambdas : List Dbl) (hv : pvalues ≠ []) (minPi0 : Dbl)
    (rnd : Nat → Nat) (randMax : Nat) :
    ∀ (iterations boot : Nat) (mse : List Dbl), mse.length = lambdas.length →
      ∃ out, mseLoop pvalues lambdas minPi0 rnd randMax iterations boot mse = some out ∧
        out.length = lambdas.length := by
  intro iterations
  induction iterations with
  | zero => intro boot mse h; exact ⟨mse, rfl, h⟩
  | succ k ih =>
    intro boot mse h
    obtain ⟨pBoot, hb⟩ := bootstrap_isSome pvalues hv rnd randMax
      (boot * Min.min pvalues.length 1000) 1000
    simp only [mseLoop, hb]
    exact ih (boot + 1) _ (by simp [h])

theorem pi0Candidates_nil : pi0Candidates [] = [] := by
  rw [pi0Candidates, List.filterMap_eq_nil_iff]
  intro ix _
  simp [pi0AtLambda, lower_bound, Dbl.ofNat, Dbl.div, Dbl.signedInf, Dbl.gt, Dbl.lt, lambdaAt,
    Dbl.mul, Dbl.sub, Dbl.neg, Dbl.add]

theorem pi0Candidates_pos (pvalues : List Dbl) :
    ∀ c ∈ pi0Candidates pvalues, Dbl.gt c.2 (Dbl.fin 0) = true := by
  intro c hc
  simp only [pi0Candidates, List.mem_filterMap] at hc
  obtain ⟨ix, _, hix⟩ := hc
  split at hix
  · rename_i hpos
    simp only [Option.some.injEq] at hix
    rw [← hix]; exact hpos
  · exact Option.noConfusion hix

theorem clamp01_of_pos (x : Dbl) (h : Dbl.gt x (Dbl.fin 0) = true) :
    ∃ q : ℚ, Dbl.max (Dbl.min x (Dbl.fin 1)) (Dbl.fin 0) = Dbl.fin q ∧ 0 < q ∧ q ≤ 1 := by
  cases x with
  | fin a =>
    have ha : 0 < a := by simpa [Dbl.gt, Dbl.lt] using h
    by_cases h1 : 1 < a
    · exact ⟨1, by simp [Dbl.max, Dbl.min, Dbl.lt, h1], by norm_num, le_refl _⟩
    · exact ⟨a, by simp [Dbl.max, Dbl.min, Dbl.lt, h1, not_lt.mpr ha.le], ha, not_lt.mp h1⟩
  | pinf => exact ⟨1, by simp [Dbl.max, Dbl.min, Dbl.lt], by norm_num, le_refl _⟩
  | ninf => simp [Dbl.gt, Dbl.lt] at h
  | nan => simp [Dbl.gt, Dbl.lt] at h

/-- The two ways `estimatePi0` ends: with the sentinel when no candidate threshold was
kept, with a value of `(0,1]` otherwise; it never reads outside a vector. -/
theorem estimatePi0_cases (E : Estimator) (numBoot : Nat) (rnd : Nat → Nat) (randMax : Nat) :
    (pi0Candidates E.pvalues = [] ∧
      estimatePi0 E numBoot rnd randMax = some (Dbl.fin (-1))) ∨
    (pi0Candidates E.pvalues ≠ [] ∧
      ∃ q : ℚ, estimatePi0 E numBoot rnd randMax = some (Dbl.fin q) ∧ 0 < q ∧ q ≤ 1) := by
  by_cases hc : pi0Candidates E.pvalues = []
  · left
    exact ⟨hc, by simp [estimatePi0, hc]⟩
  · right
    refine ⟨hc, ?_⟩
    have hv : E.pvalues ≠ [] := by
      intro h
      apply hc
      rw [h]; exact pi0Candidates_nil
    have hne : (pi0Candidates E.pvalues).map Prod.snd ≠ [] := by simpa using hc
    have hlen : ((pi0Candidates E.pvalues).map Prod.snd).length ≠ 0 := by
      simpa using hc
    have h1 := min_element_lt _ hne
    obtain ⟨out, hout, houtlen⟩ := mseLoop_isSome E.pvalues
      ((pi0Candidates E.pvalues).map Prod.fst) hv
      (((pi0Candidates E.pvalues).map Prod.snd)[min_element
        ((pi0Candidates E.pvalues).map Prod.snd)]) rnd randMax numBoot 0
      (((pi0Candidates E.pvalues).map Prod.snd).map (fun _ => Dbl.fin 0)) (by simp)
    have hout_ne : out ≠ [] := by
      intro h
      rw [h] at houtlen
      simp only [List.length_nil, List.length_map] at houtlen
      exact hc (List.length_eq_zero.mp houtlen.symm)
    have h2 : min_element out < ((pi0Candidates E.pvalues).map Prod.snd).length := by
      have := min_element_lt out hout_ne
      simp only [List.length_map] at houtlen ⊢
      omega
    have hmem : ((pi0Candidates E.pvalues).map Prod.snd)[min_element out] ∈
        (pi0Candidates E.pvalues).map Prod.snd := List.getElem_mem _
    obtain ⟨c, hcm, hceq⟩ := List.mem_map.mp hmem
    have hpos := pi0Candidates_pos E.pvalues c hcm
    rw [hceq] at hpos
    obtain ⟨q, hq, hq0, hq1⟩ := clamp01_of_pos _ hpos
    refine ⟨q, ?_, hq0, hq1⟩
    simp only [estimatePi0, hlen, if_false, List.getElem?_eq_getElem h1, hout,
      List.getElem?_eq_getElem h2, hq]

theorem lambdaAt_eq (ix : Nat) : lambdaAt ix = Dbl.fin (((ix : ℚ) + 1) / 200) := by
  simp only [lambdaAt, Dbl.ofNat, Dbl.div, Dbl.mul]
  norm_num
  ring

theorem lower_bound_replicate (n : Nat) (c l : ℚ) :
    lower_bound (List.replicate n (Dbl.fin c)) (Dbl.fin l) = if c < l then n else 0 := by
  simp only [lower_bound, List.takeWhile_replicate, Dbl.lt, decide_eq_true_eq]
  split <;> simp

/-- On a vector of `n > 0` copies of `c` no candidate threshold is kept exactly when `c`
lies below the smallest threshold `1/200`. -/
theorem pi0Candidates_replicate (n : Nat) (c : ℚ) (hn : 0 < n) :
    pi0Candidates (List.replicate n (Dbl.fin c)) = [] ↔ c < 1 / 200 := by
  have hnq : (n : ℚ) ≠ 0 := by exact_mod_cast hn.ne'
  rw [pi0Candidates, List.filterMap_eq_nil_iff]
  constructor
  · intro h
    by_contra hc
    have h0 := h 0 (by simp)
    simp only [lambdaAt_eq, pi0AtLambda, List.length_replicate, lower_bound_replicate,
      Nat.cast_zero, zero_add] at h0
    rw [if_neg hc] at h0
    have h199 : ((1 : ℚ) + -(1 / 200)) ≠ 0 := by norm_num
    simp only [Nat.sub_zero, Dbl.ofNat, Dbl.div, hnq, if_false, Dbl.sub, Dbl.neg, Dbl.add,
      h199, Dbl.gt, Dbl.lt, div_self hnq] at h0
    norm_num at h0
    exact Option.noConfusion h0
  · intro hc ix _
    have hlt : c < ((ix : ℚ) + 1) / 200 := by
      have : (0 : ℚ) ≤ ix := Nat.cast_nonneg ix
      linarith
    simp only [lambdaAt_eq, pi0AtLambda, List.length_replicate, lower_bound_replicate, hlt,
      if_true, Nat.sub_self, Dbl.ofNat, Nat.cast_zero, Dbl.div, hnq, if_false, zero_div,
      Dbl.sub, Dbl.neg, Dbl.add]
    split <;> simp [Dbl.gt, Dbl.lt, Dbl.signedInf]

/-! ## Lemmas on the pi0 fall-back of run -/

theorem loopPushMany_qStepGroup_length (pat : String) :
    ∀ (l : List (Dbl × List String)) (s : QAcc),
      (loopPushMany (qStepGroup pat) s l).2.length = (l.map (fun e => e.2.length)).sum := by
  intro l
  induction l with
  | nil => intro s; simp [loopPushMany]
  | cons e rest ih =>
    intro s
    simp only [loopPushMany, List.length_append, List.map_cons, List.sum_cons, ih]
    simp [qStepGroup, loopPush_length]

/-- Number of q-values left by `estimateQValues`: one per ranked entry in
ties-as-one-protein mode, one per protein name otherwise. -/
theorem rawQValues_length (E : Estimator) :
    (rawQValues E).length =
      if E.tiesAsOneProtein then E.pepProteins.length
      else (E.pepProteins.map (fun e => e.2.length)).sum := by
  unfold rawQValues
  split
  · exact loopPush_length _ _ _
  · exact loopPushMany_qStepGroup_length _ _ _

theorem qvalues_ne_nil (E : Estimator) (hne : E.pepProteins ≠ [])
    (hgroups : ∀ e ∈ E.pepProteins, e.2 ≠ []) : (estimateQValues E).qvalues ≠ [] := by
  intro h
  have hl : (monotonize (rawQValues E)).length = 0 := by
    have : (estimateQValues E).qvalues = monotonize (rawQValues E) := rfl
    rw [← this, h]; rfl
  rw [monotonize_length, rawQValues_length] at hl
  cases hL : E.pepProteins with
  | nil => exact hne hL
  | cons e rest =>
    rw [hL] at hl
    have he : e.2 ≠ [] := hgroups e (by rw [hL]; exact List.mem_cons_self _ _)
    have hpos : 0 < e.2.length := List.length_pos.mpr he
    split at hl
    · simp at hl
    · simp only [List.map_cons, List.sum_cons] at hl
      omega

/-- The last element of a non-decreasing vector of ordinary numbers is its maximum. -/
theorem le_getLast_of_sorted (l : List Dbl) (hfin : ∀ x ∈ l, Dbl.IsFinite x)
    (hs : List.Pairwise (fun a b => Dbl.le a b = true) l) (last : Dbl)
    (hlast : l.getLast? = some last) : ∀ q ∈ l, Dbl.le q last = true := by
  obtain ⟨ys, rfl⟩ := List.getLast?_eq_some_iff.mp hlast
  intro q hq
  rcases List.mem_append.mp hq with h | h
  · exact (List.pairwise_append.mp hs).2.2 q h last (by simp)
  · simp only [List.mem_singleton] at h
    rw [h]
    exact Dbl.le_refl_of_finite (hfin last (by simp))

theorem estimatePValues_qvalues (E E2 : Estimator) (h : estimatePValues E = some E2) :
    E2.qvalues = E.qvalues := by
  unfold estimatePValues at h
  split at h
  · exact Option.noConfusion h
  · simp only [Option.some.injEq] at h
    rw [← h]

/-! ## Lemmas on gridSearch -/

theorem gridStep_evaluated (engine : Dbl → Dbl → Dbl → List (List String) × List Dbl)
    (s s1 : GridAcc) (c : Dbl × Dbl × Dbl) (h : gridStep engine s c = Run.done s1) :
    s1.evaluated = s.evaluated ++ [c] := by
  unfold gridStep at h
  split at h
  · exact Run.noConfusion h
  · exact Run.noConfusion h
  · split at h
    · simp only [Run.done.injEq] at h
      rw [← h]
    · simp only [Run.done.injEq] at h
      rw [← h]

theorem gridLoop_evaluated (engine : Dbl → Dbl → Dbl → List (List String) × List Dbl) :
    ∀ (cs : List (Dbl × Dbl × Dbl)) (s s1 : GridAcc), gridLoop engine s cs = Run.done s1 →
      s1.evaluated = s.evaluated ++ cs := by
  intro cs
  induction cs with
  | nil =>
    intro s s1 h
    simp only [gridLoop, Run.done.injEq] at h
    rw [← h]; simp
  | cons c rest ih =>
    intro s s1 h
    simp only [gridLoop] at h
    cases hstep : gridStep engine s c with
    | done s2 =>
      rw [hstep] at h
      rw [ih s2 s1 h, gridStep_evaluated engine s s2 c hstep]
      simp
    | fatal => rw [hstep] at h; exact Run.noConfusion h
    | undefined => rw [hstep] at h; exact Run.noConfusion h

/-- Whatever the arguments and whatever `deepness`, a grid search that ends normally has
handed to the inference engine exactly the triples of the three arrays declared at the
top of `gridSearch`, in scan order. -/
theorem gridSearch_evaluated (engine : Dbl → Dbl → Dbl → List (List String) × List Dbl)
    (E E1 : Estimator) (a g b : Dbl) (tr : List (Dbl × Dbl × Dbl))
    (h : gridSearch engine E a g b = Run.done (E1, tr)) :
    tr = gridTriples gamma_search alpha_search beta_search := by
  unfold gridSearch at h
  simp only at h
  split at h
  · rename_i s hs
    simp only [Run.done.injEq, Prod.mk.injEq] at h
    rw [← h.2, gridLoop_evaluated engine _ _ s hs]
    simp
  · exact Run.noConfusion h
  · exact Run.noConfusion h

/-- The three arguments of `gridSearch` do not reach its result. -/
theorem gridSearch_arguments_unused
    (engine : Dbl → Dbl → Dbl → List (List String) × List Dbl) (E : Estimator)
    (a g b a1 g1 b1 : Dbl) : gridSearch engine E a g b = gridSearch engine E a1 g1 b1 := rfl

/-! ## Lemmas on the areas and the conservative divergence -/

theorem Dbl.sub_nan (a : Dbl) : a.sub Dbl.nan = Dbl.nan := by
  cases a <;> rfl

theorem Dbl.nan_sub (a : Dbl) : Dbl.nan.sub a = Dbl.nan := by
  cases a <;> rfl

theorem Dbl.sub_self_fin (a : ℚ) : (Dbl.fin a).sub (Dbl.fin a) = Dbl.fin 0 := by
  simp [Dbl.sub, Dbl.add, Dbl.neg]

/-- A quotient by zero is an infinity or `NaN`. -/
theorem Dbl.div_zero_cases (d : Dbl) :
    d.div (Dbl.fin 0) = Dbl.pinf ∨ d.div (Dbl.fin 0) = Dbl.ninf ∨
      d.div (Dbl.fin 0) = Dbl.nan := by
  cases d with
  | fin q =>
    simp only [Dbl.div, if_true, Dbl.signedInf]
    split_ifs <;> simp
  | pinf => simp [Dbl.div]
  | ninf => simp [Dbl.div]
  | nan => simp [Dbl.div]

/-- With an infinite or undefined slope the antiderivative at a finite point is `NaN`. -/
theorem antiderivativeAt_infinite_slope (m y1 : Dbl) (a : ℚ)
    (hm : m = Dbl.pinf ∨ m = Dbl.ninf ∨ m = Dbl.nan) :
    antiderivativeAt m (y1.sub (m.mul (Dbl.fin a))) (Dbl.fin a) = Dbl.nan := by
  rcases lt_trichotomy a 0 with ha | ha | ha
  · have h1 : ¬ (0 < a) := not_lt.mpr ha.le
    rcases hm with rfl | rfl | rfl <;> cases y1 <;>
      simp [antiderivativeAt, Dbl.sub, Dbl.add, Dbl.neg, Dbl.div, Dbl.mul, Dbl.signedInf,
        ha, h1]
  · subst ha
    rcases hm with rfl | rfl | rfl <;> cases y1 <;>
      simp [antiderivativeAt, Dbl.sub, Dbl.add, Dbl.neg, Dbl.div, Dbl.mul, Dbl.signedInf]
  · have h1 : ¬ (a < 0) := not_lt.mpr ha.le
    rcases hm with rfl | rfl | rfl <;> cases y1 <;>
      simp [antiderivativeAt, Dbl.sub, Dbl.add, Dbl.neg, Dbl.div, Dbl.mul, Dbl.signedInf,
        ha, h1]

theorem squareAntiderivativeAt_infinite_slope (m y1 : Dbl) (a : ℚ)
    (hm : m = Dbl.pinf ∨ m = Dbl.ninf ∨ m = Dbl.nan) :
    squareAntiderivativeAt m (y1.sub (m.mul (Dbl.fin a))) (Dbl.fin a) = Dbl.nan := by
  rcases lt_trichotomy a 0 with ha | ha | ha
  · have h1 : ¬ (0 < a) := not_lt.mpr ha.le
    rcases hm with rfl | rfl | rfl <;> cases y1 <;>
      norm_num [squareAntiderivativeAt, Dbl.sub, Dbl.add, Dbl.neg, Dbl.div, Dbl.mul,
        Dbl.signedInf, ha, h1]
  · subst ha
    rcases hm with rfl | rfl | rfl <;> cases y1 <;>
      norm_num [squareAntiderivativeAt, Dbl.sub, Dbl.add, Dbl.neg, Dbl.div, Dbl.mul,
        Dbl.signedInf]
  · have h1 : ¬ (a < 0) := not_lt.mpr ha.le
    rcases hm with rfl | rfl | rfl <;> cases y1 <;>
      norm_num [squareAntiderivativeAt, Dbl.sub, Dbl.add, Dbl.neg, Dbl.div, Dbl.mul,
        Dbl.signedInf, ha, h1]

/-- A zero-width segment has area zero, whatever its operands. -/
theorem area_zero_width (x y1 y2 bound : Dbl) : area x y1 x y2 bound = Dbl.fin 0 := by
  cases x with
  | fin a =>
    have h := antiderivativeAt_infinite_slope _ y1 a (Dbl.div_zero_cases (y2.sub y1))
    simp only [area, Dbl.sub_self_fin, h, Dbl.sub_nan, Dbl.isnan, if_true]
  | pinf => cases y1 <;> cases y2 <;> cases bound <;> rfl
  | ninf => cases y1 <;> cases y2 <;> cases bound <;> rfl
  | nan => cases y1 <;> cases y2 <;> cases bound <;> rfl

/-- A zero-width segment has squared area zero, whatever its operands. -/
theorem areaSq_zero_width (x y1 y2 bound : Dbl) : areaSq x y1 x y2 bound = Dbl.fin 0 := by
  cases x with
  | fin a =>
    have h := squareAntiderivativeAt_infinite_slope _ y1 a (Dbl.div_zero_cases (y2.sub y1))
    simp only [areaSq, Dbl.sub_self_fin, h, Dbl.sub_nan, Dbl.isnan, if_true]
  | pinf => cases y1 <;> cases y2 <;> cases bound <;> rfl
  | ninf => cases y1 <;> cases y2 <;> cases bound <;> rfl
  | nan => cases y1 <;> cases y2 <;> cases bound <;> rfl

theorem round64_zero : round64 0 = Dbl.fin 0 := by simp [round64]

theorem Dbl.round_of_special {x : Dbl} (h : x.IsSpecial) : x.round = x := by
  rcases h with rfl | rfl | rfl <;> rfl

theorem Dbl.signedInf_special (s : ℚ) : (Dbl.signedInf s).IsSpecial := by
  unfold Dbl.signedInf Dbl.IsSpecial
  split_ifs <;> simp

theorem Dbl.mul_special_left {m : Dbl} (h : m.IsSpecial) (y : Dbl) : (m.mul y).IsSpecial := by
  rcases h with rfl | rfl | rfl <;> cases y <;>
    first
      | exact Dbl.signedInf_special _
      | simp [Dbl.mul, Dbl.IsSpecial]

theorem Dbl.mul_special_right {m : Dbl} (h : m.IsSpecial) (y : Dbl) : (y.mul m).IsSpecial := by
  rcases h with rfl | rfl | rfl <;> cases y <;>
    first
      | exact Dbl.signedInf_special _
      | simp [Dbl.mul, Dbl.IsSpecial]

theorem Dbl.div_special_left {m : Dbl} (h : m.IsSpecial) (y : Dbl) : (m.div y).IsSpecial := by
  rcases h with rfl | rfl | rfl <;> cases y <;> simp only [Dbl.div, Dbl.IsSpecial] <;>
    first
      | (split_ifs <;> simp)
      | simp

theorem Dbl.add_special_left {m : Dbl} (h : m.IsSpecial) (y : Dbl) : (m.add y).IsSpecial := by
  rcases h with rfl | rfl | rfl <;> cases y <;> simp [Dbl.add, Dbl.IsSpecial]

theorem Dbl.add_special_right {m : Dbl} (h : m.IsSpecial) (y : Dbl) : (y.add m).IsSpecial := by
  rcases h with rfl | rfl | rfl <;> cases y <;> simp [Dbl.add, Dbl.IsSpecial]

theorem Dbl.sub_special_right {m : Dbl} (h : m.IsSpecial) (y : Dbl) : (y.sub m).IsSpecial := by
  rcases h with rfl | rfl | rfl <;> cases y <;> simp [Dbl.sub, Dbl.neg, Dbl.add, Dbl.IsSpecial]

theorem Dbl.div_zero_special (d : Dbl) : (d.div (Dbl.fin 0)).IsSpecial :=
  Dbl.div_zero_cases d

/-- With an infinite or undefined slope and intercept the binary64 antiderivative is the
exact one: every intermediate result is an infinity or `NaN`, which rounding keeps. -/
theorem antiderivativeAt_binary64_special {m b : Dbl} (hm : m.IsSpecial) (hb : b.IsSpecial)
    (x : Dbl) : antiderivativeAtWith binary64 m b x = antiderivativeAt m b x := by
  have h1 := Dbl.mul_special_left hm x
  have h2 := Dbl.mul_special_left h1 x
  have h3 := Dbl.div_special_left h2 (Dbl.fin 2)
  have h4 := Dbl.mul_special_left hb x
  have h5 := Dbl.add_special_left h3 (b.mul x)
  simp only [antiderivativeAtWith, antiderivativeAt, binary64, Dbl.round_of_special h1,
    Dbl.round_of_special h2, Dbl.round_of_special h3, Dbl.round_of_special h4,
    Dbl.round_of_special h5]

theorem squareAntiderivativeAt_binary64_special {m b : Dbl} (hm : m.IsSpecial)
    (hb : b.IsSpecial) (x : Dbl) :
    squareAntiderivativeAtWith binary64 m b x = squareAntiderivativeAt m b x := by
  have hu := Dbl.mul_special_left hm m
  have hv0 := Dbl.mul_special_right hm (Dbl.fin 2)
  have hv := Dbl.mul_special_left hv0 b
  have ht := Dbl.mul_special_left hb b
  have hu1 := Dbl.mul_special_left hu x
  have hu2 := Dbl.mul_special_left hu1 x
  have hu3 := Dbl.mul_special_left hu2 x
  have hu4 := Dbl.div_special_left hu3 (Dbl.fin 3)
  have hv1 := Dbl.mul_special_left hv x
  have hv2 := Dbl.mul_special_left hv1 x
  have hv3 := Dbl.div_special_left hv2 (Dbl.fin 2)
  have ht1 := Dbl.mul_special_left ht x
  have hs1 := Dbl.add_special_left hu4 ((((Dbl.fin 2).mul m).mul b).mul x |>.mul x |>.div
    (Dbl.fin 2))
  have hs2 := Dbl.add_special_left hs1 ((b.mul b).mul x)
  simp only [squareAntiderivativeAtWith, squareAntiderivativeAt, binary64,
    Dbl.round_of_special hu, Dbl.round_of_special hv0, Dbl.round_of_special hv,
    Dbl.round_of_special ht, Dbl.round_of_special hu1, Dbl.round_of_special hu2,
    Dbl.round_of_special hu3, Dbl.round_of_special hu4, Dbl.round_of_special hv1,
    Dbl.round_of_special hv2, Dbl.round_of_special hv3, Dbl.round_of_special ht1,
    Dbl.round_of_special hs1, Dbl.round_of_special hs2]


theorem Dbl.special_nan : Dbl.nan.IsSpecial := Or.inr (Or.inr rfl)

theorem Dbl.div_nan (a : Dbl) : a.div Dbl.nan = Dbl.nan := by
  cases a <;> rfl

theorem Dbl.nan_mul (a : Dbl) : Dbl.nan.mul a = Dbl.nan := by
  cases a <;> rfl

theorem antiderivativeAt_nan (x : Dbl) : antiderivativeAt Dbl.nan Dbl.nan x = Dbl.nan := by
  cases x <;> rfl

theorem squareAntiderivativeAt_nan (x : Dbl) :
    squareAntiderivativeAt Dbl.nan Dbl.nan x = Dbl.nan := by
  cases x <;> rfl

theorem binary64_sub_nan (u : Dbl) : binary64.sub u Dbl.nan = Dbl.nan := by
  simp only [binary64, Dbl.sub_nan, Dbl.round]

/-- With a slope that is not a number, the binary64 slope-intercept pair of `area` is
`NaN`, `NaN`. -/
theorem binary64_intercept_nan (d y1 x : Dbl) :
    binary64.div d Dbl.nan = Dbl.nan ∧
      binary64.sub y1 (binary64.mul Dbl.nan x) = Dbl.nan := by
  constructor
  · simp only [binary64, Dbl.div_nan, Dbl.round]
  · simp only [binary64, Dbl.nan_mul, Dbl.round, Dbl.sub_nan]

/-- A zero-width segment has area zero in binary64 too, whatever its operands. -/
theorem areaWith_binary64_zero_width (x y1 y2 bound : Dbl) :
    areaWith binary64 x y1 x y2 bound = Dbl.fin 0 := by
  have hspecial : binary64.sub x x = Dbl.nan → areaWith binary64 x y1 x y2 bound = Dbl.fin 0 := by
    intro e1
    simp only [areaWith, e1, (binary64_intercept_nan _ y1 x).1,
      (binary64_intercept_nan (Dbl.fin 0) y1 x).2,
      antiderivativeAt_binary64_special Dbl.special_nan Dbl.special_nan, antiderivativeAt_nan,
      binary64_sub_nan, Dbl.isnan, if_true]
  cases x with
  | fin a =>
    have hm := Dbl.div_zero_special ((y2.sub y1).round)
    have hb := Dbl.sub_special_right (Dbl.mul_special_left hm (Dbl.fin a)) y1
    have h := antiderivativeAt_infinite_slope _ y1 a hm
    have e1 : binary64.sub (Dbl.fin a) (Dbl.fin a) = Dbl.fin 0 := by
      simp only [binary64, Dbl.sub_self_fin, Dbl.round, round64_zero]
    have e2 : binary64.div (binary64.sub y2 y1) (Dbl.fin 0)
        = ((y2.sub y1).round).div (Dbl.fin 0) := by
      simp only [binary64, Dbl.round_of_special hm]
    have e3 : binary64.sub y1 (binary64.mul (((y2.sub y1).round).div (Dbl.fin 0)) (Dbl.fin a))
        = y1.sub ((((y2.sub y1).round).div (Dbl.fin 0)).mul (Dbl.fin a)) := by
      simp only [binary64, Dbl.round_of_special (Dbl.mul_special_left hm (Dbl.fin a)),
        Dbl.round_of_special hb]
    simp only [areaWith, e1, e2, e3, antiderivativeAt_binary64_special hm hb, h,
      binary64_sub_nan, Dbl.isnan, if_true]
  | pinf => exact hspecial rfl
  | ninf => exact hspecial rfl
  | nan => exact hspecial rfl

/-- A zero-width segment has squared area zero in binary64 too, whatever its operands. -/
theorem areaSqWith_binary64_zero_width (x y1 y2 bound : Dbl) :
    areaSqWith binary64 x y1 x y2 bound = Dbl.fin 0 := by
  have hspecial :
      binary64.sub x x = Dbl.nan → areaSqWith binary64 x y1 x y2 bound = Dbl.fin 0 := by
    intro e1
    simp only [areaSqWith, e1, (binary64_intercept_nan _ y1 x).1,
      (binary64_intercept_nan (Dbl.fin 0) y1 x).2,
      squareAntiderivativeAt_binary64_special Dbl.special_nan Dbl.special_nan,
      squareAntiderivativeAt_nan, binary64_sub_nan, Dbl.isnan, if_true]
  cases x with
  | fin a =>
    have hm := Dbl.div_zero_special ((y2.sub y1).round)
    have hb := Dbl.sub_special_right (Dbl.mul_special_left hm (Dbl.fin a)) y1
    have h := squareAntiderivativeAt_infinite_slope _ y1 a hm
    have e1 : binary64.sub (Dbl.fin a) (Dbl.fin a) = Dbl.fin 0 := by
      simp only [binary64, Dbl.sub_self_fin, Dbl.round, round64_zero]
    have e2 : binary64.div (binary64.sub y2 y1) (Dbl.fin 0)
        = ((y2.sub y1).round).div (Dbl.fin 0) := by
      simp only [binary64, Dbl.round_of_special hm]
    have e3 : binary64.sub y1 (binary64.mul (((y2.sub y1).round).div (Dbl.fin 0)) (Dbl.fin a))
        = y1.sub ((((y2.sub y1).round).div (Dbl.fin 0)).mul (Dbl.fin a)) := by
      simp only [binary64, Dbl.round_of_special (Dbl.mul_special_left hm (Dbl.fin a)),
        Dbl.round_of_special hb]
    simp only [areaSqWith, e1, e2, e3, squareAntiderivativeAt_binary64_special hm hb, h,
      binary64_sub_nan, Dbl.isnan, if_true]
  | pinf => exact hspecial rfl
  | ninf => exact hspecial rfl
  | nan => exact hspecial rfl

/-! ## Lemmas on leading decoy entries and on the flattened list -/

theorem loopPush_append {σ α β : Type} (step : σ → α → σ × β) (a b : List α) (s : σ) :
    loopPush step s (a ++ b) =
      ((loopPush step (loopPush step s a).1 b).1,
        (loopPush step s a).2 ++ (loopPush step (loopPush step s a).1 b).2) := by
  induction a generalizing s with
  | nil => simp [loopPush]
  | cons x xs ih => simp [loopPush, ih]

theorem loopPushMany_append {σ α β : Type} (step : σ → α → σ × List β) (a b : List α)
    (s : σ) :
    loopPushMany step s (a ++ b) =
      ((loopPushMany step (loopPushMany step s a).1 b).1,
        (loopPushMany step s a).2 ++ (loopPushMany step (loopPushMany step s a).1 b).2) := by
  induction a generalizing s with
  | nil => simp [loopPushMany]
  | cons x xs ih => simp [loopPushMany, ih]

theorem loopPushMany_length {σ α β : Type} (step : σ → α → σ × List β) (f : α → Nat)
    (h : ∀ s a, (step s a).2.length = f a) (l : List α) (s : σ) :
    (loopPushMany step s l).2.length = (l.map f).sum := by
  induction l generalizing s with
  | nil => simp [loopPushMany]
  | cons x xs ih => simp [loopPushMany, ih, h]

/-- A loop whose every pushed value is `c` pushes a constant sequence. -/
theorem loopPush_const {σ α β : Type} (step : σ → α → σ × β) (I : σ → Prop) (Q : α → Prop)
    (c : β) (h : ∀ s a, I s → Q a → I (step s a).1 ∧ (step s a).2 = c)
    (l : List α) (s : σ) (hs : I s) (hl : ∀ a ∈ l, Q a) :
    I (loopPush step s l).1 ∧ (loopPush step s l).2 = List.replicate l.length c := by
  have := loopPush_inv step I Q (fun b => b = c) h l s hs hl
  refine ⟨this.1, ?_⟩
  rw [List.eq_replicate_iff]
  exact ⟨loopPush_length step l s, this.2⟩

theorem loopPushMany_const {σ α β : Type} (step : σ → α → σ × List β) (I : σ → Prop)
    (Q : α → Prop) (f : α → Nat) (c : β)
    (h : ∀ s a, I s → Q a → I (step s a).1 ∧ (step s a).2 = List.replicate (f a) c)
    (l : List α) (s : σ) (hs : I s) (hl : ∀ a ∈ l, Q a) :
    I (loopPushMany step s l).1 ∧
      (loopPushMany step s l).2 = List.replicate (l.map f).sum c := by
  induction l generalizing s with
  | nil => simp [loopPushMany, hs]
  | cons x xs ih =>
    have h1 := h s x hs (hl x (List.mem_cons_self _ _))
    have h2 := ih (step s x).1 h1.1 (fun a ha => hl a (List.mem_cons_of_mem _ ha))
    refine ⟨h2.1, ?_⟩
    simp only [loopPushMany, h1.2, h2.2, List.map_cons, List.sum_cons, List.replicate_add]

theorem countTargets_eq_zero (pat : String) (names : List String)
    (h : countTargets pat names = 0) : ∀ n ∈ names, countTargetsName pat n = 0 := by
  induction names with
  | nil => simp
  | cons x xs ih =>
    simp only [countTargets, Nat.add_eq_zero] at h
    intro n hn
    rcases List.mem_cons.mp hn with rfl | hn
    · simpa [countTargetsName] using h.1
    · exact ih h.2 n hn

theorem countDecoysName_of_not_target (pat name : String)
    (h : countTargetsName pat name = 0) : countDecoysName pat name ≠ 0 := by
  unfold countTargetsName at h
  unfold countDecoysName
  split_ifs at h ⊢ <;> simp_all

/-- Without a target so far the quotient `sum / (double)nP` is `0/0` or `NaN/0`, and the
guard replaces it by `1.0`. -/
theorem clampQ_zero_targets (sum : Dbl) (h : sum = Dbl.fin 0 ∨ sum = Dbl.nan) :
    clampQ (sum.div (Dbl.ofNat 0)) = Dbl.fin 1 := by
  rcases h with rfl | rfl <;>
    simp [clampQ, Dbl.div, Dbl.ofNat, Dbl.signedInf, Dbl.isnan]

theorem Dbl.mul_zero_cases (p : Dbl) :
    p.mul (Dbl.ofNat 0) = Dbl.fin 0 ∨ p.mul (Dbl.ofNat 0) = Dbl.nan := by
  cases p <;> simp [Dbl.mul, Dbl.ofNat, Dbl.signedInf]

theorem Dbl.add_zero_cases (s x : Dbl) (hs : s = Dbl.fin 0 ∨ s = Dbl.nan)
    (hx : x = Dbl.fin 0 ∨ x = Dbl.nan) : s.add x = Dbl.fin 0 ∨ s.add x = Dbl.nan := by
  rcases hs with rfl | rfl <;> rcases hx with rfl | rfl <;> simp [Dbl.add]

/-- While only decoys are walked, the ties branch of `estimateQValues` keeps `nP = 0`,
divides by `(double)0` and pushes `1.0`. -/
theorem qStepTies_leading_decoys (pat : String) (s : QAcc) (e : Dbl × List String)
    (hs : s.nP = 0 ∧ (s.sum = Dbl.fin 0 ∨ s.sum = Dbl.nan))
    (he : countTargets pat e.2 = 0) :
    ((qStepTies pat s e).1.nP = 0 ∧
      ((qStepTies pat s e).1.sum = Dbl.fin 0 ∨ (qStepTies pat s e).1.sum = Dbl.nan)) ∧
    (qStepTies pat s e).2 = Dbl.fin 1 ∧
    (qDivisionTies pat s e).1 = (qStepTies pat s e).1 ∧
    (qDivisionTies pat s e).2.2 = Dbl.ofNat 0 := by
  have hsum := Dbl.add_zero_cases _ _ hs.2 (Dbl.mul_zero_cases e.1)
  simp only [qDivisionTies, qStepTies, he, hs.1, Nat.add_zero, and_true, true_and]
  exact ⟨hsum, clampQ_zero_targets _ hsum⟩

theorem qStepName_leading_decoys (pat : String) (prob : Dbl) (s : QAcc) (name : String)
    (hs : s.nP = 0 ∧ (s.sum = Dbl.fin 0 ∨ s.sum = Dbl.nan))
    (he : countTargetsName pat name = 0) :
    ((qStepName pat prob s name).1.nP = 0 ∧
      ((qStepName pat prob s name).1.sum = Dbl.fin 0 ∨
        (qStepName pat prob s name).1.sum = Dbl.nan)) ∧
    (qStepName pat prob s name).2 = Dbl.fin 1 ∧
    (qDivisionName pat prob s name).1 = (qStepName pat prob s name).1 ∧
    (qDivisionName pat prob s name).2.2 = Dbl.ofNat 0 := by
  simp only [qDivisionName, qStepName, he, ne_eq, not_true_eq_false, if_false, hs.1,
    and_true, true_and]
  exact ⟨hs.2, clampQ_zero_targets _ hs.2⟩

theorem clampQ_zero : clampQ (Dbl.fin 0) = Dbl.fin 0 := by
  simp [clampQ, Dbl.isnan, Dbl.isinf, Dbl.gt, Dbl.lt]

/-- While only decoys are walked, the ties branch of `estimateQValuesEmp` keeps
`nTargets = 0`, skips the division and pushes the unchanged `qvalue = 0.0`. -/
theorem empStepTies_leading_decoys (E : Estimator) (s : EmpAcc) (e : Dbl × List String)
    (hs : s.nTargets = 0 ∧ s.qvalue = Dbl.fin 0)
    (he : countTargets E.decoyPattern e.2 = 0) :
    ((empStepTies E s e).1.nTargets = 0 ∧ (empStepTies E s e).1.qvalue = Dbl.fin 0) ∧
    empDivisionAt E (empStepTies E s e).1 = none ∧
    (empStepTies E s e).2.1 = Dbl.fin 0 := by
  simp [empStepTies, empDivisionAt, empQ, he, hs.1, hs.2, clampQ_zero]

theorem empStepName_leading_decoys (E : Estimator) (s : EmpAcc) (name : String)
    (hs : s.nTargets = 0 ∧ s.qvalue = Dbl.fin 0)
    (he : countTargetsName E.decoyPattern name = 0) :
    ((empStepName E s name).1.nTargets = 0 ∧ (empStepName E s name).1.qvalue = Dbl.fin 0) ∧
    empDivisionAt E (empStepName E s name).1 = none ∧
    (empStepName E s name).2.1 = Dbl.fin 0 := by
  have := countDecoysName_of_not_target _ _ he
  simp [empStepName, empDivisionAt, empQ, this, hs.1, hs.2, clampQ_zero]

/-- A loop whose pushed values all have the image `c` under `g`. -/
theorem loopPush_map_const {σ α β γ : Type} (step : σ → α → σ × β) (g : β → γ)
    (I : σ → Prop) (Q : α → Prop) (c : γ)
    (h : ∀ s a, I s → Q a → I (step s a).1 ∧ g (step s a).2 = c)
    (l : List α) (s : σ) (hs : I s) (hl : ∀ a ∈ l, Q a) :
    I (loopPush step s l).1 ∧
      (loopPush step s l).2.map g = List.replicate l.length c := by
  induction l generalizing s with
  | nil => simp [loopPush, hs]
  | cons x xs ih =>
    have h1 := h s x hs (hl x (List.mem_cons_self _ _))
    have h2 := ih (step s x).1 h1.1 (fun a ha => hl a (List.mem_cons_of_mem _ ha))
    refine ⟨h2.1, ?_⟩
    simp only [loopPush, List.map_cons, h1.2, h2.2, List.length_cons, List.replicate_succ]

theorem loopPushMany_map_const {σ α β γ : Type} (step : σ → α → σ × List β) (g : β → γ)
    (I : σ → Prop) (Q : α → Prop) (f : α → Nat) (c : γ)
    (h : ∀ s a, I s → Q a →
      I (step s a).1 ∧ (step s a).2.map g = List.replicate (f a) c)
    (l : List α) (s : σ) (hs : I s) (hl : ∀ a ∈ l, Q a) :
    I (loopPushMany step s l).1 ∧
      (loopPushMany step s l).2.map g = List.replicate (l.map f).sum c := by
  induction l generalizing s with
  | nil => simp [loopPushMany, hs]
  | cons x xs ih =>
    have h1 := h s x hs (hl x (List.mem_cons_self _ _))
    have h2 := ih (step s x).1 h1.1 (fun a ha => hl a (List.mem_cons_of_mem _ ha))
    refine ⟨h2.1, ?_⟩
    simp only [loopPushMany, List.map_append, h1.2, h2.2, List.map_cons, List.sum_cons,
      List.replicate_add]

theorem take_map_append_replicate {β γ : Type} (g : β → γ) (a b : List β) (n : Nat) (c : γ)
    (h : a.map g = List.replicate n c) :
    ((a ++ b).take n).map g = List.replicate n c := by
  have hlen : a.length = n := by
    have := congrArg List.length h
    simpa using this
  rw [List.take_left' hlen, h]

/-- Every push of the forward pass of `estimateQValues` is the guarded quotient of the
operands recorded for it. -/
theorem rawQValues_eq_divisions (E : Estimator) :
    rawQValues E = (qDivisions E).map (fun d => clampQ (d.1.div d.2)) := by
  have hT : ∀ (l : List (Dbl × List String)) (s : QAcc),
      (loopPush (qStepTies E.decoyPattern) s l).2 =
        (loopPush (qDivisionTies E.decoyPattern) s l).2.map
          (fun d => clampQ (d.1.div d.2)) := by
    intro l
    induction l with
    | nil => intro s; simp [loopPush]
    | cons x xs ih =>
      intro s
      simp only [loopPush, List.map_cons, List.cons.injEq]
      exact ⟨rfl, ih _⟩
  have hN : ∀ (prob : Dbl) (l : List String) (s : QAcc),
      loopPush (qStepName E.decoyPattern prob) s l =
        ((loopPush (qDivisionName E.decoyPattern prob) s l).1,
          (loopPush (qDivisionName E.decoyPattern prob) s l).2.map
            (fun d => clampQ (d.1.div d.2))) := by
    intro prob l
    induction l with
    | nil => intro s; simp [loopPush]
    | cons x xs ih =>
      intro s
      have := ih (qStepName E.decoyPattern prob s x).1
      simp only [loopPush, List.map_cons]
      rw [this]
      rfl
  have hM : ∀ (l : List (Dbl × List String)) (s : QAcc),
      (loopPushMany (qStepGroup E.decoyPattern) s l).2 =
        (loopPushMany (fun s e => loopPush (qDivisionName E.decoyPattern e.1) s e.2)
          s l).2.map (fun d => clampQ (d.1.div d.2)) := by
    intro l
    induction l with
    | nil => intro s; simp [loopPushMany]
    | cons x xs ih =>
      intro s
      simp only [loopPushMany, List.map_append, qStepGroup]
      rw [hN x.1 x.2 s]
      simp only
      have := ih (loopPush (qDivisionName E.decoyPattern x.1) s x.2).1
      simp only [qStepGroup] at this
      rw [this]
  unfold rawQValues qDivisions
  split
  · exact hT _ _
  · exact hM _ _

/-- A loop over the names of every group is the loop over the flattened list, when the
body for a single-name entry is the body for that name. -/
theorem loopPushMany_eq_loopPush_flatten {σ β : Type}
    (stepT : σ → Dbl × List String → σ × β) (stepN : Dbl → σ → String → σ × β)
    (l : List (Dbl × List String))
    (h : ∀ e ∈ l, ∀ (s : σ) (n : String), stepT s (e.1, [n]) = stepN e.1 s n) (s : σ) :
    loopPushMany (fun s e => loopPush (stepN e.1) s e.2) s l =
      loopPush stepT s (flattenRanked l) := by
  have hin : ∀ (p : Dbl) (names : List String) (s : σ),
      (∀ (s : σ) (n : String), stepT s (p, [n]) = stepN p s n) →
      loopPush stepT s (names.map (fun name => (p, [name]))) = loopPush (stepN p) s names := by
    intro p names
    induction names with
    | nil => intro s _; simp [loopPush]
    | cons x xs ih =>
      intro s hp
      simp only [List.map_cons, loopPush, hp, ih _ hp]
  induction l generalizing s with
  | nil => simp [loopPushMany, loopPush, flattenRanked]
  | cons e es ih =>
    have he := h e (List.mem_cons_self _ _)
    have ih' := ih (fun e' he' => h e' (List.mem_cons_of_mem _ he'))
    have hfl : flattenRanked (e :: es) =
        e.2.map (fun name => (e.1, [name])) ++ flattenRanked es := by
      simp [flattenRanked]
    rw [hfl, loopPush_append, hin e.1 e.2 s he]
    simp only [loopPushMany, ih']

theorem Dbl.add_fin_zero (s : Dbl) : s.add (Dbl.fin 0) = s := by
  cases s <;> simp [Dbl.add]

theorem qStepTies_single (pat : String) (s : QAcc) (p : ℚ) (n : String) :
    qStepTies pat s (Dbl.fin p, [n]) = qStepName pat (Dbl.fin p) s n := by
  by_cases h : find n pat = none
  · simp [qStepTies, qStepName, countTargets, countTargetsName, h, Dbl.ofNat, Dbl.mul]
  · simp [qStepTies, qStepName, countTargets, countTargetsName, h, Dbl.ofNat, Dbl.mul,
      Dbl.add_fin_zero]

theorem empStepTies_single (E E1 : Estimator) (hpat : E1.decoyPattern = E.decoyPattern)
    (hpi : E1.pi0 = E.pi0) (hT : E1.numberTargetProteins = E.numberTargetProteins)
    (hD : E1.numberDecoyProteins = E.numberDecoyProteins) (s : EmpAcc) (p : Dbl)
    (n : String) :
    empStepTies E1 s (p, [n]) = empStepName E s n := by
  by_cases h : find n E.decoyPattern = none
  · simp [empStepTies, empStepName, empQ, countTargets, countDecoys, countDecoysName, h,
      hpat, hpi, hT, hD]
  · simp [empStepTies, empStepName, empQ, countTargets, countDecoys, countDecoysName, h,
      hpat, hpi, hT, hD]

/-! ## Lemmas on getROC -/

/-- The loop of `getROC` entered with the counts `s`: it walks `w` groups, those up to and
including the first whose cumulative decoy count exceeds `rocN` (all when none does),
pushes the cumulative counts of each, and is left with the counts of the last. -/
theorem rocLoop_points (E : Estimator) (names : List (List String)) :
    ∀ s : RocAcc, ∃ w : Nat, w ≤ names.length ∧
      (∀ j, 0 < j → j < w → s.fpCount + decoysOfFirst E.decoyPattern names j ≤ E.rocN) ∧
      (w = names.length ∨
        (0 < w ∧ E.rocN < s.fpCount + decoysOfFirst E.decoyPattern names w)) ∧
      (loopPushBreak (rocStep E) s names).2.1 =
        (List.range w).map (fun k =>
          (s.fpCount + decoysOfFirst E.decoyPattern names (k + 1),
           s.tpCount + targetsOfFirst E.decoyPattern names (k + 1))) ∧
      (loopPushBreak (rocStep E) s names).1 =
        ⟨s.fpCount + decoysOfFirst E.decoyPattern names w,
         s.tpCount + targetsOfFirst E.decoyPattern names w⟩ := by
  induction names with
  | nil =>
    intro s
    exact ⟨0, le_refl _, fun j h1 h2 => absurd h2 (by omega), Or.inl rfl,
      by simp [loopPushBreak], by simp [loopPushBreak, decoysOfFirst, targetsOfFirst]⟩
  | cons g rest ih =>
    intro s
    by_cases hb : s.fpCount + countDecoys E.decoyPattern g > E.rocN
    · refine ⟨1, by simp, fun j h1 h2 => absurd h2 (by omega), Or.inr ⟨by omega, ?_⟩, ?_, ?_⟩
      · simpa [decoysOfFirst] using hb
      · simp [loopPushBreak, rocStep, hb, decoysOfFirst, targetsOfFirst, List.range_succ]
      · simp [loopPushBreak, rocStep, hb, decoysOfFirst, targetsOfFirst]
    · obtain ⟨w, hw, hbefore, hexit, hout, hfin⟩ :=
        ih ⟨s.fpCount + countDecoys E.decoyPattern g, s.tpCount + countTargets E.decoyPattern g⟩
      have hD : ∀ k, decoysOfFirst E.decoyPattern (g :: rest) (k + 1) =
          countDecoys E.decoyPattern g + decoysOfFirst E.decoyPattern rest k := by
        intro k; simp [decoysOfFirst]
      have hT : ∀ k, targetsOfFirst E.decoyPattern (g :: rest) (k + 1) =
          countTargets E.decoyPattern g + targetsOfFirst E.decoyPattern rest k := by
        intro k; simp [targetsOfFirst]
      refine ⟨w + 1, by simpa using hw, ?_, ?_, ?_, ?_⟩
      · intro j h1 h2
        obtain ⟨i, rfl⟩ : ∃ i, j = i + 1 := ⟨j - 1, by omega⟩
        rw [hD]
        by_cases hi : i = 0
        · subst hi
          simp only [decoysOfFirst, List.take_zero, List.map_nil, List.sum_nil, Nat.add_zero]
          omega
        · have := hbefore i (by omega) (by omega)
          simp only at this
          omega
      · rcases hexit with h | ⟨h1, h2⟩
        · exact Or.inl (by simp [h])
        · refine Or.inr ⟨by omega, ?_⟩
          rw [hD]
          simp only at h2
          omega
      · simp only [loopPushBreak, rocStep, hb, decide_False, Bool.false_eq_true, if_false]
        simp only [rocStep] at hout
        rw [hout, List.range_succ_eq_map, List.map_cons, List.map_map]
        simp only [hD, hT, Nat.add_assoc, List.cons.injEq, Function.comp]
        refine ⟨by simp [decoysOfFirst, targetsOfFirst], ?_⟩
        apply List.map_congr_left
        intro k _
        simp [hD, hT, Nat.add_assoc]
      · simp only [loopPushBreak, rocStep, hb, decide_False, Bool.false_eq_true, if_false]
        simp only [rocStep] at hfin
        rw [hfin]
        simp [hD, hT, Nat.add_assoc]

/-! ## Lemmas on the update of rocN -/

/-- A breaking loop whose step never lowers a counter, and raises it to at least `c`
whenever it pushes a value with the property `R`. -/
theorem loopPushBreak_key {σ α β : Type} (step : σ → α → σ × β × Bool) (key : σ → Nat)
    (R : β → Prop) (c : Nat)
    (h : ∀ s a, key s ≤ key (step s a).1 ∧ (R (step s a).2.1 → c ≤ key (step s a).1)) :
    ∀ (l : List α) (s : σ), key s ≤ key (loopPushBreak step s l).1 ∧
      ∀ b ∈ (loopPushBreak step s l).2.1, R b → c ≤ key (loopPushBreak step s l).1 := by
  intro l
  induction l with
  | nil => intro s; simp [loopPushBreak]
  | cons a as ih =>
    intro s
    obtain ⟨h1, h2⟩ := h s a
    by_cases hb : (step s a).2.2 = true
    · simp only [loopPushBreak, hb, if_true, List.mem_singleton, forall_eq]
      exact ⟨h1, h2⟩
    · have hb' : (step s a).2.2 = false := by simpa using hb
      obtain ⟨i1, i2⟩ := ih (step s a).1
      simp only [loopPushBreak, hb', Bool.false_eq_true, if_false, List.mem_cons]
      refine ⟨h1.trans i1, ?_⟩
      intro b hbm hR
      rcases hbm with rfl | hbm
      · exact (h2 hR).trans i1
      · exact i2 b hbm hR

theorem loopPushMany_key {σ α β : Type} (step : σ → α → σ × List β) (key : σ → Nat)
    (R : β → Prop) (c : Nat)
    (h : ∀ s a, key s ≤ key (step s a).1 ∧
      ∀ b ∈ (step s a).2, R b → c ≤ key (step s a).1) :
    ∀ (l : List α) (s : σ), key s ≤ key (loopPushMany step s l).1 ∧
      ∀ b ∈ (loopPushMany step s l).2, R b → c ≤ key (loopPushMany step s l).1 := by
  intro l
  induction l with
  | nil => intro s; simp [loopPushMany]
  | cons a as ih =>
    intro s
    obtain ⟨h1, h2⟩ := h s a
    obtain ⟨i1, i2⟩ := ih (step s a).1
    simp only [loopPushMany, List.mem_append]
    refine ⟨h1.trans i1, ?_⟩
    intro b hbm hR
    rcases hbm with hbm | hbm
    · exact (h2 b hbm hR).trans i1
    · exact i2 b hbm hR

/-- A property of the state kept by every step is kept by a breaking loop. -/
theorem loopPushBreak_state {σ α β : Type} (step : σ → α → σ × β × Bool) (I : σ → Prop)
    (h : ∀ s a, I s → I (step s a).1) :
    ∀ (l : List α) (s : σ), I s → I (loopPushBreak step s l).1 := by
  intro l
  induction l with
  | nil => intro s hs; simpa [loopPushBreak] using hs
  | cons a as ih =>
    intro s hs
    by_cases hb : (step s a).2.2 = true
    · simp only [loopPushBreak, hb, if_true]
      exact h s a hs
    · have hb' : (step s a).2.2 = false := by simpa using hb
      simp only [loopPushBreak, hb', Bool.false_eq_true, if_false]
      exact ih _ (h s a hs)

theorem loopPushMany_state {σ α β : Type} (step : σ → α → σ × List β) (I : σ → Prop)
    (h : ∀ s a, I s → I (step s a).1) :
    ∀ (l : List α) (s : σ), I s → I (loopPushMany step s l).1 := by
  intro l
  induction l with
  | nil => intro s hs; simpa [loopPushMany] using hs
  | cons a as ih =>
    intro s hs
    simp only [loopPushMany]
    exact ih _ (h s a hs)

theorem toUnsigned_clamp (i : Int) :
    toUnsigned (Max.max 50 (Min.min i 1000)) =
      if i < 50 then 50 else if 1000 < i then 1000 else i.toNat := by
  unfold toUnsigned
  split_ifs with h1 h2
  · have : Max.max (50 : Int) (Min.min i 1000) = 50 := by
      rw [max_eq_left]; exact (min_le_left _ _).trans h1.le
    rw [this]; rfl
  · have : Max.max (50 : Int) (Min.min i 1000) = 1000 := by
      rw [min_eq_right h2.le]; rfl
    rw [this]; rfl
  · have h3 : Max.max (50 : Int) (Min.min i 1000) = i := by
      rw [min_eq_left (not_lt.mp h2), max_eq_right (not_lt.mp h1)]
    rw [h3, Int.emod_eq_of_lt (by omega) (by omega)]

/-- The update of `rocN` at one visited point. -/
theorem fdrFinish_rocN (E : Estimator) (s : FdrAcc) :
    (fdrFinish E s).1.rocN =
      if Dbl.le (fdrFinish E s).2.1.1 E.thresholdRoc = true ∧ E.updateRocN = true then
        Max.max s.rocN (clampCount s.fpCount)
      else s.rocN := by
  simp only [fdrFinish, toUnsigned_clamp, clampCount, Bool.and_eq_true]

theorem clampCount_bounds (x : Dbl) : 50 ≤ clampCount x ∧ clampCount x ≤ 1000 := by
  unfold clampCount
  split_ifs <;> omega

/-- What one visited point does to `rocN`: it never lowers it, leaves it alone when the
automatic update is off, raises it to at least 50 when the pushed estimated FDR is at or
below the secondary threshold, and never puts it above `max(rocN, 1000)`. -/
theorem fdrFinish_rocN_facts (E : Estimator) (s : FdrAcc) :
    s.rocN ≤ (fdrFinish E s).1.rocN ∧
    ((E.updateRocN = true ∧ Dbl.le (fdrFinish E s).2.1.1 E.thresholdRoc = true) →
      50 ≤ (fdrFinish E s).1.rocN) ∧
    (E.updateRocN = false → (fdrFinish E s).1.rocN = s.rocN) ∧
    (fdrFinish E s).1.rocN ≤ Max.max s.rocN 1000 := by
  have hb := clampCount_bounds s.fpCount
  rw [fdrFinish_rocN]
  refine ⟨?_, ?_, ?_, ?_⟩
  · split_ifs
    · exact le_max_left _ _
    · exact le_refl _
  · intro h
    rw [if_pos ⟨h.2, h.1⟩]
    exact hb.1.trans (le_max_right _ _)
  · intro h
    simp [h]
  · split_ifs
    · exact max_le_max (le_refl _) hb.2
    · exact le_max_left _ _

theorem fdrFinish_rocN_facts_of (E : Estimator) (s s1 : FdrAcc) (h : s1.rocN = s.rocN) :
    s.rocN ≤ (fdrFinish E s1).1.rocN ∧
    ((E.updateRocN = true ∧ Dbl.le (fdrFinish E s1).2.1.1 E.thresholdRoc = true) →
      50 ≤ (fdrFinish E s1).1.rocN) ∧
    (E.updateRocN = false → (fdrFinish E s1).1.rocN = s.rocN) ∧
    (fdrFinish E s1).1.rocN ≤ Max.max s.rocN 1000 := by
  rw [← h]
  exact fdrFinish_rocN_facts E s1

theorem fdrStepTies_rocN_facts (E : Estimator) (s : FdrAcc) (e : Dbl × List String) :
    s.rocN ≤ (fdrStepTies E s e).1.rocN ∧
    ((E.updateRocN = true ∧ Dbl.le (fdrStepTies E s e).2.1.1 E.thresholdRoc = true) →
      50 ≤ (fdrStepTies E s e).1.rocN) ∧
    (E.updateRocN = false → (fdrStepTies E s e).1.rocN = s.rocN) ∧
    (fdrStepTies E s e).1.rocN ≤ Max.max s.rocN 1000 := by
  simp only [fdrStepTies]
  exact fdrFinish_rocN_facts_of E s _ rfl

theorem fdrStepName_rocN_facts (E : Estimator) (prob : Dbl) (s : FdrAcc) (n : String) :
    s.rocN ≤ (fdrStepName E prob s n).1.rocN ∧
    ((E.updateRocN = true ∧ Dbl.le (fdrStepName E prob s n).2.1.1 E.thresholdRoc = true) →
      50 ≤ (fdrStepName E prob s n).1.rocN) ∧
    (E.updateRocN = false → (fdrStepName E prob s n).1.rocN = s.rocN) ∧
    (fdrStepName E prob s n).1.rocN ≤ Max.max s.rocN 1000 := by
  simp only [fdrStepName]
  split
  · exact fdrFinish_rocN_facts_of E s _ rfl
  · exact fdrFinish_rocN_facts_of E s _ rfl

/-- What the whole walk does to `rocN`, in either tie mode. -/
theorem fdrWalk_rocN (E : Estimator) (l : List (Dbl × List String)) :
    E.rocN ≤ (fdrWalk E l).1.rocN ∧
    (∀ b ∈ (fdrWalk E l).2, (E.updateRocN = true ∧ Dbl.le b.1 E.thresholdRoc = true) →
      50 ≤ (fdrWalk E l).1.rocN) ∧
    (E.updateRocN = false → (fdrWalk E l).1.rocN = E.rocN) ∧
    (fdrWalk E l).1.rocN ≤ Max.max E.rocN 1000 := by
  unfold fdrWalk
  cases E.tiesAsOneProtein with
  | true =>
    simp only [if_true]
    have h1 := loopPushBreak_key (fdrStepTies E) (fun s => s.rocN)
      (fun b => E.updateRocN = true ∧ Dbl.le b.1 E.thresholdRoc = true) 50
      (fun s a => ⟨(fdrStepTies_rocN_facts E s a).1, (fdrStepTies_rocN_facts E s a).2.1⟩) l
      (⟨Dbl.fin 0, Dbl.fin 0, Dbl.fin 0, Dbl.fin 0, Dbl.fin 0, Dbl.fin 0, Dbl.fin 0, E.rocN⟩ : FdrAcc)
    refine ⟨h1.1, h1.2, ?_, ?_⟩
    · intro hoff
      exact loopPushBreak_state (fdrStepTies E) (fun s => s.rocN = E.rocN)
        (fun s a hs => ((fdrStepTies_rocN_facts E s a).2.2.1 hoff).trans hs) l _ rfl
    · exact loopPushBreak_state (fdrStepTies E) (fun s => s.rocN ≤ Max.max E.rocN 1000)
        (fun s a hs => (fdrStepTies_rocN_facts E s a).2.2.2.trans
          (max_le hs (le_max_right _ _))) l _ (le_max_left _ _)
  | false =>
    simp only [Bool.false_eq_true, if_false]
    have h1 := loopPushMany_key (fdrStepGroup E) (fun s => s.rocN)
      (fun b => E.updateRocN = true ∧ Dbl.le b.1 E.thresholdRoc = true) 50
      (fun s a => loopPushBreak_key (fdrStepName E a.1) (fun s => s.rocN)
        (fun b => E.updateRocN = true ∧ Dbl.le b.1 E.thresholdRoc = true) 50
        (fun s n => ⟨(fdrStepName_rocN_facts E a.1 s n).1,
          (fdrStepName_rocN_facts E a.1 s n).2.1⟩) a.2 s) l
      (⟨Dbl.fin 0, Dbl.fin 0, Dbl.fin 0, Dbl.fin 0, Dbl.fin 0, Dbl.fin 0, Dbl.fin 0, E.rocN⟩ : FdrAcc)
    refine ⟨h1.1, h1.2, ?_, ?_⟩
    · intro hoff
      exact loopPushMany_state (fdrStepGroup E) (fun s => s.rocN = E.rocN)
        (fun s a hs => loopPushBreak_state (fdrStepName E a.1) (fun s => s.rocN = E.rocN)
          (fun s n hs => ((fdrStepName_rocN_facts E a.1 s n).2.2.1 hoff).trans hs) a.2 s hs)
        l _ rfl
    · exact loopPushMany_state (fdrStepGroup E) (fun s => s.rocN ≤ Max.max E.rocN 1000)
        (fun s a hs => loopPushBreak_state (fdrStepName E a.1)
          (fun s => s.rocN ≤ Max.max E.rocN 1000)
          (fun s n hs => (fdrStepName_rocN_facts E a.1 s n).2.2.2.trans
            (max_le hs (le_max_right _ _))) a.2 s hs)
        l _ (le_max_left _ _)

/-! ## Lemmas on estimatePValues -/

theorem estimatePValues_eq (E : Estimator) (combined : List (Dbl × Bool))
    (hc : combinedOfList E.proteins E.pepProteins = some combined) :
    estimatePValues E = some { E with pvalues := pvaluesOfCombined combined } := by
  simp only [estimatePValues, hc, pvalWalk, pvaluesOfCombined]

/-- The values flushed for one probability group lie between the decoy count before the
group and the decoy count after it, in ascending order. -/
theorem pvalStep_bounds (s : PvalAcc) (x : Dbl × Bool) :
    s.nDecoys ≤ (pvalStep s x).1.nDecoys ∧
    (∀ b ∈ (pvalStep s x).2, Dbl.le (Dbl.ofNat s.nDecoys) b = true ∧
      Dbl.le b (Dbl.ofNat (pvalStep s x).1.nDecoys) = true) ∧
    List.Pairwise (fun a b => Dbl.le a b = true) (pvalStep s x).2 := by
  by_cases hflush : Dbl.eq x.1 s.prevScore = true
  · have h1 : (pvalStep s x).2 = [] := by simp [pvalStep, hflush]
    have h2 : (pvalStep s x).1.nDecoys = s.nDecoys := by
      simp only [pvalStep, hflush, Bool.not_true, Bool.false_eq_true, if_false]
      split <;> rfl
    rw [h1, h2]
    simp
  · have hf : Dbl.eq x.1 s.prevScore = false := by simpa using hflush
    have h1 : (pvalStep s x).2 = (List.range s.posSame).map (fun (ix : Nat) =>
        Dbl.fin ((s.nDecoys : ℚ) + (s.negSame : ℚ) / ((s.posSame : ℚ) + 1) * ((ix : ℚ) + 1))) := by
      have hne : ((s.posSame : ℚ) + 1) ≠ 0 := by positivity
      simp [pvalStep, hf, Dbl.ofNat, Dbl.add, Dbl.div, Dbl.mul, hne]
    have h2 : (pvalStep s x).1.nDecoys = s.nDecoys + s.negSame := by
      simp only [pvalStep, hf, Bool.not_false, if_true]
      split <;> rfl
    rw [h1, h2]
    have hp : (0 : ℚ) < (s.posSame : ℚ) + 1 := by positivity
    have hn : (0 : ℚ) ≤ (s.negSame : ℚ) := Nat.cast_nonneg _
    refine ⟨Nat.le_add_right _ _, ?_, ?_⟩
    · intro b hb
      obtain ⟨ix, hix, rfl⟩ := List.mem_map.mp hb
      have hix' : ix < s.posSame := List.mem_range.mp hix
      have hixq : (ix : ℚ) + 1 ≤ (s.posSame : ℚ) := by exact_mod_cast hix'
      have h0 : 0 ≤ (s.negSame : ℚ) / ((s.posSame : ℚ) + 1) * ((ix : ℚ) + 1) := by positivity
      have h3 : (s.negSame : ℚ) / ((s.posSame : ℚ) + 1) * ((ix : ℚ) + 1) ≤ s.negSame := by
        rw [div_mul_eq_mul_div, div_le_iff₀ hp]
        nlinarith
      simp only [Dbl.ofNat, Dbl.le, decide_eq_true_eq, Nat.cast_add]
      constructor <;> linarith
    · rw [List.pairwise_map]
      refine List.Pairwise.imp ?_ (List.pairwise_lt_range s.posSame)
      intro a b hab
      have habq : (a : ℚ) < (b : ℚ) := by exact_mod_cast hab
      have hr : 0 ≤ (s.negSame : ℚ) / ((s.posSame : ℚ) + 1) := by positivity
      simp only [Dbl.le, decide_eq_true_eq]
      nlinarith

theorem Dbl.between_fin {b : Dbl} {n : Nat} (h0 : Dbl.le (Dbl.ofNat 0) b = true)
    (h1 : Dbl.le b (Dbl.ofNat n) = true) :
    ∃ q : ℚ, b = Dbl.fin q ∧ 0 ≤ q ∧ q ≤ n := by
  cases b with
  | fin q =>
    simp only [Dbl.ofNat, Dbl.le, decide_eq_true_eq, Nat.cast_zero] at h0 h1
    exact ⟨q, rfl, h0, h1⟩
  | pinf => simp [Dbl.ofNat, Dbl.le] at h1
  | ninf => simp [Dbl.ofNat, Dbl.le] at h0
  | nan => simp [Dbl.ofNat, Dbl.le] at h0

theorem Dbl.not_lt_of_le {a b : Dbl} (h : Dbl.le a b = true) : Dbl.lt b a = false := by
  cases a <;> cases b <;> simp_all [Dbl.le, Dbl.lt]

/-- The values pushed by the `while` loop of `estimatePValues` are numbers between 0 and
the final decoy total, in ascending order. -/
theorem pvalWalk_sorted (combined : List (Dbl × Bool)) :
    (∀ b ∈ (pvalWalk combined).2, ∃ q : ℚ, b = Dbl.fin q ∧ 0 ≤ q ∧
      q ≤ (pvalWalk combined).1.nDecoys) ∧
    List.Pairwise (fun a b => Dbl.le a b = true) (pvalWalk combined).2 := by
  have h := loopPushMany_mono pvalStep (fun s => Dbl.ofNat s.nDecoys) id
    (fun s a _ => by
      obtain ⟨h1, h2, h3⟩ := pvalStep_bounds s a
      refine ⟨⟨_, rfl⟩, ?_, h2, h3⟩
      simp only [Dbl.ofNat, Dbl.le, decide_eq_true_eq]
      exact_mod_cast h1)
    combined ⟨0, 0, 0, Dbl.fin (-47114711 / 10000)⟩ ⟨_, rfl⟩
  refine ⟨?_, h.2.2.2⟩
  intro b hb
  obtain ⟨hb0, hb1⟩ := h.2.2.1 b hb
  exact Dbl.between_fin hb0 hb1

theorem pvaluesOfCombined_sorted (combined : List (Dbl × Bool)) :
    List.Pairwise (fun a b => Dbl.lt b a = false) (pvaluesOfCombined combined) ∧
    (0 < (pvalWalk combined).1.nDecoys →
      List.Pairwise (fun a b => Dbl.le a b = true) (pvaluesOfCombined combined) ∧
      ∀ p ∈ pvaluesOfCombined combined, Dbl.inUnit p = true) := by
  obtain ⟨hfin, hsorted⟩ := pvalWalk_sorted combined
  have hpos : 0 < (pvalWalk combined).1.nDecoys →
      List.Pairwise (fun a b => Dbl.le a b = true) (pvaluesOfCombined combined) ∧
      ∀ p ∈ pvaluesOfCombined combined, Dbl.inUnit p = true := by
    intro hN
    have hNq : (0 : ℚ) < ((pvalWalk combined).1.nDecoys : ℚ) := by exact_mod_cast hN
    constructor
    · unfold pvaluesOfCombined
      rw [List.pairwise_map]
      refine List.Pairwise.imp_of_mem ?_ hsorted
      intro a b ha hb hab
      obtain ⟨qa, rfl, _, _⟩ := hfin a ha
      obtain ⟨qb, rfl, _, _⟩ := hfin b hb
      simp only [Dbl.le, decide_eq_true_eq] at hab
      simp only [Dbl.div, Dbl.ofNat, hNq.ne', if_false, Dbl.le, decide_eq_true_eq]
      exact div_le_div_of_nonneg_right hab hNq.le
    · intro p hp
      unfold pvaluesOfCombined at hp
      obtain ⟨b, hb, rfl⟩ := List.mem_map.mp hp
      obtain ⟨q, rfl, h0, h1⟩ := hfin b hb
      simp only [Dbl.div, Dbl.ofNat, hNq.ne', if_false, Dbl.inUnit, Dbl.le,
        Bool.and_eq_true, decide_eq_true_eq]
      exact ⟨div_nonneg h0 hNq.le, (div_le_one hNq).mpr h1⟩
  refine ⟨?_, hpos⟩
  rcases Nat.eq_zero_or_pos (pvalWalk combined).1.nDecoys with hN | hN
  · unfold pvaluesOfCombined
    rw [List.pairwise_map]
    refine List.Pairwise.imp_of_mem ?_ hsorted
    intro a b ha hb _
    obtain ⟨qa, rfl, ha0, ha1⟩ := hfin a ha
    rw [hN] at ha1
    have : qa = 0 := le_antisymm (by exact_mod_cast ha1) ha0
    subst this
    simp [hN, Dbl.div, Dbl.ofNat, Dbl.signedInf, Dbl.lt]
  · exact List.Pairwise.imp (fun hab => Dbl.not_lt_of_le hab) (hpos hN).1

theorem Dbl.eq_of_eq_true {a b : Dbl} (h : Dbl.eq a b = true) : a = b := by
  cases a <;> cases b <;> simp_all [Dbl.eq]

theorem Dbl.eq_symm (a b : Dbl) : Dbl.eq a b = Dbl.eq b a := by
  cases a <;> cases b <;> simp [Dbl.eq, eq_comm]

/-- Counting in the `while` loop of `estimatePValues`: every target is either flushed as a
pushed value or still counted in `posSame`, every decoy is counted in `nDecoys` or in
`negSame`. -/
theorem pvalLoop_counts (c : List (Dbl × Bool)) :
    ∀ s : PvalAcc,
      (loopPushMany pvalStep s c).2.length + (loopPushMany pvalStep s c).1.posSame =
        s.posSame + targetPairs c ∧
      (loopPushMany pvalStep s c).1.nDecoys + (loopPushMany pvalStep s c).1.negSame =
        s.nDecoys + s.negSame + decoyPairs c := by
  induction c with
  | nil => intro s; simp [loopPushMany, targetPairs, decoyPairs]
  | cons x xs ih =>
    intro s
    obtain ⟨i1, i2⟩ := ih (pvalStep s x).1
    simp only [loopPushMany, List.length_append]
    have hstep : (pvalStep s x).2.length + (pvalStep s x).1.posSame =
        s.posSame + (if x.2 then 0 else 1) ∧
        (pvalStep s x).1.nDecoys + (pvalStep s x).1.negSame =
        s.nDecoys + s.negSame + (if x.2 then 1 else 0) := by
      cases hx : x.2 <;> cases hf : Dbl.eq x.1 s.prevScore <;>
        simp [pvalStep, hx, hf, Nat.add_assoc]
    have ht : targetPairs (x :: xs) = (if x.2 then 0 else 1) + targetPairs xs := by
      cases hx : x.2 <;> simp [targetPairs, List.countP_cons, hx, Nat.add_comm]
    have hd : decoyPairs (x :: xs) = (if x.2 then 1 else 0) + decoyPairs xs := by
      cases hx : x.2 <;> simp [decoyPairs, List.countP_cons, hx, Nat.add_comm]
    rw [ht, hd]
    omega

theorem lastGroup_append_singleton (c : List (Dbl × Bool)) (l x : Dbl × Bool)
    (hl : c.getLast? = some l) :
    lastGroup (c ++ [x]) = if Dbl.eq x.1 l.1 then lastGroup c ++ [x] else [x] := by
  obtain ⟨c1, rfl⟩ : ∃ c1, c = c1 ++ [l] := by
    have hne : c ≠ [] := by intro h; simp [h] at hl
    refine ⟨c.dropLast, ?_⟩
    have h1 := List.dropLast_append_getLast? l (by simpa using hl)
    exact h1.symm
  by_cases h : Dbl.eq x.1 l.1 = true
  · have hxl : x.1 = l.1 := Dbl.eq_of_eq_true h
    have hll : Dbl.eq l.1 l.1 = true := by
      have h2 := h
      rw [hxl] at h2
      exact h2
    simp [lastGroup, h, hxl, hll]
  · have h1 : Dbl.eq l.1 x.1 = false := by rw [Dbl.eq_symm]; simpa using h
    simp [lastGroup, h, h1]

theorem pvalWalk_append_singleton (c : List (Dbl × Bool)) (x : Dbl × Bool) :
    (pvalWalk (c ++ [x])).1 = (pvalStep (pvalWalk c).1 x).1 := by
  simp [pvalWalk, loopPushMany_append, loopPushMany]

/-- When the `while` loop of `estimatePValues` ends, `prevScore` is the probability of the
last pair, and `posSame` and `negSame` count the targets and the decoys of the final
probability group, which was not flushed. -/
theorem pvalWalk_last_group (c : List (Dbl × Bool)) :
    (pvalWalk c).1.posSame = targetPairs (lastGroup c) ∧
    (pvalWalk c).1.negSame = decoyPairs (lastGroup c) ∧
    (c = [] → (pvalWalk c).1.prevScore = Dbl.fin (-47114711 / 10000)) ∧
    (∀ l, c.getLast? = some l → (pvalWalk c).1.prevScore = l.1) := by
  induction c using List.reverseRecOn with
  | nil => simp [pvalWalk, loopPushMany, lastGroup, targetPairs, decoyPairs]
  | append_singleton c x ih =>
    obtain ⟨i1, i2, i3, i4⟩ := ih
    rw [pvalWalk_append_singleton]
    rcases List.eq_nil_or_concat c with hc | ⟨c1, l, hcl⟩
    · subst hc
      have h0 := i3 rfl
      have hp : (pvalWalk []).1.posSame = 0 := by simp [pvalWalk, loopPushMany]
      have hn : (pvalWalk []).1.negSame = 0 := by simp [pvalWalk, loopPushMany]
      have hlg : lastGroup ([] ++ [x]) = [x] := by simp [lastGroup]
      rw [hlg]
      by_cases hf : Dbl.eq x.1 (Dbl.fin (-47114711 / 10000)) = true
      · have hx1 := Dbl.eq_of_eq_true hf
        have hfs := hf
        rw [hx1] at hfs
        cases hx : x.2 <;>
          simp [pvalStep, h0, hfs, hx, hp, hn, targetPairs, decoyPairs, hx1]
      · cases hx : x.2 <;>
          simp [pvalStep, h0, hf, hx, targetPairs, decoyPairs]
    · rw [List.concat_eq_append] at hcl
      subst hcl
      have hl : (c1 ++ [l]).getLast? = some l := by simp
      have hprev := i4 l hl
      rw [lastGroup_append_singleton _ l x hl]
      by_cases hf : Dbl.eq x.1 l.1 = true
      · have hx1 := Dbl.eq_of_eq_true hf
        have ht : targetPairs (lastGroup (c1 ++ [l]) ++ [x]) =
            targetPairs (lastGroup (c1 ++ [l])) + (if x.2 then 0 else 1) := by
          cases hx : x.2 <;> simp [targetPairs, List.countP_append, hx]
        have hd : decoyPairs (lastGroup (c1 ++ [l]) ++ [x]) =
            decoyPairs (lastGroup (c1 ++ [l])) + (if x.2 then 1 else 0) := by
          cases hx : x.2 <;> simp [decoyPairs, List.countP_append, hx]
        have hfs := hf
        rw [hx1] at hfs
        rw [if_pos hf, ht, hd, ← i1, ← i2]
        cases hx : x.2 <;> simp [pvalStep, hprev, hfs, hx, hx1]
      · rw [if_neg hf]
        cases hx : x.2 <;>
          simp [pvalStep, hprev, hf, hx, targetPairs, decoyPairs]

/-! ## Lemmas on the value of getROC_N -/

theorem min_fin (a b : ℚ) : Dbl.min (Dbl.fin a) (Dbl.fin b) = Dbl.fin (min a b) := by
  by_cases h : b < a
  · simp [Dbl.min, Dbl.lt, h, min_eq_right h.le]
  · simp [Dbl.min, Dbl.lt, h, min_eq_left (not_lt.mp h)]

/-- On a segment of positive width, `area` is the area under the line from `x1` to the
smaller of the bound and `x2`. -/
theorem area_clipped (x1 y1 x2 y2 B : ℚ) (h1 : x1 < x2) :
    area (Dbl.fin x1) (Dbl.fin y1) (Dbl.fin x2) (Dbl.fin y2) (Dbl.fin B) =
      Dbl.fin ((min B x2 - x1) * (y1 + (y2 - y1) / (x2 - x1) * (min B x2 - x1) / 2)) := by
  have hne : x2 + -x1 ≠ 0 := by linarith
  have hne2 : x2 - x1 ≠ 0 := by linarith
  simp only [area, min_fin, antiderivativeAt, Dbl.sub, Dbl.add, Dbl.neg, Dbl.div,
    Dbl.mul, hne, if_false, Dbl.isnan]
  norm_num
  field_simp
  ring

/-- The clipped area under a rising line with ordinates between `0` and `T` lies between
`0` and `T` times the clipped width. -/
theorem area_clipped_bounds (x1 y1 x2 y2 B T : ℚ) (h1 : x1 < x2) (hB : x1 ≤ B)
    (hy0 : 0 ≤ y1) (hy : y1 ≤ y2) (hT : y2 ≤ T) :
    0 ≤ (min B x2 - x1) * (y1 + (y2 - y1) / (x2 - x1) * (min B x2 - x1) / 2) ∧
    (min B x2 - x1) * (y1 + (y2 - y1) / (x2 - x1) * (min B x2 - x1) / 2) ≤
      T * (min B x2 - x1) := by
  have hw : 0 ≤ min B x2 - x1 := by
    have : x1 ≤ min B x2 := le_min hB h1.le
    linarith
  have hw2 : min B x2 - x1 ≤ x2 - x1 := by
    have := min_le_right B x2
    linarith
  have hd : 0 < x2 - x1 := by linarith
  have hm0 : 0 ≤ (y2 - y1) / (x2 - x1) * (min B x2 - x1) :=
    mul_nonneg (div_nonneg (by linarith) hd.le) hw
  have hm1 : (y2 - y1) / (x2 - x1) * (min B x2 - x1) ≤ y2 - y1 := by
    rw [div_mul_eq_mul_div, div_le_iff₀ hd]
    exact mul_le_mul_of_nonneg_left hw2 (by linarith)
  constructor
  · exact mul_nonneg hw (by linarith)
  · rw [mul_comm T]
    exact mul_le_mul_of_nonneg_left (by linarith) hw

/-- The loop of `getROC_N` on non-decreasing curves with true-positive counts at most `T`,
entered at index `k` with the finite sum `a`: it ends with a finite sum that has grown by
at most `T` times what is left of `[fpArray[k], N]`. -/
theorem rocLoop_bound (fp tp : List Nat) (n T : Nat) (hn : n < 4294967296)
    (hlen : tp.length = fp.length)
    (hfp : List.Pairwise (fun a b => a ≤ b) fp) (htp : List.Pairwise (fun a b => a ≤ b) tp)
    (hT : ∀ t ∈ tp, t ≤ T) :
    ∀ (steps k : Nat) (a : ℚ), k + steps + 1 ≤ fp.length →
      ∃ r : ℚ, rocLoop fp tp (n : Int) steps k (Dbl.fin a) = some (Dbl.fin r) ∧ a ≤ r ∧
        ∀ fk, fp[k]? = some fk → r ≤ a + T * max 0 ((n : ℚ) - fk) := by
  have hu : toUnsigned (n : Int) = n := by
    have := toUnsigned_of_nonneg (n : Int) (Int.ofNat_nonneg n) (by exact_mod_cast hn)
    exact_mod_cast this
  have hTq : (0 : ℚ) ≤ T := Nat.cast_nonneg _
  intro steps
  induction steps with
  | zero =>
    intro k a _
    refine ⟨a, rfl, le_refl _, fun fk _ => ?_⟩
    have := mul_nonneg hTq (le_max_left (0 : ℚ) ((n : ℚ) - fk))
    linarith
  | succ m ih =>
    intro k a hk
    have h0 : k < fp.length := by omega
    have h1 : k + 1 < fp.length := by omega
    have h2 : k < tp.length := by omega
    have h3 : k + 1 < tp.length := by omega
    have hle : fp[k] ≤ fp[k + 1] :=
      List.pairwise_iff_getElem.mp hfp k (k + 1) h0 h1 (Nat.lt_succ_self k)
    have htle : tp[k] ≤ tp[k + 1] :=
      List.pairwise_iff_getElem.mp htp k (k + 1) h2 h3 (Nat.lt_succ_self k)
    have htT : tp[k + 1] ≤ T := hT _ (List.getElem_mem _)
    simp only [rocLoop, List.getElem?_eq_getElem h0, List.getElem?_eq_getElem h1,
      List.getElem?_eq_getElem h2, List.getElem?_eq_getElem h3, hu, Option.some.injEq,
      forall_eq']
    by_cases hbreak : fp[k] ≥ n
    · simp only [hbreak, if_true, Option.some.injEq, Dbl.fin.injEq, exists_eq_left', le_refl,
        true_and]
      have := mul_nonneg hTq (le_max_left (0 : ℚ) ((n : ℚ) - fp[k]))
      linarith
    · have hlt : fp[k] < n := not_le.mp hbreak
      have hltq : (fp[k] : ℚ) < n := by exact_mod_cast hlt
      have hmax : max 0 ((n : ℚ) - fp[k]) = (n : ℚ) - fp[k] := max_eq_right (by linarith)
      simp only [hbreak, if_false, hmax]
      by_cases hne : fp[k] ≠ fp[k + 1]
      · have hlt1 : fp[k] < fp[k + 1] := lt_of_le_of_ne hle hne
        have hlt1q : (fp[k] : ℚ) < fp[k + 1] := by exact_mod_cast hlt1
        have harea := area_clipped fp[k] tp[k] fp[k + 1] tp[k + 1] n hlt1q
        have hb := area_clipped_bounds fp[k] tp[k] fp[k + 1] tp[k + 1] n T hlt1q hltq.le
          (Nat.cast_nonneg _) (by exact_mod_cast htle) (by exact_mod_cast htT)
        obtain ⟨r, hr, hr1, hr2⟩ := ih (k + 1)
          (a + (min (n : ℚ) fp[k + 1] - fp[k]) * (tp[k] + ((tp[k + 1] : ℚ) - tp[k]) /
            ((fp[k + 1] : ℚ) - fp[k]) * (min (n : ℚ) fp[k + 1] - fp[k]) / 2)) (by omega)
        have hr3 := hr2 fp[k + 1] (List.getElem?_eq_getElem h1)
        refine ⟨r, ?_, by linarith, ?_⟩
        · simp only [hne, ne_eq, not_false_eq_true, if_true, Dbl.ofNat, Dbl.ofInt,
            Int.cast_natCast, harea, Dbl.add]
          exact hr
        · rcases le_total ((fp[k + 1] : ℚ)) n with h | h
          · rw [min_eq_right h] at hb hr3
            rw [max_eq_right (by linarith)] at hr3
            nlinarith
          · rw [min_eq_left h] at hb hr3
            rw [max_eq_left (by linarith)] at hr3
            nlinarith
      · have heq : fp[k] = fp[k + 1] := not_not.mp hne
        obtain ⟨r, hr, hr1, hr2⟩ := ih (k + 1) a (by omega)
        have hr3 := hr2 fp[k + 1] (List.getElem?_eq_getElem h1)
        refine ⟨r, ?_, hr1, ?_⟩
        · simp only [hne, if_false]
          exact hr
        · rw [← heq, hmax] at hr3
          exact hr3

/-- What C31 says holds whenever the normaliser `N * tpArray.back()` fits in 32 bits: for
`N > 0` and non-decreasing curves of one size with `fpArray.back() >= N` and
`tpArray.back() > 0`, `getROC_N` returns a number in `[0,1]`. -/
theorem getROC_N_in_unit_of_fits (fp tp : List Nat) (n fpBack tpBack : Nat) (hn : 0 < n)
    (hlen : tp.length = fp.length)
    (hfp : List.Pairwise (fun a b => a ≤ b) fp) (htp : List.Pairwise (fun a b => a ≤ b) tp)
    (hfb : fp.getLast? = some fpBack) (htb : tp.getLast? = some tpBack)
    (hge : n ≤ fpBack) (hpos : 0 < tpBack) (hfit : n * tpBack < 4294967296) :
    ∃ q : ℚ, getROC_N fp tp (n : Int) = Outcome.value (Dbl.fin q) ∧ 0 ≤ q ∧ q ≤ 1 := by
  have hn32 : n < 4294967296 := lt_of_le_of_lt (Nat.le_mul_of_pos_right n hpos) hfit
  have hu : toUnsigned (n : Int) = n := by
    have := toUnsigned_of_nonneg (n : Int) (Int.ofNat_nonneg n) (by exact_mod_cast hn32)
    exact_mod_cast this
  have hne : fp ≠ [] := by intro h; simp [h] at hfb
  have hpos0 : 0 < fp.length := List.length_pos.mpr hne
  have hT : ∀ t ∈ tp, t ≤ tpBack := by
    intro t ht
    have hne2 : tp ≠ [] := List.ne_nil_of_mem ht
    have hlast : tp.getLast hne2 = tpBack := by
      rw [List.getLast?_eq_getLast _ hne2] at htb
      exact Option.some.inj htb
    rw [← hlast]
    rcases List.mem_iff_getElem.mp ht with ⟨i, hi, rfl⟩
    rw [List.getLast_eq_getElem]
    rcases Nat.lt_or_ge i (tp.length - 1) with h | h
    · exact List.pairwise_iff_getElem.mp htp i (tp.length - 1) hi (by omega) h
    · have : i = tp.length - 1 := by omega
      subst this
      exact le_refl _
  obtain ⟨r, hr, hr0, hr1⟩ := rocLoop_bound fp tp n tpBack hn32 hlen hfp htp hT
    (fp.length - 1) 0 0 (by omega)
  have hr2 := hr1 fp[0] (List.getElem?_eq_getElem hpos0)
  have hnq : (0 : ℚ) < n := by exact_mod_cast hn
  have hTq : (0 : ℚ) < tpBack := by exact_mod_cast hpos
  have hf0 : (0 : ℚ) ≤ (fp[0] : ℚ) := Nat.cast_nonneg _
  have hrle : r ≤ (n : ℚ) * tpBack := by
    have h1 : max (0 : ℚ) ((n : ℚ) - (fp[0] : ℚ)) ≤ (n : ℚ) := max_le hnq.le (by linarith)
    have h2 := mul_le_mul_of_nonneg_left h1 hTq.le
    linarith
  have hprod : (0 : ℚ) < (n : ℚ) * tpBack := mul_pos hnq hTq
  have hmod : n * tpBack % 4294967296 = n * tpBack := Nat.mod_eq_of_lt hfit
  have hnotlt : ¬ fpBack < n := by omega
  refine ⟨r / ((n : ℚ) * tpBack), ?_, div_nonneg hr0 hprod.le, (div_le_one hprod).mpr hrle⟩
  simp only [getROC_N, hfb, hu, hnotlt, if_false, hr, htb, hmod]
  simp [Dbl.div, Dbl.ofNat, hprod.ne']

/-! ## Lemmas on updateProteinProbabilities -/

theorem rawEmp_length (E : Estimator) :
    (rawEmp E).length = pushesOver E.tiesAsOneProtein E.pepProteins := by
  unfold rawEmp pushesOver
  split
  · exact loopPush_length _ _ _
  · exact loopPushMany_length (empStepGroup E) (fun e => e.2.length)
      (fun s a => loopPush_length _ _ _) _ _

/-- The three vectors filled by `estimateQValues` and `estimateQValuesEmp` have one
value per push. -/
theorem estimated_lengths (E : Estimator) :
    (estimateQValuesEmp (estimateQValues E)).qvalues.length =
      pushesOver E.tiesAsOneProtein E.pepProteins ∧
    (estimateQValuesEmp (estimateQValues E)).qvaluesEmp.length =
      pushesOver E.tiesAsOneProtein E.pepProteins ∧
    (estimateQValuesEmp (estimateQValues E)).pvalues.length =
      pushesOver E.tiesAsOneProtein E.pepProteins := by
  have h1 := rawQValues_length E
  have h2 := rawEmp_length (estimateQValues E)
  simp only [estimateQValues] at h2
  refine ⟨?_, ?_, ?_⟩
  · simp only [estimateQValuesEmp, estimateQValues, monotonize_length, h1, pushesOver]
  · simp only [estimateQValuesEmp, estimateQValues, monotonize_length, List.length_map, h2]
  · simp only [estimateQValuesEmp, estimateQValues, List.length_map, h2]

/-- Every index read while the ranked list is walked is below the number of pushes. -/
theorem indicesRead_lt (ties : Bool) (l : List (Dbl × List String)) :
    ∀ (i qindex : Nat), ∀ idx ∈ indicesRead ties i qindex l,
      idx < (if ties then i + l.length else qindex + (l.map (fun e => e.2.length)).sum) := by
  induction l with
  | nil => intro i qindex idx h; simp [indicesRead] at h
  | cons e rest ih =>
    intro i qindex idx h
    simp only [indicesRead, List.mem_append, List.mem_map, List.mem_range] at h
    rcases h with ⟨j, hj, rfl⟩ | h
    · cases ties
      · simp only [Bool.false_eq_true, if_false, List.map_cons, List.sum_cons]
        omega
      · simp only [if_true, List.length_cons]
        omega
    · have := ih (i + 1) (qindex + e.2.length) idx h
      cases ties
      · simp only [Bool.false_eq_true, if_false, List.map_cons, List.sum_cons] at this ⊢
        omega
      · simp only [if_true, List.length_cons] at this ⊢
        omega

theorem SameVectors.refl (E : Estimator) : SameVectors E E :=
  ⟨rfl, rfl, rfl, rfl, fun _ => Iff.rfl⟩

theorem SameVectors.trans {E E1 E2 : Estimator} (h1 : SameVectors E E1)
    (h2 : SameVectors E1 E2) : SameVectors E E2 :=
  ⟨h2.1.trans h1.1, h2.2.1.trans h1.2.1, h2.2.2.1.trans h1.2.2.1,
    h2.2.2.2.1.trans h1.2.2.2.1, fun n => (h2.2.2.2.2 n).trans (h1.2.2.2.2 n)⟩

/-- With the name registered and the index inside the three vectors, the body of the
inner loop of `updateProteinProbabilities` completes and changes only protein
statistics. -/
theorem updateProtein_some (E : Estimator) (pep : Dbl) (i qindex : Nat) (name : String)
    (hreg : mapFind E.proteins name ≠ none)
    (h1 : updateIndex E i qindex < E.qvalues.length)
    (h2 : updateIndex E i qindex < E.qvaluesEmp.length)
    (h3 : updateIndex E i qindex < E.pvalues.length) :
    ∃ E1, updateProtein E pep i qindex name = some E1 ∧ SameVectors E E1 := by
  obtain ⟨P, hP⟩ := Option.ne_none_iff_exists'.mp hreg
  have hrun : updateProtein E pep i qindex name =
      some { E with proteins := mapUpdate name (fun P => P.setStatistics pep
        E.qvalues[updateIndex E i qindex] E.qvaluesEmp[updateIndex E i qindex]
        E.pvalues[updateIndex E i qindex]) E.proteins } := by
    simp only [updateProtein, hP, List.getElem?_eq_getElem h1, List.getElem?_eq_getElem h2,
      List.getElem?_eq_getElem h3]
  refine ⟨_, hrun, rfl, rfl, rfl, rfl, ?_⟩
  intro n
  simp only [mapFind_mapUpdate]
  split
  · rename_i hn
    subst hn
    simp [hP]
  · exact Iff.rfl

theorem updateNames_some (pep : Dbl) (i L : Nat) (names : List String) :
    ∀ (E : Estimator) (qindex : Nat),
      (∀ n ∈ names, mapFind E.proteins n ≠ none) →
      (∀ j, j < names.length → updateIndex E i (qindex + j) < L) →
      L ≤ E.qvalues.length → L ≤ E.qvaluesEmp.length → L ≤ E.pvalues.length →
      ∃ E1, updateNames pep i E qindex names = some (E1, qindex + names.length) ∧
        SameVectors E E1 := by
  induction names with
  | nil => intro E qindex _ _ _ _ _; exact ⟨E, rfl, SameVectors.refl E⟩
  | cons n rest ih =>
    intro E qindex hreg hidx l1 l2 l3
    have h0 := hidx 0 (by simp)
    obtain ⟨E1, hE1, hs1⟩ := updateProtein_some E pep i qindex n
      (hreg n (List.mem_cons_self _ _)) (lt_of_lt_of_le h0 l1) (lt_of_lt_of_le h0 l2)
      (lt_of_lt_of_le h0 l3)
    obtain ⟨E2, hE2, hs2⟩ := ih E1 (qindex + 1)
      (fun m hm => by
        have := hreg m (List.mem_cons_of_mem _ hm)
        intro hnone
        exact this ((hs1.2.2.2.2 m).mp hnone))
      (fun j hj => by
        have := hidx (j + 1) (by simpa using hj)
        simp only [updateIndex, hs1.2.2.2.1] at this ⊢
        rw [Nat.add_assoc, Nat.add_comm 1 j]
        exact this)
      (by rw [hs1.1]; exact l1) (by rw [hs1.2.1]; exact l2) (by rw [hs1.2.2.1]; exact l3)
    refine ⟨E2, ?_, hs1.trans hs2⟩
    simp only [updateNames, hE1, hE2, List.length_cons]
    congr 2
    omega

theorem updateEntries_some (L : Nat) (l : List (Dbl × List String)) :
    ∀ (E : Estimator) (i qindex : Nat),
      (∀ e ∈ l, ∀ n ∈ e.2, mapFind E.proteins n ≠ none) →
      (∀ idx ∈ indicesRead E.tiesAsOneProtein i qindex l, idx < L) →
      L ≤ E.qvalues.length → L ≤ E.qvaluesEmp.length → L ≤ E.pvalues.length →
      ∃ E2, updateEntries E i qindex l = some E2 ∧ SameVectors E E2 := by
  induction l with
  | nil => intro E i qindex _ _ _ _ _; exact ⟨E, rfl, SameVectors.refl E⟩
  | cons e rest ih =>
    intro E i qindex hreg hidx l1 l2 l3
    obtain ⟨E1, hE1, hs1⟩ := updateNames_some e.1 i L e.2 E qindex
      (hreg e (List.mem_cons_self _ _))
      (fun j hj => by
        apply hidx
        simp only [indicesRead, List.mem_append, List.mem_map, List.mem_range]
        exact Or.inl ⟨j, hj, by simp [updateIndex]⟩)
      l1 l2 l3
    obtain ⟨E2, hE2, hs2⟩ := ih E1 (i + 1) (qindex + e.2.length)
      (fun e1 he1 m hm => by
        have := hreg e1 (List.mem_cons_of_mem _ he1) m hm
        intro hnone
        exact this ((hs1.2.2.2.2 m).mp hnone))
      (fun idx h => by
        apply hidx
        rw [hs1.2.2.2.1] at h
        simp only [indicesRead, List.mem_append]
        exact Or.inr h)
      (by rw [hs1.1]; exact l1) (by rw [hs1.2.1]; exact l2) (by rw [hs1.2.2.1]; exact l3)
    refine ⟨E2, ?_, hs1.trans hs2⟩
    simp only [updateEntries, hE1, hE2]

/-! ## Lemmas on the functions over an arithmetic -/

theorem areaWith_exact : areaWith exactArith = area := rfl

theorem areaSqWith_exact : areaSqWith exactArith = areaSq := rfl

/-- With the exact operations `getFDR_divergenceWith` is `getFDR_divergence`. -/
theorem getFDR_divergenceWith_exact (E : Estimator) (est emp : List Dbl) (T : Dbl) :
    getFDR_divergenceWith exactArith E est emp T = getFDR_divergence E est emp T := by
  have hloop : ∀ (c : Bool) (d : List Dbl) (steps k : Nat) (tot : Dbl),
      divergenceLoopWith exactArith c est d T steps k tot =
        divergenceLoop c est d T steps k tot := by
    intro c d steps
    induction steps with
    | zero => intro k tot; rfl
    | succ n ih =>
      intro k tot
      simp only [divergenceLoopWith, divergenceLoop, ih, areaWith_exact, areaSqWith_exact]
      rfl
  simp only [getFDR_divergenceWith, getFDR_divergence, hloop, divergenceResult]
  rfl

/-- Sample values of the rounding: `0.1` is the double `3602879701896397 * 2^-55`; the
tie `10000000200000001` between two doubles goes to the even one; dyadic numbers with a
short significand are kept; `2^1024` overflows; half of the least subnormal is a tie and
goes to zero. -/
theorem round64_samples :
    round64 (1/10) = Dbl.fin (3602879701896397 / 36028797018963968) ∧
    round64 10000000200000001 = Dbl.fin 10000000200000000 ∧
    round64 (-1/4) = Dbl.fin (-1/4) ∧ round64 100000001 = Dbl.fin 100000001 ∧
    round64 ((2 : ℚ) ^ 1024) = Dbl.pinf ∧ round64 (-(2 : ℚ) ^ 1024) = Dbl.ninf ∧
    round64 (1 / (2 : ℚ) ^ 1075) = Dbl.fin 0 ∧
    round64 (3 / (2 : ℚ) ^ 1075) = Dbl.fin (1 / (2 : ℚ) ^ 1073) := by
  decide!

/-! ## Theorems on the claims -/

/-- C1: for every ranked probability list and in either tie mode, the sequence `qvalues`
left by `estimateQValues` and the sequence `qvaluesEmp` left by `estimateQValuesEmp` are
each non-decreasing from the first element (best rank) to the last (worst rank). -/
theorem qvalues_nondecreasing (E : Estimator) :
    List.Pairwise (fun a b => Dbl.le a b = true) (estimateQValues E).qvalues ∧
    List.Pairwise (fun a b => Dbl.le a b = true) (estimateQValuesEmp E).qvaluesEmp :=
  ⟨monotonize_sorted _ (rawQValues_finite E), monotonize_sorted _ (rawEmp_finite E)⟩

/-- C2: for every ranked list whose probabilities lie in `[0,1]`, every `pi0 >= 0` and
positive `numberTargetProteins` and `numberDecoyProteins`, in either tie mode, every
element of `qvalues` and every element of `qvaluesEmp` lies in `[0,1]`. -/
theorem qvalues_in_unit_interval (E : Estimator)
    (hprob : ∀ e ∈ E.pepProteins, Dbl.inUnit e.1 = true)
    (hpi0 : Dbl.le (Dbl.fin 0) E.pi0 = true)
    (_hT : 0 < E.numberTargetProteins) (_hD : 0 < E.numberDecoyProteins) :
    (∀ q ∈ (estimateQValues E).qvalues, Dbl.inUnit q = true) ∧
    (∀ q ∈ (estimateQValuesEmp E).qvaluesEmp, Dbl.inUnit q = true) :=
  ⟨fun q hq => rawQValues_inUnit E hprob q (monotonize_mem _ q hq),
   fun q hq => rawEmp_inUnit E hpi0 q (monotonize_mem _ q hq)⟩

/-- Witness of C2 on `sampleEstimator`, ties-as-one-protein mode. -/
theorem qvalues_in_unit_interval_witness :
    ((∀ e ∈ (sampleEstimator true).pepProteins, Dbl.inUnit e.1 = true) ∧
      Dbl.le (Dbl.fin 0) (sampleEstimator true).pi0 = true ∧
      0 < (sampleEstimator true).numberTargetProteins ∧
      0 < (sampleEstimator true).numberDecoyProteins) ∧
    (∀ q ∈ (estimateQValues (sampleEstimator true)).qvalues, Dbl.inUnit q = true) ∧
    (∀ q ∈ (estimateQValuesEmp (sampleEstimator true)).qvaluesEmp, Dbl.inUnit q = true) :=
  ⟨by decide!, qvalues_in_unit_interval (sampleEstimator true) (by decide!) (by decide!)
    (by decide) (by decide)⟩

/-- C3 fails as stated: with two decoy names in the ranked list and
`numberDecoyProteins = 1`, `estimateQValuesEmp` stores the p-value `2/1 = 2`. -/
theorem pvalues_in_unit_interval_counterexample :
    0 < twoDecoyEstimator.numberDecoyProteins ∧
    (estimateQValuesEmp twoDecoyEstimator).pvalues = [Dbl.fin 2] ∧
    ¬ (∀ p ∈ (estimateQValuesEmp twoDecoyEstimator).pvalues, Dbl.inUnit p = true) := by
  decide!

/-- C3 (amended): for every ranked list whose number of decoy names does not exceed
`numberDecoyProteins > 0`, in either tie mode, every p-value that `estimateQValuesEmp`
stores in `pvalues` lies in `[0,1]`. -/
theorem pvalues_in_unit_interval (E : Estimator) (hD : 0 < E.numberDecoyProteins)
    (hcount : totalDecoys E.decoyPattern E.pepProteins ≤ E.numberDecoyProteins) :
    ∀ p ∈ (estimateQValuesEmp E).pvalues, Dbl.inUnit p = true := by
  intro p hp
  obtain ⟨x, hx, rfl⟩ := List.mem_map.mp hp
  unfold rawEmp at hx
  split at hx
  · exact empStepTies_pvalues E hD _ _ (by simpa using hcount) x hx
  · exact empStepGroup_pvalues E hD _ _ (by simpa using hcount) x hx

/-- Witness of C3 (amended) on `sampleEstimator`, per-protein mode. -/
theorem pvalues_in_unit_interval_witness :
    (0 < (sampleEstimator false).numberDecoyProteins ∧
      totalDecoys (sampleEstimator false).decoyPattern (sampleEstimator false).pepProteins ≤
        (sampleEstimator false).numberDecoyProteins) ∧
    (∀ p ∈ (estimateQValuesEmp (sampleEstimator false)).pvalues, Dbl.inUnit p = true) :=
  ⟨by decide, pvalues_in_unit_interval (sampleEstimator false) (by decide) (by decide)⟩

/-- C4: in ties-as-one-protein mode, the raw q-value `estimateQValues` computes at rank
`k` is `(sum_{i<=k} p_i*t_i) / (sum_{i<=k} t_i)` with `t_i = countTargets(G_i)`, replaced
by 1 when that quotient is undefined, infinite or above 1, and the final `qvalues[k]` is
the minimum of the raw values at ranks `k..n`. -/
theorem qvalues_ties_formula (E : Estimator) (hties : E.tiesAsOneProtein = true) (k : Nat)
    (hk : k < E.pepProteins.length) :
    (rawQValues E)[k]? = some (specRawQ E.decoyPattern E.pepProteins k) ∧
    ∃ m, (estimateQValues E).qvalues[k]? = some m ∧
      IsMinFrom (specRawQ E.decoyPattern E.pepProteins) k E.pepProteins.length m := by
  have hraw : ∀ j, j < E.pepProteins.length →
      (rawQValues E)[j]? = some (specRawQ E.decoyPattern E.pepProteins j) := by
    intro j hj
    simp only [rawQValues, hties, if_true]
    rw [qStepTies_get _ _ _ j hj, clampQ_eq_replaceByOne]
    simp [specRawQ, weightedSumThrough, targetsThrough]
  have hlen : (rawQValues E).length = E.pepProteins.length := by
    simp only [rawQValues, hties, if_true]
    exact loopPush_length _ _ _
  refine ⟨hraw k hk, ?_⟩
  have := monotonize_isMinFrom (rawQValues E) (specRawQ E.decoyPattern E.pepProteins)
    (rawQValues_finite E) (fun j hj => hraw j (hlen ▸ hj)) k (hlen ▸ hk)
  rw [hlen] at this
  exact this

/-- Witness of C4 on `sampleEstimator`, rank 1. -/
theorem qvalues_ties_formula_witness :
    ((sampleEstimator true).tiesAsOneProtein = true ∧
      1 < (sampleEstimator true).pepProteins.length) ∧
    (rawQValues (sampleEstimator true))[1]? =
      some (specRawQ (sampleEstimator true).decoyPattern (sampleEstimator true).pepProteins 1) ∧
    ∃ m, (estimateQValues (sampleEstimator true)).qvalues[1]? = some m ∧
      IsMinFrom (specRawQ (sampleEstimator true).decoyPattern
        (sampleEstimator true).pepProteins) 1 (sampleEstimator true).pepProteins.length m :=
  ⟨by decide, qvalues_ties_formula (sampleEstimator true) rfl 1 (by decide)⟩

/-- C5: in ties-as-one-protein mode, with a finite `pi0` and `numberDecoyProteins > 0`,
the raw empirical q-value `estimateQValuesEmp` computes at rank `k` is
`min(1, D_k * pi0 * (numberTargetProteins / numberDecoyProteins) / T_k)` when `T_k > 0`
and 0 where `T_k = 0`, and the final `qvaluesEmp[k]` is the minimum of the raw values at
ranks `k..n`. -/
theorem qvaluesEmp_ties_formula (E : Estimator) (pi0 : ℚ)
    (hties : E.tiesAsOneProtein = true) (hpi : E.pi0 = Dbl.fin pi0)
    (hD : 0 < E.numberDecoyProteins) (k : Nat) (hk : k < E.pepProteins.length) :
    ((rawEmp E).map Prod.fst)[k]? =
      some (specRawEmpQ E.decoyPattern E.pepProteins pi0 E.numberTargetProteins
        E.numberDecoyProteins k) ∧
    ∃ m, (estimateQValuesEmp E).qvaluesEmp[k]? = some m ∧
      IsMinFrom (specRawEmpQ E.decoyPattern E.pepProteins pi0 E.numberTargetProteins
        E.numberDecoyProteins) k E.pepProteins.length m := by
  have hraw : ∀ j, j < E.pepProteins.length →
      ((rawEmp E).map Prod.fst)[j]? =
        some (specRawEmpQ E.decoyPattern E.pepProteins pi0 E.numberTargetProteins
          E.numberDecoyProteins j) := by
    intro j hj
    obtain ⟨e, he⟩ : ∃ e, E.pepProteins[j]? = some e :=
      ⟨E.pepProteins[j], List.getElem?_eq_getElem hj⟩
    simp only [rawEmp, hties, if_true, List.getElem?_map]
    rw [empStepTies_get E _ _ j e he (fun _ => rfl)]
    simp only [Option.map_some', Nat.zero_add, Option.some.injEq]
    rw [empQ_eq_spec E pi0 hpi hD]
    rfl
  have hlen : ((rawEmp E).map Prod.fst).length = E.pepProteins.length := by
    simp only [rawEmp, hties, if_true, List.length_map]
    exact loopPush_length _ _ _
  refine ⟨hraw k hk, ?_⟩
  have := monotonize_isMinFrom ((rawEmp E).map Prod.fst)
    (specRawEmpQ E.decoyPattern E.pepProteins pi0 E.numberTargetProteins
      E.numberDecoyProteins)
    (rawEmp_finite E) (fun j hj => hraw j (hlen ▸ hj)) k (hlen ▸ hk)
  rw [hlen] at this
  exact this

/-- Witness of C5 on `sampleEstimator`, rank 1. -/
theorem qvaluesEmp_ties_formula_witness :
    ((sampleEstimator true).tiesAsOneProtein = true ∧
      (sampleEstimator true).pi0 = Dbl.fin 1 ∧
      0 < (sampleEstimator true).numberDecoyProteins ∧
      1 < (sampleEstimator true).pepProteins.length) ∧
    ((rawEmp (sampleEstimator true)).map Prod.fst)[1]? =
      some (specRawEmpQ (sampleEstimator true).decoyPattern
        (sampleEstimator true).pepProteins 1 (sampleEstimator true).numberTargetProteins
        (sampleEstimator true).numberDecoyProteins 1) ∧
    ∃ m, (estimateQValuesEmp (sampleEstimator true)).qvaluesEmp[1]? = some m ∧
      IsMinFrom (specRawEmpQ (sampleEstimator true).decoyPattern
        (sampleEstimator true).pepProteins 1 (sampleEstimator true).numberTargetProteins
        (sampleEstimator true).numberDecoyProteins) 1
        (sampleEstimator true).pepProteins.length m :=
  ⟨by decide, qvaluesEmp_ties_formula (sampleEstimator true) 1 rfl rfl (by decide) 1
    (by decide)⟩

/-- C6: in ties-as-one-protein mode, the p-value `estimateQValuesEmp` assigns to rank `k`
is `D_k / numberDecoyProteins` if entry `k` contains at least one decoy and
`(D_k + 1) / (numberDecoyProteins + 1)` otherwise, `D_k` being the cumulative decoy count
through and including rank `k`. -/
theorem pvalues_ties_formula (E : Estimator) (hties : E.tiesAsOneProtein = true) (k : Nat)
    (e : Dbl × List String) (he : E.pepProteins[k]? = some e) :
    (estimateQValuesEmp E).pvalues[k]? =
      some (specPValue E.decoyPattern E.pepProteins E.numberDecoyProteins k e) := by
  simp only [estimateQValuesEmp, rawEmp, hties, if_true, List.getElem?_map]
  rw [empStepTies_get E _ _ k e he (fun _ => rfl)]
  simp [specPValue, decoysThrough]

/-- Witness of C6 on `sampleEstimator`, rank 1 (a tie-group holding a decoy). -/
theorem pvalues_ties_formula_witness :
    ((sampleEstimator true).tiesAsOneProtein = true ∧
      (sampleEstimator true).pepProteins[1]? = some (Dbl.fin (1/2), ["random_P2", "P3"])) ∧
    (estimateQValuesEmp (sampleEstimator true)).pvalues[1]? =
      some (specPValue (sampleEstimator true).decoyPattern (sampleEstimator true).pepProteins
        (sampleEstimator true).numberDecoyProteins 1 (Dbl.fin (1/2), ["random_P2", "P3"])) :=
  ⟨by decide!, pvalues_ties_formula (sampleEstimator true) rfl 1 _ (by decide!)⟩

/-- C7 fails as stated: for the negative `int` argument `N = -1` the comparison
`fpArray.back() < N` is made in `unsigned`, where `N` is `4294967295`, so the call takes
the fatal branch although the last false-positive count 5 is not below `-1`. -/
theorem getROC_N_fatal_counterexample :
    getROC_N [5] [5] (-1) = Outcome.fatal ∧ ¬ ((5 : Int) < -1) := by
  decide!

/-- C7 (amended): for every `N` with `0 <= N <= INT_MAX` and every non-empty curve (two
vectors of one size), `getROC_N(fpArray, tpArray, N)` takes the fatal branch if and only
if the last element of `fpArray` is strictly less than `N`, and when the last
false-positive count is `>= N` it returns a value. -/
theorem getROC_N_fatal_iff (fpArray tpArray : List Nat) (N : Int) (hne : fpArray ≠ [])
    (hlen : tpArray.length = fpArray.length) (hN0 : 0 ≤ N) (hN1 : N ≤ 2147483647) :
    (getROC_N fpArray tpArray N = Outcome.fatal ↔ ((fpArray.getLast hne : Nat) : Int) < N) ∧
    (N ≤ ((fpArray.getLast hne : Nat) : Int) →
      ∃ v, getROC_N fpArray tpArray N = Outcome.value v) := by
  have hu := toUnsigned_of_nonneg N hN0 (by omega)
  have hlast : fpArray.getLast? = some (fpArray.getLast hne) := List.getLast?_eq_getLast _ hne
  have htne : tpArray ≠ [] := by
    intro h
    rw [h] at hlen
    exact hne (List.length_eq_zero.mp hlen.symm)
  have htlast : tpArray.getLast? = some (tpArray.getLast htne) :=
    List.getLast?_eq_getLast _ htne
  have hpos : 0 < fpArray.length := List.length_pos.mpr hne
  obtain ⟨v, hv⟩ := rocLoop_isSome fpArray tpArray N hlen (fpArray.length - 1) 0 (Dbl.fin 0)
    (by omega)
  have hcmp : fpArray.getLast hne < toUnsigned N ↔ ((fpArray.getLast hne : Nat) : Int) < N := by
    constructor
    · intro h; rw [← hu]; exact Int.ofNat_lt.mpr h
    · intro h; rw [← hu] at h; exact Int.ofNat_lt.mp h
  unfold getROC_N
  simp only [hlast, htlast, hv]
  constructor
  · constructor
    · intro h
      by_contra hc
      rw [if_neg (fun h' => hc (hcmp.mp h'))] at h
      exact Outcome.noConfusion h
    · intro h
      rw [if_pos (hcmp.mpr h)]
  · intro h
    rw [if_neg (fun h' => absurd (hcmp.mp h') (not_lt.mpr h))]
    exact ⟨_, rfl⟩

/-- Witness of C7 (amended): the curve `(0,0), (3,5), (3,6), (7,8), (20,10)` at `N = 5`. -/
theorem getROC_N_fatal_iff_witness :
    (([0, 3, 3, 7, 20] : List Nat) ≠ [] ∧
      ([0, 5, 6, 8, 10] : List Nat).length = ([0, 3, 3, 7, 20] : List Nat).length ∧
      (0 : Int) ≤ 5 ∧ (5 : Int) ≤ 2147483647) ∧
    (getROC_N [0, 3, 3, 7, 20] [0, 5, 6, 8, 10] 5 = Outcome.fatal ↔
      ((([0, 3, 3, 7, 20] : List Nat).getLast (by decide) : Nat) : Int) < 5) ∧
    ((5 : Int) ≤ ((([0, 3, 3, 7, 20] : List Nat).getLast (by decide) : Nat) : Int) →
      ∃ v, getROC_N [0, 3, 3, 7, 20] [0, 5, 6, 8, 10] 5 = Outcome.value v) :=
  ⟨by decide, getROC_N_fatal_iff [0, 3, 3, 7, 20] [0, 5, 6, 8, 10] 5 (by decide) (by decide)
    (by decide) (by decide)⟩

/-- C8 fails on the code for large counts: with `N = 65536` false positives and
`T = 65536` true positives the normaliser `N * tpArray.back()` wraps to 0 in 32-bit
unsigned arithmetic, and `getROC_N` returns `+inf` for the straight curve
`(0,0) -> (N,T)` whose value should be `1/2`. -/
theorem getROC_N_two_point_overflow :
    getROC_N [0, 65536] [0, 65536] 65536 = Outcome.value Dbl.pinf := by
  decide!

/-- C9: for every ranked list (entries `(probability, group)`), in either tie mode, both
vectors returned by `getEstimated_and_Empirical_FDR` (the estimated-FDR curve and the
empirical-FDR curve) are non-decreasing from the first element (best rank) to the last
(worst rank) and have equal length. -/
theorem fdr_curves_nondecreasing (E : Estimator) (L : List (Dbl × List String)) :
    ∃ E1 est emp,
      getEstimated_and_Empirical_FDR E (L.map Prod.snd) (L.map Prod.fst) =
        some (E1, (est, emp)) ∧
      List.Pairwise (fun a b => Dbl.le a b = true) est ∧
      List.Pairwise (fun a b => Dbl.le a b = true) emp ∧
      est.length = emp.length := by
  refine ⟨{ E with rocN := (fdrWalk E L).1.rocN }, (fdrWalk E L).2.map Prod.fst,
    (fdrWalk E L).2.map Prod.snd, ?_, ?_, ?_, ?_⟩
  · simp only [getEstimated_and_Empirical_FDR, List.length_map, le_refl, if_true,
      zip_map_fst_map_snd]
  · rw [List.pairwise_map]
    exact (fdrWalk_sorted E L).1
  · rw [List.pairwise_map]
    exact (fdrWalk_sorted E L).2
  · simp

/-- C10 fails on the code for a single-point curve: when the first ranked entry already
has estimated FDR `0.5 > 0.1 = threshold`, `getEstimated_and_Empirical_FDR` stops at the
first rank and returns the curves `[0.5]` and `[0]`; on them the loop of
`getFDR_divergence` runs zero times, so the result is `0 / (0.1 - 0.5) = 0`, not `+inf`. -/
theorem getFDR_divergence_single_point :
    getEstimated_and_Empirical_FDR firstRankEstimator [["P1"], ["P2"]]
        [Dbl.fin (1/2), Dbl.fin (3/5)] =
      some (firstRankEstimator, ([Dbl.fin (1/2)], [Dbl.fin 0])) ∧
    Dbl.gt (Dbl.fin (1/2)) firstRankEstimator.threshold = true ∧
    getFDR_divergence firstRankEstimator [Dbl.fin (1/2)] [Dbl.fin 0]
        firstRankEstimator.threshold = some (Dbl.fin 0) := by
  decide!

/-- C20: for every registry state and every level, `getQvaluesBelowLevel(level)` is the
number of registry proteins that are not decoys and whose q-value is `<= level`; it is
monotone non-decreasing in `level`; and together with `getQvaluesBelowLevelDecoy(level)`
it counts all proteins with q-value `<= level`. -/
theorem getQvaluesBelowLevel_counts (E : Estimator) (level level2 : Dbl) :
    getQvaluesBelowLevel E level =
      E.proteins.countP (fun e => Dbl.le e.2.q level && !e.2.isDecoy) ∧
    (Dbl.le level level2 = true →
      getQvaluesBelowLevel E level ≤ getQvaluesBelowLevel E level2) ∧
    getQvaluesBelowLevel E level + getQvaluesBelowLevelDecoy E level =
      E.proteins.countP (fun e => Dbl.le e.2.q level) := by
  refine ⟨?_, ?_, ?_⟩
  · simp [getQvaluesBelowLevel, qvaluesBelowLoop_eq]
  · intro h
    simp only [getQvaluesBelowLevel, qvaluesBelowLoop_eq, Nat.zero_add]
    apply List.countP_mono_left
    intro e _ he
    simp only [Bool.and_eq_true, Bool.not_eq_true'] at he ⊢
    exact ⟨Dbl.le_trans' he.1 h, he.2⟩
  · simp only [getQvaluesBelowLevel, getQvaluesBelowLevelDecoy, qvaluesBelowLoop_eq,
      qvaluesBelowDecoyLoop_eq, Nat.zero_add]
    exact countP_split_decoy level E.proteins

/-- C18: for every stream of matches (each with a set of distinct protein identifiers)
read by `setTargetandDecoysNames` into an empty registry, the registry holds exactly one
Protein per distinct identifier referenced by any match; its decoy flag is that of the
first match in stream order that references it; and its peptide list holds exactly one
Peptide record per referencing match, in stream order. -/
theorem registry_one_protein_per_identifier (E : Estimator) (S : List ScoreHolder)
    (hfresh : E.proteins = []) (hset : ∀ m ∈ S, m.proteinIds.Nodup) :
    ((setTargetandDecoysNames E S).proteins.map Prod.fst).Nodup ∧
    (∀ name, name ∈ (setTargetandDecoysNames E S).proteins.map Prod.fst ↔
      ∃ m ∈ S, name ∈ m.proteinIds) ∧
    (∀ name P, (name, P) ∈ (setTargetandDecoysNames E S).proteins →
      P.name = name ∧
      (S.find? (fun m => decide (name ∈ m.proteinIds))).map ScoreHolder.isDecoy =
        some P.isDecoy ∧
      P.peptides = (S.filter (fun m => decide (name ∈ m.proteinIds))).map peptideOf) := by
  have hnd : ((setTargetandDecoysNames E S).proteins.map Prod.fst).Nodup := by
    rw [setTargetandDecoysNames_proteins]
    exact registry_keys_nodup S E (by simp [hfresh])
  have hfind : ∀ name, mapFind (setTargetandDecoysNames E S).proteins name =
      (S.find? (fun m => decide (name ∈ m.proteinIds))).map (fun m =>
        { name := name, isDecoy := m.isDecoy,
          peptides := (S.filter (fun m => decide (name ∈ m.proteinIds))).map peptideOf }) := by
    intro name
    rw [setTargetandDecoysNames_proteins, mapFind_stream name S E hset, hfresh]
    exact afterStream_none name S
  refine ⟨hnd, ?_, ?_⟩
  · intro name
    rw [← not_iff_not, ← mapFind_eq_none_iff, hfind]
    simp
  · intro name P hP
    have h1 := mapFind_of_mem _ hnd name P hP
    rw [hfind] at h1
    cases hf : S.find? (fun m => decide (name ∈ m.proteinIds)) with
    | none => rw [hf] at h1; simp at h1
    | some m =>
      rw [hf] at h1
      simp only [Option.map_some', Option.some.injEq] at h1
      subst h1
      simp

/-- Witness of C18 on `sampleMatches`. -/
theorem registry_one_protein_per_identifier_witness :
    ((({} : Estimator).proteins = [] ∧ ∀ m ∈ sampleMatches, m.proteinIds.Nodup)) ∧
    ((setTargetandDecoysNames {} sampleMatches).proteins.map Prod.fst).Nodup ∧
    (∀ name, name ∈ (setTargetandDecoysNames {} sampleMatches).proteins.map Prod.fst ↔
      ∃ m ∈ sampleMatches, name ∈ m.proteinIds) ∧
    (∀ name P, (name, P) ∈ (setTargetandDecoysNames {} sampleMatches).proteins →
      P.name = name ∧
      (sampleMatches.find? (fun m => decide (name ∈ m.proteinIds))).map ScoreHolder.isDecoy =
        some P.isDecoy ∧
      P.peptides =
        (sampleMatches.filter (fun m => decide (name ∈ m.proteinIds))).map peptideOf) :=
  ⟨⟨rfl, by decide⟩, registry_one_protein_per_identifier {} sampleMatches rfl (by decide)⟩

/-- C19: for every stream of matches read by `setTargetandDecoysNames` into an estimator
whose registry and name sets are empty, the target name set and the decoy name set are
disjoint, their union is exactly the set of registry keys, membership agrees with each
Protein's decoy flag, and `numberTargetProteins + numberDecoyProteins` is the number of
proteins in the registry. -/
theorem name_sets_partition_registry (E : Estimator) (S : List ScoreHolder)
    (hp : E.proteins = []) (hT : E.truePosSet = []) (hF : E.falsePosSet = []) :
    (∀ name, ¬ (name ∈ (setTargetandDecoysNames E S).truePosSet ∧
      name ∈ (setTargetandDecoysNames E S).falsePosSet)) ∧
    (∀ name, (name ∈ (setTargetandDecoysNames E S).truePosSet ∨
        name ∈ (setTargetandDecoysNames E S).falsePosSet) ↔
      name ∈ (setTargetandDecoysNames E S).proteins.map Prod.fst) ∧
    (∀ name P, (name, P) ∈ (setTargetandDecoysNames E S).proteins →
      (name ∈ (setTargetandDecoysNames E S).falsePosSet ↔ P.isDecoy = true) ∧
      (name ∈ (setTargetandDecoysNames E S).truePosSet ↔ P.isDecoy = false)) ∧
    (setTargetandDecoysNames E S).numberTargetProteins +
        (setTargetandDecoysNames E S).numberDecoyProteins =
      (setTargetandDecoysNames E S).proteins.length := by
  obtain ⟨hk, hTn, hFn, hTm, hFm⟩ := RegistryInv.stream S E (RegistryInv.of_empty E hp hT hF)
  have e1 : (setTargetandDecoysNames E S).proteins = (S.foldl registerMatch E).proteins := rfl
  have e2 : (setTargetandDecoysNames E S).truePosSet = (S.foldl registerMatch E).truePosSet :=
    rfl
  have e3 : (setTargetandDecoysNames E S).falsePosSet =
      (S.foldl registerMatch E).falsePosSet := rfl
  have e4 : (setTargetandDecoysNames E S).numberTargetProteins =
      (S.foldl registerMatch E).truePosSet.length := rfl
  have e5 : (setTargetandDecoysNames E S).numberDecoyProteins =
      (S.foldl registerMatch E).falsePosSet.length := rfl
  rw [e1, e2, e3, e4, e5]
  have hdisj : ∀ name, ¬ (name ∈ (S.foldl registerMatch E).truePosSet ∧
      name ∈ (S.foldl registerMatch E).falsePosSet) := by
    rintro name ⟨h1, h2⟩
    obtain ⟨P, hP, hd⟩ := (hTm name).mp h1
    obtain ⟨Q, hQ, hd2⟩ := (hFm name).mp h2
    rw [hP] at hQ
    simp only [Option.some.injEq] at hQ
    rw [hQ, hd2] at hd
    exact Bool.noConfusion hd
  have hunion : ∀ name, (name ∈ (S.foldl registerMatch E).truePosSet ∨
      name ∈ (S.foldl registerMatch E).falsePosSet) ↔
      name ∈ (S.foldl registerMatch E).proteins.map Prod.fst := by
    intro name
    rw [hTm, hFm]
    constructor
    · rintro (⟨P, hP, _⟩ | ⟨P, hP, _⟩) <;>
      · by_contra hc
        rw [(mapFind_eq_none_iff _ _).mpr hc] at hP
        exact Option.noConfusion hP
    · intro hmem
      cases hfind : mapFind (S.foldl registerMatch E).proteins name with
      | none => exact absurd hmem ((mapFind_eq_none_iff _ _).mp hfind)
      | some P =>
        cases hd : P.isDecoy with
        | false => exact Or.inl ⟨P, rfl, hd⟩
        | true => exact Or.inr ⟨P, rfl, hd⟩
  refine ⟨hdisj, hunion, ?_, ?_⟩
  · intro name P hP
    have h1 := mapFind_of_mem _ hk name P hP
    rw [hTm, hFm, h1]
    simp
  · have hnd : ((S.foldl registerMatch E).truePosSet ++
        (S.foldl registerMatch E).falsePosSet).Nodup :=
      List.Nodup.append hTn hFn (fun a h1 h2 => hdisj a ⟨h1, h2⟩)
    have hperm := (List.perm_ext_iff_of_nodup hnd hk).mpr
      (fun a => by rw [List.mem_append]; exact hunion a)
    have := hperm.length_eq
    simpa using this

/-- Witness of C19 on `sampleMatches`. -/
theorem name_sets_partition_registry_witness :
    ((({} : Estimator).proteins = [] ∧ ({} : Estimator).truePosSet = [] ∧
      ({} : Estimator).falsePosSet = [])) ∧
    (∀ name, ¬ (name ∈ (setTargetandDecoysNames {} sampleMatches).truePosSet ∧
      name ∈ (setTargetandDecoysNames {} sampleMatches).falsePosSet)) ∧
    (∀ name, (name ∈ (setTargetandDecoysNames {} sampleMatches).truePosSet ∨
        name ∈ (setTargetandDecoysNames {} sampleMatches).falsePosSet) ↔
      name ∈ (setTargetandDecoysNames {} sampleMatches).proteins.map Prod.fst) ∧
    (∀ name P, (name, P) ∈ (setTargetandDecoysNames {} sampleMatches).proteins →
      (name ∈ (setTargetandDecoysNames {} sampleMatches).falsePosSet ↔ P.isDecoy = true) ∧
      (name ∈ (setTargetandDecoysNames {} sampleMatches).truePosSet ↔ P.isDecoy = false)) ∧
    (setTargetandDecoysNames {} sampleMatches).numberTargetProteins +
        (setTargetandDecoysNames {} sampleMatches).numberDecoyProteins =
      (setTargetandDecoysNames {} sampleMatches).proteins.length :=
  ⟨⟨rfl, rfl, rfl⟩, name_sets_partition_registry {} sampleMatches rfl rfl rfl⟩

/-- C11: for every p-value vector, every number of bootstrap iterations and every
sequence of random draws, `estimatePi0` returns either the failure sentinel `-1` or a
value in the half-open interval `(0,1]`. -/
theorem estimatePi0_sentinel_or_unit (E : Estimator) (numBoot : Nat) (rnd : Nat → Nat)
    (randMax : Nat) :
    ∃ r, estimatePi0 E numBoot rnd randMax = some r ∧
      (r = Dbl.fin (-1) ∨ ∃ q : ℚ, r = Dbl.fin q ∧ 0 < q ∧ q ≤ 1) := by
  rcases estimatePi0_cases E numBoot rnd randMax with ⟨_, h⟩ | ⟨_, q, h, h0, h1⟩
  · exact ⟨_, h, Or.inl rfl⟩
  · exact ⟨_, h, Or.inr ⟨q, rfl, h0, h1⟩⟩

/-- C12 fails as stated: on the vector of two identical p-values `1` (three bootstrap
rounds) `estimatePi0` returns `1`, not the sentinel `-1`. -/
theorem estimatePi0_identical_counterexample :
    estimatePi0 { pvalues := [Dbl.fin 1, Dbl.fin 1] } 3 (fun i => 16807 * i + 11) 32767 =
      some (Dbl.fin 1) ∧
    Dbl.fin 1 ≠ Dbl.fin (-1) := by
  decide!

/-- C12 (amended): for every non-empty p-value vector whose entries are all identical,
with common value `c` in `[0,1]`, `estimatePi0` returns the failure sentinel `-1` exactly
when `c` is below the smallest threshold `0.005` (in particular for the all-zero vector). -/
theorem estimatePi0_identical_vector (E : Estimator) (n : Nat) (c : ℚ) (numBoot : Nat)
    (rnd : Nat → Nat) (randMax : Nat) (hn : 0 < n) (_hc0 : 0 ≤ c) (_hc1 : c ≤ 1) :
    estimatePi0 { E with pvalues := List.replicate n (Dbl.fin c) } numBoot rnd randMax =
      some (Dbl.fin (-1)) ↔ c < 1 / 200 := by
  rcases estimatePi0_cases { E with pvalues := List.replicate n (Dbl.fin c) } numBoot rnd
    randMax with ⟨hc, h⟩ | ⟨hc, q, h, h0, _⟩
  · rw [h]
    simp only [true_iff]
    exact (pi0Candidates_replicate n c hn).mp hc
  · rw [h]
    constructor
    · intro hq
      simp only [Option.some.injEq, Dbl.fin.injEq] at hq
      linarith
    · intro hlt
      exact absurd ((pi0Candidates_replicate n c hn).mpr hlt) hc

/-- Witness of C12 (amended): three p-values `0`. -/
theorem estimatePi0_identical_vector_witness :
    ((0 : Nat) < 3 ∧ (0 : ℚ) ≤ 0 ∧ (0 : ℚ) ≤ 1) ∧
    (estimatePi0 { ({} : Estimator) with pvalues := List.replicate 3 (Dbl.fin 0) } 100
        (fun i => 16807 * i + 11) 32767 = some (Dbl.fin (-1)) ↔ (0 : ℚ) < 1 / 200) :=
  ⟨by norm_num, estimatePi0_identical_vector {} 3 0 100 (fun i => 16807 * i + 11) 32767
    (by norm_num) (by norm_num) (by norm_num)⟩

/-- C13: in `run()`, when `estimatePi0` reports failure or yields a value outside `(0,1]`
(`pi0 <= 0.0 || pi0 > 1.0`), the pi0 substitute taken is the last element of the
monotonized `qvalues`, and for every non-empty ranked list (of non-empty tie-groups) that
element is the maximum of all q-values in `qvalues`. -/
theorem run_pi0_fallback_is_max_qvalue (E : Estimator) (numBoot : Nat) (rnd : Nat → Nat)
    (randMax : Nat) (E2 : Estimator) (r : Dbl)
    (hne : E.pepProteins ≠ []) (hgroups : ∀ e ∈ E.pepProteins, e.2 ≠ [])
    (huse : E.usePi0 = true) (hmayu : E.mayufdr = false)
    (hp : estimatePValues (estimateQValues E) = some E2)
    (hr : estimatePi0 E2 numBoot rnd randMax = some r)
    (hfail : Dbl.le r (Dbl.fin 0) = true ∨ Dbl.gt r (Dbl.fin 1) = true) :
    ∃ last, run_estimatePi0 E numBoot rnd randMax = some { E2 with pi0 := last } ∧
      (estimateQValues E).qvalues.getLast? = some last ∧
      last ∈ (estimateQValues E).qvalues ∧
      ∀ q ∈ (estimateQValues E).qvalues, Dbl.le q last = true := by
  have hq2 : E2.qvalues = (estimateQValues E).qvalues := estimatePValues_qvalues _ _ hp
  have hnn := qvalues_ne_nil E hne hgroups
  have hlast : (estimateQValues E).qvalues.getLast? =
      some ((estimateQValues E).qvalues.getLast hnn) := List.getLast?_eq_getLast _ hnn
  have hfin : ∀ x ∈ (estimateQValues E).qvalues, Dbl.IsFinite x :=
    fun x hx => rawQValues_finite E x (monotonize_mem _ x hx)
  have hcond : (Dbl.le r (Dbl.fin 0) || Dbl.gt r (Dbl.fin 1)) = true := by
    rcases hfail with h | h <;> simp [h]
  have huse1 : (estimateQValues E).usePi0 = true := huse
  have hmayu1 : (estimateQValues E).mayufdr = false := hmayu
  refine ⟨(estimateQValues E).qvalues.getLast hnn, ?_, hlast,
    List.mem_of_getLast?_eq_some hlast,
    le_getLast_of_sorted _ hfin (monotonize_sorted _ (rawQValues_finite E)) _ hlast⟩
  simp only [run_estimatePi0, huse1, hmayu1, Bool.not_false, Bool.and_self, if_true, hp, hr,
    run_pi0Fallback, hcond, hq2, hlast]

/-- Witness of C13 on `sampleRunEstimator`: its only p-value is 0, `estimatePi0` returns
the sentinel, and pi0 becomes the last q-value. -/
theorem run_pi0_fallback_is_max_qvalue_witness :
    (sampleRunEstimator.pepProteins ≠ [] ∧
      (∀ e ∈ sampleRunEstimator.pepProteins, e.2 ≠ []) ∧
      sampleRunEstimator.usePi0 = true ∧ sampleRunEstimator.mayufdr = false ∧
      estimatePValues (estimateQValues sampleRunEstimator) =
        some { estimateQValues sampleRunEstimator with pvalues := [Dbl.fin 0] } ∧
      estimatePi0 { estimateQValues sampleRunEstimator with pvalues := [Dbl.fin 0] } 100
        (fun i => 16807 * i + 11) 32767 = some (Dbl.fin (-1)) ∧
      (Dbl.le (Dbl.fin (-1)) (Dbl.fin 0) = true ∨ Dbl.gt (Dbl.fin (-1)) (Dbl.fin 1) = true)) ∧
    ∃ last, run_estimatePi0 sampleRunEstimator 100 (fun i => 16807 * i + 11) 32767 =
        some { { estimateQValues sampleRunEstimator with pvalues := [Dbl.fin 0] } with
          pi0 := last } ∧
      (estimateQValues sampleRunEstimator).qvalues.getLast? = some last ∧
      last ∈ (estimateQValues sampleRunEstimator).qvalues ∧
      ∀ q ∈ (estimateQValues sampleRunEstimator).qvalues, Dbl.le q last = true :=
  ⟨by decide!, run_pi0_fallback_is_max_qvalue sampleRunEstimator 100
    (fun i => 16807 * i + 11) 32767
    { estimateQValues sampleRunEstimator with pvalues := [Dbl.fin 0] } (Dbl.fin (-1))
    (by decide) (by decide) rfl rfl (by decide!) (by decide!) (Or.inl (by decide!))⟩

/-- C15 fails on the code: with `alpha = 0.1`, `beta = 0.01`, `gamma = 0.5` all pinned,
`gridSearch` still hands 25 triples to the inference engine, the pinned triple is not
among them, and the parameters it leaves are `alpha = 0.01`, `beta = 0`, `gamma = 0.5`. -/
theorem gridSearch_pinned_triple_ignored :
    (gridSearch confidentEngine (gridEstimator true) (Dbl.fin (1/10)) (Dbl.fin (1/2))
        (Dbl.fin (1/100))).toOption.map
      (fun r => (r.2.length, r.1.alpha, r.1.beta, r.1.gamma,
        decide ((Dbl.fin (1/2), Dbl.fin (1/10), Dbl.fin (1/100)) ∈ r.2))) =
      some (25, Dbl.fin (1/100), Dbl.fin 0, Dbl.fin (1/2), false) := by
  decide!

/-- C16 fails on the code: when every candidate's objective is `-inf` (per-protein mode,
the best protein already above the threshold, so that the divergence is `+inf`), no
candidate is "strictly larger" than the initial `best_objective = -100000000`, and
`gridSearch` commits `alpha = beta = gamma = -1`, which is no triple of the grid. -/
theorem gridSearch_commits_outside_grid :
    (gridSearch hopelessEngine (gridEstimator false) (Dbl.fin (-1)) (Dbl.fin (-1))
        (Dbl.fin (-1))).toOption.map
      (fun r => (r.1.gamma, r.1.alpha, r.1.beta, r.2.length,
        decide ((r.1.gamma, r.1.alpha, r.1.beta) ∈ r.2))) =
      some (Dbl.fin (-1), Dbl.fin (-1), Dbl.fin (-1), 25, false) ∧
    (candidateObjective hopelessEngine (gridEstimator false)
        (Dbl.fin (1/2), Dbl.fin (1/100), Dbl.fin 0)).toOption.map (fun r => r.2) =
      some Dbl.ninf := by
  decide!

/-- C17 fails on the code: with no parameter pinned, `gridSearch` at deepness 0 hands the
inference engine the same 25 triples as at deepness 3 (one `gamma`, five `alpha`, five
`beta`), not the `5 * 7 * 7 = 245` triples of the arrays declared for deepness 0. -/
theorem gridSearch_deepness_ignored :
    (gridSearch confidentEngine { gridEstimator true with deepness := 0 } (Dbl.fin (-1))
        (Dbl.fin (-1)) (Dbl.fin (-1))).toOption.map (fun r => r.2) =
      (gridSearch confidentEngine { gridEstimator true with deepness := 3 } (Dbl.fin (-1))
        (Dbl.fin (-1)) (Dbl.fin (-1))).toOption.map (fun r => r.2) ∧
    (gridSearch confidentEngine { gridEstimator true with deepness := 0 } (Dbl.fin (-1))
        (Dbl.fin (-1)) (Dbl.fin (-1))).toOption.map (fun r => r.2.length) = some 25 ∧
    (gridTriples (blockArrays 0).1 (blockArrays 0).2.2 (blockArrays 0).2.1).length = 245 ∧
    (gridTriples (blockArrays 3).1 (blockArrays 3).2.2 (blockArrays 3).2.1).length = 25 := by
  decide!

/-- C21 fails as stated: on a ranked list whose first entry holds only decoys, in either
tie mode, the first division `sum / (double)nP` of `estimateQValues` has the operands
`0.0` and `(double)0`: the divisor is the zero target count, the quotient is `NaN`, and
the pushed q-value `1.0` comes from the `isnan` guard. -/
theorem estimateQValues_divides_by_zero_targets :
    (qDivisions (leadingDecoyEstimator true)).head? = some (Dbl.fin 0, Dbl.ofNat 0) ∧
    (qDivisions (leadingDecoyEstimator false)).head? = some (Dbl.fin 0, Dbl.ofNat 0) ∧
    (Dbl.fin 0).div (Dbl.ofNat 0) = Dbl.nan ∧
    (rawQValues (leadingDecoyEstimator true)).head? = some (Dbl.fin 1) ∧
    (rawQValues (leadingDecoyEstimator false)).head? = some (Dbl.fin 1) := by
  decide!

/-- C21 (amended): for every ranked list `D ++ rest` whose leading entries `D` hold only
decoys, in both tie modes and at every value pushed while `D` is walked:
`estimateQValuesEmp` skips the division by the target count (the guard `if(nTargets)`)
and pushes the unchanged `qvalue = 0.0`; `estimateQValues` evaluates `sum / (double)nP`
with the divisor `(double)0`, and the guard on `NaN` makes the pushed q-value `1.0`. -/
theorem leading_decoys_divisions (E : Estimator) (D rest : List (Dbl × List String))
    (hE : E.pepProteins = D ++ rest)
    (hD : ∀ e ∈ D, countTargets E.decoyPattern e.2 = 0) :
    (empDivisions E).take (pushesOver E.tiesAsOneProtein D) =
      List.replicate (pushesOver E.tiesAsOneProtein D) none ∧
    (((rawEmp E).map Prod.fst).take (pushesOver E.tiesAsOneProtein D) =
      List.replicate (pushesOver E.tiesAsOneProtein D) (Dbl.fin 0)) ∧
    ((qDivisions E).take (pushesOver E.tiesAsOneProtein D)).map Prod.snd =
      List.replicate (pushesOver E.tiesAsOneProtein D) (Dbl.ofNat 0) ∧
    (rawQValues E).take (pushesOver E.tiesAsOneProtein D) =
      List.replicate (pushesOver E.tiesAsOneProtein D) (Dbl.fin 1) ∧
    rawQValues E = (qDivisions E).map (fun d => clampQ (d.1.div d.2)) := by
  have hq0 : (0 : Nat) = 0 ∧ ((Dbl.fin 0 : Dbl) = Dbl.fin 0 ∨ (Dbl.fin 0 : Dbl) = Dbl.nan) :=
    ⟨rfl, Or.inl rfl⟩
  refine ⟨?_, ?_, ?_, ?_, rawQValues_eq_divisions E⟩
  · -- divisions of estimateQValuesEmp
    unfold empDivisions pushesOver
    rw [hE]
    cases E.tiesAsOneProtein with
    | true =>
      simp only [if_true, loopPush_append]
      have := (loopPush_map_const
        (fun s e => ((empStepTies E s e).1, empDivisionAt E (empStepTies E s e).1)) id
        (fun s => s.nTargets = 0 ∧ s.qvalue = Dbl.fin 0)
        (fun e => countTargets E.decoyPattern e.2 = 0) none
        (fun s e hs he => ⟨(empStepTies_leading_decoys E s e hs he).1,
          (empStepTies_leading_decoys E s e hs he).2.1⟩)
        D ⟨0, 0, Dbl.fin 0⟩ ⟨rfl, rfl⟩ hD).2
      have h2 := take_map_append_replicate id _
        (loopPush (fun s e => ((empStepTies E s e).1, empDivisionAt E (empStepTies E s e).1))
          (loopPush (fun s e => ((empStepTies E s e).1,
            empDivisionAt E (empStepTies E s e).1)) ⟨0, 0, Dbl.fin 0⟩ D).1 rest).2 _ _ this
      simpa using h2
    | false =>
      simp only [Bool.false_eq_true, if_false, loopPushMany_append]
      have := (loopPushMany_map_const
        (fun s e => loopPush (fun s name => ((empStepName E s name).1,
          empDivisionAt E (empStepName E s name).1)) s e.2) id
        (fun s => s.nTargets = 0 ∧ s.qvalue = Dbl.fin 0)
        (fun e => countTargets E.decoyPattern e.2 = 0) (fun e => e.2.length) none
        (fun s e hs he => loopPush_map_const
          (fun s name => ((empStepName E s name).1,
            empDivisionAt E (empStepName E s name).1)) id _
          (fun name => countTargetsName E.decoyPattern name = 0) none
          (fun s name hs hn => ⟨(empStepName_leading_decoys E s name hs hn).1,
            (empStepName_leading_decoys E s name hs hn).2.1⟩)
          e.2 s hs (countTargets_eq_zero _ _ he))
        D ⟨0, 0, Dbl.fin 0⟩ ⟨rfl, rfl⟩ hD).2
      have h2 := take_map_append_replicate id _
        (loopPushMany (fun s e => loopPush (fun s name => ((empStepName E s name).1,
          empDivisionAt E (empStepName E s name).1)) s e.2)
          (loopPushMany (fun s e => loopPush (fun s name => ((empStepName E s name).1,
            empDivisionAt E (empStepName E s name).1)) s e.2) ⟨0, 0, Dbl.fin 0⟩ D).1 rest).2
        _ _ this
      simpa using h2
  · -- empirical q-values pushed
    unfold rawEmp pushesOver
    rw [hE]
    cases E.tiesAsOneProtein with
    | true =>
      simp only [if_true, loopPush_append]
      have := (loopPush_map_const (empStepTies E) Prod.fst
        (fun s => s.nTargets = 0 ∧ s.qvalue = Dbl.fin 0)
        (fun e => countTargets E.decoyPattern e.2 = 0) (Dbl.fin 0)
        (fun s e hs he => ⟨(empStepTies_leading_decoys E s e hs he).1,
          (empStepTies_leading_decoys E s e hs he).2.2⟩)
        D ⟨0, 0, Dbl.fin 0⟩ ⟨rfl, rfl⟩ hD).2
      rw [← List.map_take]
      exact take_map_append_replicate Prod.fst _ _ _ _ this
    | false =>
      simp only [Bool.false_eq_true, if_false, loopPushMany_append]
      have := (loopPushMany_map_const (empStepGroup E) Prod.fst
        (fun s => s.nTargets = 0 ∧ s.qvalue = Dbl.fin 0)
        (fun e => countTargets E.decoyPattern e.2 = 0) (fun e => e.2.length) (Dbl.fin 0)
        (fun s e hs he => loopPush_map_const (empStepName E) Prod.fst _
          (fun name => countTargetsName E.decoyPattern name = 0) (Dbl.fin 0)
          (fun s name hs hn => ⟨(empStepName_leading_decoys E s name hs hn).1,
            (empStepName_leading_decoys E s name hs hn).2.2⟩)
          e.2 s hs (countTargets_eq_zero _ _ he))
        D ⟨0, 0, Dbl.fin 0⟩ ⟨rfl, rfl⟩ hD).2
      rw [← List.map_take]
      exact take_map_append_replicate Prod.fst _ _ _ _ this
  · -- divisors of estimateQValues
    unfold qDivisions pushesOver
    rw [hE]
    cases E.tiesAsOneProtein with
    | true =>
      simp only [if_true, loopPush_append]
      have := (loopPush_map_const (qDivisionTies E.decoyPattern) Prod.snd
        (fun s => s.nP = 0 ∧ (s.sum = Dbl.fin 0 ∨ s.sum = Dbl.nan))
        (fun e => countTargets E.decoyPattern e.2 = 0) (Dbl.ofNat 0)
        (fun s e hs he => by
          have h := qStepTies_leading_decoys E.decoyPattern s e hs he
          rw [h.2.2.1]
          exact ⟨h.1, h.2.2.2⟩)
        D ⟨0, Dbl.fin 0⟩ hq0 hD).2
      exact take_map_append_replicate Prod.snd _ _ _ _ this
    | false =>
      simp only [Bool.false_eq_true, if_false, loopPushMany_append]
      have := (loopPushMany_map_const
        (fun s e => loopPush (qDivisionName E.decoyPattern e.1) s e.2) Prod.snd
        (fun s => s.nP = 0 ∧ (s.sum = Dbl.fin 0 ∨ s.sum = Dbl.nan))
        (fun e => countTargets E.decoyPattern e.2 = 0) (fun e => e.2.length) (Dbl.ofNat 0)
        (fun s e hs he => loopPush_map_const (qDivisionName E.decoyPattern e.1) Prod.snd _
          (fun name => countTargetsName E.decoyPattern name = 0) (Dbl.ofNat 0)
          (fun s name hs hn => by
            have h := qStepName_leading_decoys E.decoyPattern e.1 s name hs hn
            rw [h.2.2.1]
            exact ⟨h.1, h.2.2.2⟩)
          e.2 s hs (countTargets_eq_zero _ _ he))
        D ⟨0, Dbl.fin 0⟩ hq0 hD).2
      exact take_map_append_replicate Prod.snd _ _ _ _ this
  · -- q-values pushed
    unfold rawQValues pushesOver
    rw [hE]
    cases E.tiesAsOneProtein with
    | true =>
      simp only [if_true, loopPush_append]
      have := (loopPush_map_const (qStepTies E.decoyPattern) id
        (fun s => s.nP = 0 ∧ (s.sum = Dbl.fin 0 ∨ s.sum = Dbl.nan))
        (fun e => countTargets E.decoyPattern e.2 = 0) (Dbl.fin 1)
        (fun s e hs he => ⟨(qStepTies_leading_decoys E.decoyPattern s e hs he).1,
          (qStepTies_leading_decoys E.decoyPattern s e hs he).2.1⟩)
        D ⟨0, Dbl.fin 0⟩ hq0 hD).2
      have h2 := take_map_append_replicate id _
        (loopPush (qStepTies E.decoyPattern)
          (loopPush (qStepTies E.decoyPattern) ⟨0, Dbl.fin 0⟩ D).1 rest).2 _ _ this
      simpa using h2
    | false =>
      simp only [Bool.false_eq_true, if_false, loopPushMany_append]
      have := (loopPushMany_map_const (qStepGroup E.decoyPattern) id
        (fun s => s.nP = 0 ∧ (s.sum = Dbl.fin 0 ∨ s.sum = Dbl.nan))
        (fun e => countTargets E.decoyPattern e.2 = 0) (fun e => e.2.length) (Dbl.fin 1)
        (fun s e hs he => loopPush_map_const (qStepName E.decoyPattern e.1) id _
          (fun name => countTargetsName E.decoyPattern name = 0) (Dbl.fin 1)
          (fun s name hs hn =>
            ⟨(qStepName_leading_decoys E.decoyPattern e.1 s name hs hn).1,
            (qStepName_leading_decoys E.decoyPattern e.1 s name hs hn).2.1⟩)
          e.2 s hs (countTargets_eq_zero _ _ he))
        D ⟨0, Dbl.fin 0⟩ hq0 hD).2
      have h2 := take_map_append_replicate id _
        (loopPushMany (qStepGroup E.decoyPattern)
          (loopPushMany (qStepGroup E.decoyPattern) ⟨0, Dbl.fin 0⟩ D).1 rest).2 _ _ this
      simpa using h2

/-- Witness of C21 (amended): per-protein mode, a leading entry of two decoys. -/
theorem leading_decoys_divisions_witness :
    ((leadingDecoyEstimator false).pepProteins =
        [(Dbl.fin (1/10), ["random_A", "random_B"])] ++ [(Dbl.fin (1/5), ["P1", "P2"])] ∧
      ∀ e ∈ [(Dbl.fin (1/10), ["random_A", "random_B"])],
        countTargets (leadingDecoyEstimator false).decoyPattern e.2 = 0) ∧
    ((empDivisions (leadingDecoyEstimator false)).take
        (pushesOver (leadingDecoyEstimator false).tiesAsOneProtein
          [(Dbl.fin (1/10), ["random_A", "random_B"])]) =
      List.replicate (pushesOver (leadingDecoyEstimator false).tiesAsOneProtein
        [(Dbl.fin (1/10), ["random_A", "random_B"])]) none ∧
    (((rawEmp (leadingDecoyEstimator false)).map Prod.fst).take
        (pushesOver (leadingDecoyEstimator false).tiesAsOneProtein
          [(Dbl.fin (1/10), ["random_A", "random_B"])]) =
      List.replicate (pushesOver (leadingDecoyEstimator false).tiesAsOneProtein
        [(Dbl.fin (1/10), ["random_A", "random_B"])]) (Dbl.fin 0)) ∧
    ((qDivisions (leadingDecoyEstimator false)).take
        (pushesOver (leadingDecoyEstimator false).tiesAsOneProtein
          [(Dbl.fin (1/10), ["random_A", "random_B"])])).map Prod.snd =
      List.replicate (pushesOver (leadingDecoyEstimator false).tiesAsOneProtein
        [(Dbl.fin (1/10), ["random_A", "random_B"])]) (Dbl.ofNat 0) ∧
    (rawQValues (leadingDecoyEstimator false)).take
        (pushesOver (leadingDecoyEstimator false).tiesAsOneProtein
          [(Dbl.fin (1/10), ["random_A", "random_B"])]) =
      List.replicate (pushesOver (leadingDecoyEstimator false).tiesAsOneProtein
        [(Dbl.fin (1/10), ["random_A", "random_B"])]) (Dbl.fin 1) ∧
    rawQValues (leadingDecoyEstimator false) =
      (qDivisions (leadingDecoyEstimator false)).map (fun d => clampQ (d.1.div d.2))) :=
  ⟨⟨rfl, by decide!⟩, leading_decoys_divisions (leadingDecoyEstimator false)
    [(Dbl.fin (1/10), ["random_A", "random_B"])] [(Dbl.fin (1/5), ["P1", "P2"])] rfl
    (by decide!)⟩

/-- C22 (amended): for every ranked list whose probabilities are finite numbers,
`estimateQValues` and `estimateQValuesEmp` in per-protein mode yield exactly the
`qvalues`, `qvaluesEmp` and `pvalues` that they yield in ties-as-one-protein mode on the
flattened list, in which every protein name of every tie-group is its own single-name
entry with the probability of the group. -/
theorem per_protein_is_ties_on_flattened (E : Estimator) (hper : E.tiesAsOneProtein = false)
    (hfin : ∀ e ∈ E.pepProteins, Dbl.IsFinite e.1) :
    (estimateQValues E).qvalues = (estimateQValues (tiesOnFlattened E)).qvalues ∧
    (estimateQValuesEmp E).qvaluesEmp = (estimateQValuesEmp (tiesOnFlattened E)).qvaluesEmp ∧
    (estimateQValuesEmp E).pvalues = (estimateQValuesEmp (tiesOnFlattened E)).pvalues := by
  have hq : rawQValues E = rawQValues (tiesOnFlattened E) := by
    simp only [rawQValues, tiesOnFlattened, hper, Bool.false_eq_true, if_false, if_true]
    have := loopPushMany_eq_loopPush_flatten (qStepTies E.decoyPattern)
      (qStepName E.decoyPattern) E.pepProteins
      (fun e he s n => by
        obtain ⟨p, hp⟩ := hfin e he
        rw [hp]
        exact qStepTies_single _ s p n)
      ⟨0, Dbl.fin 0⟩
    rw [← this]
    rfl
  have he : rawEmp E = rawEmp (tiesOnFlattened E) := by
    simp only [rawEmp, tiesOnFlattened, hper, Bool.false_eq_true, if_false, if_true]
    have := loopPushMany_eq_loopPush_flatten (empStepTies (tiesOnFlattened E))
      (fun _ => empStepName E) E.pepProteins
      (fun e _ s n => empStepTies_single E _ rfl rfl rfl rfl s e.1 n)
      ⟨0, 0, Dbl.fin 0⟩
    simp only [tiesOnFlattened] at this
    rw [← this]
    rfl
  simp only [estimateQValues, estimateQValuesEmp, hq, he, and_self]

/-- Witness of C22 (amended): two groups of two names each. -/
theorem per_protein_is_ties_on_flattened_witness :
    ((leadingDecoyEstimator false).tiesAsOneProtein = false ∧
      ∀ e ∈ (leadingDecoyEstimator false).pepProteins, Dbl.IsFinite e.1) ∧
    ((estimateQValues (leadingDecoyEstimator false)).qvalues =
        (estimateQValues (tiesOnFlattened (leadingDecoyEstimator false))).qvalues ∧
      (estimateQValuesEmp (leadingDecoyEstimator false)).qvaluesEmp =
        (estimateQValuesEmp (tiesOnFlattened (leadingDecoyEstimator false))).qvaluesEmp ∧
      (estimateQValuesEmp (leadingDecoyEstimator false)).pvalues =
        (estimateQValuesEmp (tiesOnFlattened (leadingDecoyEstimator false))).pvalues) :=
  ⟨⟨rfl, fun e he => by
      simp only [leadingDecoyEstimator, List.mem_cons, List.mem_singleton, List.not_mem_nil,
        or_false] at he
      rcases he with rfl | rfl <;> exact ⟨_, rfl⟩⟩,
    per_protein_is_ties_on_flattened (leadingDecoyEstimator false) rfl (fun e he => by
      simp only [leadingDecoyEstimator, List.mem_cons, List.mem_singleton, List.not_mem_nil,
        or_false] at he
      rcases he with rfl | rfl <;> exact ⟨_, rfl⟩)⟩

/-- C23 fails on the code: the first loop of `estimatePi0` runs for `ix = 0, ..., 100`,
that is over 101 thresholds `(ix + 1) / 200`; on the p-value vector `(1)` all of them are
kept, and the last one is `0.505`, above `maxLambda = 0.5`. -/
theorem estimatePi0_evaluates_101_thresholds :
    (pi0Candidates [Dbl.fin 1]).map Prod.fst =
      (List.range 101).map (fun ix => Dbl.fin (((ix : ℚ) + 1) / 200)) ∧
    (pi0Candidates [Dbl.fin 1]).length = 101 ∧
    (pi0Candidates [Dbl.fin 1]).getLast? = some (Dbl.fin (101/200), Dbl.fin (200/99)) ∧
    Dbl.le (Dbl.fin (101/200)) (Dbl.fin (1/2)) = false := by
  decide!

/-- C24 fails as stated: on two groups that are both walked (`rocN = 5`), `getROC` returns
four points, not three: the cumulative points `(0,1)` and `(1,2)`, the point `(1,2)` once
more, and the totals `(1,3)`. -/
theorem getROC_appends_two_points :
    getROC { decoyPattern := "random", rocN := 5, truePosSet := ["P1", "P2", "P3"],
             falsePosSet := ["random_A"] } [["P1"], ["P2", "random_A"]] =
      ([0, 1, 1, 1], [1, 2, 2, 3]) ∧
    ([0, 1, 1, 1] : List Nat).length ≠ 2 + 1 := by
  decide!

/-- C24 (amended): for every list of groups and every `rocN`, with `w` the number of
walked ranks (the ranks up to and including the first whose cumulative decoy count
exceeds `rocN`, or all ranks if none does), the curve returned by `getROC` is the
cumulative (decoy count, target count) point of each walked rank, followed by two
appended points: the cumulative counts at the end of the walk once more (`(0,0)` when no
rank was walked), and then (size of the decoy name set, size of the target name set); its
length is `w + 2`. -/
theorem getROC_curve (E : Estimator) (names : List (List String)) :
    ∃ w : Nat, w ≤ names.length ∧
      (∀ j, 0 < j → j < w → decoysOfFirst E.decoyPattern names j ≤ E.rocN) ∧
      (w = names.length ∨ (0 < w ∧ E.rocN < decoysOfFirst E.decoyPattern names w)) ∧
      (getROC E names).1 =
        (List.range w).map (fun k => decoysOfFirst E.decoyPattern names (k + 1)) ++
          [decoysOfFirst E.decoyPattern names w, E.falsePosSet.length] ∧
      (getROC E names).2 =
        (List.range w).map (fun k => targetsOfFirst E.decoyPattern names (k + 1)) ++
          [targetsOfFirst E.decoyPattern names w, E.truePosSet.length] ∧
      (getROC E names).1.length = w + 2 ∧ (getROC E names).2.length = w + 2 := by
  obtain ⟨w, hw, hbefore, hexit, hout, hfin⟩ := rocLoop_points E names ⟨0, 0⟩
  simp only [Nat.zero_add] at hbefore hexit hout hfin
  refine ⟨w, hw, hbefore, hexit, ?_, ?_, ?_, ?_⟩ <;>
    simp [getROC, hout, hfin, Function.comp]

/-- C25 fails on the code in per-protein mode: with threshold `0.1` and the groups
`(P1, P2)` at `0.5` and `(P3)` at `0.6`, the walk pushes `0.5 > 0.1` for `P1`, leaves the
group, and goes on with the next group, pushing `0.55` for `P3`; the returned
estimated-FDR curve `(0.5, 0.55)` has a first element above the threshold and a point
derived from a later tie-group after it.  In ties mode the same input gives `(0.5)`. -/
theorem fdr_walk_continues_after_break :
    (getEstimated_and_Empirical_FDR (earlyStopEstimator false) [["P1", "P2"], ["P3"]]
        [Dbl.fin (1/2), Dbl.fin (3/5)]).map (fun r => r.2.1) =
      some [Dbl.fin (1/2), Dbl.fin (11/20)] ∧
    Dbl.gt (Dbl.fin (1/2)) (earlyStopEstimator false).threshold = true ∧
    (getEstimated_and_Empirical_FDR (earlyStopEstimator true) [["P1", "P2"], ["P3"]]
        [Dbl.fin (1/2), Dbl.fin (3/5)]).map (fun r => r.2.1) = some [Dbl.fin (1/2)] := by
  decide!

/-- C27: `getEstimated_and_Empirical_FDR` returns the estimator with no field changed
but `rocN`; when the automatic update is off (the constructor was given a `rocN > 0`)
`rocN` is unchanged by the walk; when it is on, each visited point whose estimated FDR is
at or below the secondary threshold sets `rocN` to
`max(rocN, clamp(falsePositiveCount, 50, 1000))`, so that `rocN` never decreases and is at
least 50 as soon as one such point was visited. -/
theorem walk_writes_only_rocN (E : Estimator) (names : List (List String))
    (probabilities : List Dbl) (hlen : names.length ≤ probabilities.length) :
    ∃ (E1 : Estimator) (estFDR empFDR : List Dbl),
      getEstimated_and_Empirical_FDR E names probabilities = some (E1, (estFDR, empFDR)) ∧
      E1 = { E with rocN := E1.rocN } ∧
      (E.updateRocN = false → E1.rocN = E.rocN) ∧
      E.rocN ≤ E1.rocN ∧
      (E.updateRocN = true → (∃ x ∈ estFDR, Dbl.le x E.thresholdRoc = true) →
        50 ≤ E1.rocN) ∧
      (∀ s : FdrAcc, (fdrFinish E s).1.rocN =
        if Dbl.le (fdrFinish E s).2.1.1 E.thresholdRoc = true ∧ E.updateRocN = true then
          Max.max s.rocN (clampCount s.fpCount)
        else s.rocN) ∧
      (∀ cfg : Nat, 0 < cfg →
        (constructRocN E cfg).updateRocN = false ∧ (constructRocN E cfg).rocN = cfg) ∧
      (constructRocN E 0).updateRocN = true := by
  have hw := fdrWalk_rocN E (List.zip probabilities names)
  refine ⟨{ E with rocN := (fdrWalk E (List.zip probabilities names)).1.rocN },
    (fdrWalk E (List.zip probabilities names)).2.map Prod.fst,
    (fdrWalk E (List.zip probabilities names)).2.map Prod.snd, ?_, rfl, hw.2.2.1, hw.1, ?_,
    fdrFinish_rocN E, ?_, ?_⟩
  · simp [getEstimated_and_Empirical_FDR, hlen]
  · intro hon hx
    obtain ⟨x, hx1, hx2⟩ := hx
    obtain ⟨b, hb1, hb2⟩ := List.mem_map.mp hx1
    exact hw.2.1 b hb1 ⟨hon, by rw [hb2]; exact hx2⟩
  · intro cfg hcfg
    simp [constructRocN, hcfg]
  · simp [constructRocN]

/-- Witness of C27: automatic update on, a confident target and a decoy. -/
theorem walk_writes_only_rocN_witness :
    ([["P1"], ["random_A"]] : List (List String)).length ≤
      ([Dbl.fin (1/100), Dbl.fin (1/2)] : List Dbl).length ∧
    ∃ (E1 : Estimator) (estFDR empFDR : List Dbl),
      getEstimated_and_Empirical_FDR autoRocNEstimator [["P1"], ["random_A"]]
          [Dbl.fin (1/100), Dbl.fin (1/2)] = some (E1, (estFDR, empFDR)) ∧
      E1 = { autoRocNEstimator with rocN := E1.rocN } ∧
      (autoRocNEstimator.updateRocN = false → E1.rocN = autoRocNEstimator.rocN) ∧
      autoRocNEstimator.rocN ≤ E1.rocN ∧
      (autoRocNEstimator.updateRocN = true →
        (∃ x ∈ estFDR, Dbl.le x autoRocNEstimator.thresholdRoc = true) → 50 ≤ E1.rocN) ∧
      (∀ s : FdrAcc, (fdrFinish autoRocNEstimator s).1.rocN =
        if Dbl.le (fdrFinish autoRocNEstimator s).2.1.1 autoRocNEstimator.thresholdRoc = true ∧
            autoRocNEstimator.updateRocN = true then
          Max.max s.rocN (clampCount s.fpCount)
        else s.rocN) ∧
      (∀ cfg : Nat, 0 < cfg →
        (constructRocN autoRocNEstimator cfg).updateRocN = false ∧
          (constructRocN autoRocNEstimator cfg).rocN = cfg) ∧
      (constructRocN autoRocNEstimator 0).updateRocN = true :=
  ⟨by decide, walk_writes_only_rocN autoRocNEstimator [["P1"], ["random_A"]]
    [Dbl.fin (1/100), Dbl.fin (1/2)] (by decide)⟩

/-- C29: for every list of (probability, is-decoy) pairs, the p-value vector produced by
`estimatePValues` is in non-decreasing order, in that no element is smaller than an
element before it (the precondition of the `lower_bound` searches of `estimatePi0`); and
when the final decoy total is positive the entries are numbers in `[0,1]`, each at most
its successors. -/
theorem estimatePValues_sorted (E : Estimator) (combined : List (Dbl × Bool))
    (hc : combinedOfList E.proteins E.pepProteins = some combined) :
    ∃ E2 : Estimator, estimatePValues E = some E2 ∧
      List.Pairwise (fun a b => Dbl.lt b a = false) E2.pvalues ∧
      (0 < (pvalWalk combined).1.nDecoys →
        List.Pairwise (fun a b => Dbl.le a b = true) E2.pvalues ∧
        ∀ p ∈ E2.pvalues, Dbl.inUnit p = true) :=
  ⟨_, estimatePValues_eq E combined hc, (pvaluesOfCombined_sorted combined).1,
    (pvaluesOfCombined_sorted combined).2⟩

/-- Witness of C29 on the sample registry and ranked list. -/
theorem estimatePValues_sorted_witness :
    combinedOfList pvalueEstimator.proteins pvalueEstimator.pepProteins =
      some pvalueCombined ∧
    ∃ E2 : Estimator, estimatePValues pvalueEstimator = some E2 ∧
      List.Pairwise (fun a b => Dbl.lt b a = false) E2.pvalues ∧
      (0 < (pvalWalk pvalueCombined).1.nDecoys →
        List.Pairwise (fun a b => Dbl.le a b = true) E2.pvalues ∧
        ∀ p ∈ E2.pvalues, Dbl.inUnit p = true) :=
  ⟨by decide!, estimatePValues_sorted pvalueEstimator pvalueCombined (by decide!)⟩

/-- C30: for every ranked list, with `combined` its (probability, is-decoy) pairs,
`estimatePValues` emits one p-value for each target of every probability group except the
final one: the output length is the number of targets minus the number of targets in the
final group, and the decoy total that normalises the values leaves out the decoys of the
final group. -/
theorem estimatePValues_skips_last_group (E : Estimator) (combined : List (Dbl × Bool))
    (hc : combinedOfList E.proteins E.pepProteins = some combined) :
    ∃ E2 : Estimator, estimatePValues E = some E2 ∧
      E2.pvalues.length = targetPairs combined - targetPairs (lastGroup combined) ∧
      E2.pvalues.length + targetPairs (lastGroup combined) = targetPairs combined ∧
      (pvalWalk combined).1.nDecoys + decoyPairs (lastGroup combined) = decoyPairs combined ∧
      E2.pvalues = (pvalWalk combined).2.map (fun x =>
        x.div (Dbl.ofNat (decoyPairs combined - decoyPairs (lastGroup combined)))) := by
  obtain ⟨h1, h2, _, _⟩ := pvalWalk_last_group combined
  obtain ⟨c1, c2⟩ := pvalLoop_counts combined ⟨0, 0, 0, Dbl.fin (-47114711 / 10000)⟩
  have hlen : (pvaluesOfCombined combined).length + targetPairs (lastGroup combined) =
      targetPairs combined := by
    simp only [pvaluesOfCombined, List.length_map, ← h1]
    simpa [pvalWalk] using c1
  have hdec : (pvalWalk combined).1.nDecoys + decoyPairs (lastGroup combined) =
      decoyPairs combined := by
    rw [← h2]
    simpa [pvalWalk] using c2
  refine ⟨_, estimatePValues_eq E combined hc, by simp only; omega, hlen, hdec, ?_⟩
  have : decoyPairs combined - decoyPairs (lastGroup combined) =
      (pvalWalk combined).1.nDecoys := by omega
  simp only [this, pvaluesOfCombined]

/-- Witness of C30 on the sample registry and ranked list: four targets, two of them in
the final group, two p-values. -/
theorem estimatePValues_skips_last_group_witness :
    combinedOfList pvalueEstimator.proteins pvalueEstimator.pepProteins =
      some pvalueCombined ∧
    ∃ E2 : Estimator, estimatePValues pvalueEstimator = some E2 ∧
      E2.pvalues.length = targetPairs pvalueCombined - targetPairs (lastGroup pvalueCombined) ∧
      E2.pvalues.length + targetPairs (lastGroup pvalueCombined) =
        targetPairs pvalueCombined ∧
      (pvalWalk pvalueCombined).1.nDecoys + decoyPairs (lastGroup pvalueCombined) =
        decoyPairs pvalueCombined ∧
      E2.pvalues = (pvalWalk pvalueCombined).2.map (fun x =>
        x.div (Dbl.ofNat (decoyPairs pvalueCombined - decoyPairs (lastGroup pvalueCombined)))) :=
  ⟨by decide!, estimatePValues_skips_last_group pvalueEstimator pvalueCombined (by decide!)⟩

/-- C31 fails on the code for large counts: with `N = 65536` and the non-decreasing
curves `fpArray = (0, 65536)`, `tpArray = (0, 65537)` the normaliser
`N * tpArray.back()` wraps to `65536` in 32-bit unsigned arithmetic, and `getROC_N`
returns `32768.5`, which is not in `[0,1]`. -/
theorem getROC_N_above_one :
    getROC_N [0, 65536] [0, 65537] 65536 = Outcome.value (Dbl.fin (65537/2)) ∧
    Dbl.inUnit (Dbl.fin (65537/2)) = false := by
  decide!

/-- C32: for every ranked list, after `estimateQValues` and `estimateQValuesEmp` have run
under one tie mode, `qvalues`, `qvaluesEmp` and `pvalues` have one length, the number of
ranked entries in ties-as-one-protein mode and the total number of protein names in
per-protein mode; every index that `updateProteinProbabilities` reads (the entry index
`i` in ties mode, the running name index `qindex` in per-protein mode) is below that
length, and with every ranked name registered the call completes without reading outside
a vector. -/
theorem update_reads_within_bounds (E : Estimator) (hreg : AllRegistered E) :
    (estimateQValuesEmp (estimateQValues E)).qvalues.length =
      pushesOver E.tiesAsOneProtein E.pepProteins ∧
    (estimateQValuesEmp (estimateQValues E)).qvaluesEmp.length =
      pushesOver E.tiesAsOneProtein E.pepProteins ∧
    (estimateQValuesEmp (estimateQValues E)).pvalues.length =
      pushesOver E.tiesAsOneProtein E.pepProteins ∧
    (∀ idx ∈ indicesRead E.tiesAsOneProtein 0 0 E.pepProteins,
      idx < pushesOver E.tiesAsOneProtein E.pepProteins) ∧
    ∃ E2, updateProteinProbabilities (estimateQValuesEmp (estimateQValues E)) = some E2 ∧
      SameVectors (estimateQValuesEmp (estimateQValues E)) E2 := by
  obtain ⟨h1, h2, h3⟩ := estimated_lengths E
  have hidx : ∀ idx ∈ indicesRead E.tiesAsOneProtein 0 0 E.pepProteins,
      idx < pushesOver E.tiesAsOneProtein E.pepProteins := by
    intro idx h
    have := indicesRead_lt E.tiesAsOneProtein E.pepProteins 0 0 idx h
    simpa [pushesOver] using this
  refine ⟨h1, h2, h3, hidx, ?_⟩
  exact updateEntries_some (pushesOver E.tiesAsOneProtein E.pepProteins) E.pepProteins
    (estimateQValuesEmp (estimateQValues E)) 0 0 hreg hidx h1.ge h2.ge h3.ge

/-- Witness of C32 on the sample registry and ranked list (per-protein mode, six names). -/
theorem update_reads_within_bounds_witness :
    AllRegistered pvalueEstimator ∧
    ((estimateQValuesEmp (estimateQValues pvalueEstimator)).qvalues.length =
      pushesOver pvalueEstimator.tiesAsOneProtein pvalueEstimator.pepProteins ∧
    (estimateQValuesEmp (estimateQValues pvalueEstimator)).qvaluesEmp.length =
      pushesOver pvalueEstimator.tiesAsOneProtein pvalueEstimator.pepProteins ∧
    (estimateQValuesEmp (estimateQValues pvalueEstimator)).pvalues.length =
      pushesOver pvalueEstimator.tiesAsOneProtein pvalueEstimator.pepProteins ∧
    (∀ idx ∈ indicesRead pvalueEstimator.tiesAsOneProtein 0 0 pvalueEstimator.pepProteins,
      idx < pushesOver pvalueEstimator.tiesAsOneProtein pvalueEstimator.pepProteins) ∧
    ∃ E2, updateProteinProbabilities (estimateQValuesEmp (estimateQValues pvalueEstimator)) =
        some E2 ∧
      SameVectors (estimateQValuesEmp (estimateQValues pvalueEstimator)) E2) :=
  ⟨by unfold AllRegistered; decide!,
    update_reads_within_bounds pvalueEstimator (by unfold AllRegistered; decide!)⟩

/-- C14 fails as stated: a false-positive estimate that is not a number is neither the
sentinel nor `<= 0` nor `>= 1.0`, so the quotient, `NaN`, is kept as pi0 (12 implicated
targets), and `NaN` is not in `(0,1]`. -/
theorem run_mayuPi0_keeps_nan :
    (run_mayuPi0 {} Dbl.nan 12).pi0 = Dbl.nan ∧
    Dbl.gt (run_mayuPi0 {} Dbl.nan 12).pi0 (Dbl.fin 0) = false ∧
    Dbl.le (run_mayuPi0 {} Dbl.nan 12).pi0 (Dbl.fin 1) = false ∧
    ¬ ∃ q : ℚ, (run_mayuPi0 {} Dbl.nan 12).pi0 = Dbl.fin q ∧ 0 < q ∧ q ≤ 1 := by
  refine ⟨by decide!, by decide!, by decide!, ?_⟩
  rintro ⟨q, hq, _⟩
  have h : (run_mayuPi0 {} Dbl.nan 12).pi0 = Dbl.nan := by decide!
  rw [h] at hq
  exact Dbl.noConfusion hq

/-- C14 (amended): in the MAYU-style branch of `run()`, for every false-positive estimate
`fptol` and every non-empty implicated target set: a `fptol` that is not a number leaves
pi0 `NaN`; for every other `fptol`, if it is the sentinel `-1` then `pi0 = 1.0`, otherwise
`pi0 = fptol/|TP|` when that quotient lies in `(0,1]` and `pi0 = 1.0` when it is `<= 0` or
`> 1`, so that pi0 lies in `(0,1]`. -/
theorem run_mayuPi0_cases (E : Estimator) (fptol : Dbl) (tpSize : Nat) (hTP : 0 < tpSize) :
    (fptol.isnan = true → (run_mayuPi0 E fptol tpSize).pi0 = Dbl.nan) ∧
    (fptol.isnan = false →
      (Dbl.eq fptol (Dbl.fin (-1)) = true → (run_mayuPi0 E fptol tpSize).pi0 = Dbl.fin 1) ∧
      (Dbl.eq fptol (Dbl.fin (-1)) = false →
        ((Dbl.gt (fptol.div (Dbl.ofNat tpSize)) (Dbl.fin 0) = true ∧
            Dbl.le (fptol.div (Dbl.ofNat tpSize)) (Dbl.fin 1) = true) →
          (run_mayuPi0 E fptol tpSize).pi0 = fptol.div (Dbl.ofNat tpSize)) ∧
        ((Dbl.le (fptol.div (Dbl.ofNat tpSize)) (Dbl.fin 0) = true ∨
            Dbl.gt (fptol.div (Dbl.ofNat tpSize)) (Dbl.fin 1) = true) →
          (run_mayuPi0 E fptol tpSize).pi0 = Dbl.fin 1)) ∧
      ∃ q : ℚ, (run_mayuPi0 E fptol tpSize).pi0 = Dbl.fin q ∧ 0 < q ∧ q ≤ 1) := by
  have hnq : (tpSize : ℚ) ≠ 0 := by exact_mod_cast hTP.ne'
  have hn0 : (0 : ℚ) ≤ tpSize := Nat.cast_nonneg _
  cases fptol with
  | fin a =>
    refine ⟨fun h => by simp [Dbl.isnan] at h, fun _ => ?_⟩
    by_cases ha : a = -1
    · subst ha
      simp [run_mayuPi0, Dbl.eq]
    · have hdiv : (Dbl.fin a).div (Dbl.ofNat tpSize) = Dbl.fin (a / tpSize) := by
        simp [Dbl.div, Dbl.ofNat, hnq]
      simp only [run_mayuPi0, Dbl.eq, ha, decide_False, Bool.false_eq_true, false_implies,
        if_false, hdiv, Dbl.le, Dbl.ge, Dbl.gt, Dbl.lt, true_implies, Bool.or_eq_true,
        decide_eq_true_eq, true_and]
      by_cases h0 : a / tpSize ≤ 0
      · refine ⟨⟨?_, ?_⟩, ?_⟩
        · intro h; exact absurd h.1 (not_lt.mpr h0)
        · intro _; simp [h0]
        · exact ⟨1, by simp [h0], by norm_num, le_refl _⟩
      · by_cases h1 : 1 ≤ a / tpSize
        · refine ⟨⟨?_, ?_⟩, ?_⟩
          · intro h
            have : a / tpSize = 1 := le_antisymm h.2 h1
            simp [h1, this]
          · intro _; simp [h1]
          · exact ⟨1, by simp [h1], by norm_num, le_refl _⟩
        · refine ⟨⟨?_, ?_⟩, ?_⟩
          · intro _; simp [h0, h1]
          · rintro (h | h)
            · exact absurd h h0
            · exact absurd h.le h1
          · exact ⟨a / tpSize, by simp [h0, h1], not_le.mp h0, (not_le.mp h1).le⟩
  | pinf =>
    simp [run_mayuPi0, Dbl.eq, Dbl.div, Dbl.ofNat, hn0, Dbl.le, Dbl.ge, Dbl.gt, Dbl.lt,
      Dbl.isnan]
  | ninf =>
    simp [run_mayuPi0, Dbl.eq, Dbl.div, Dbl.ofNat, hn0, Dbl.le, Dbl.ge, Dbl.gt, Dbl.lt,
      Dbl.isnan]
  | nan =>
    refine ⟨fun _ => ?_, fun h => by simp [Dbl.isnan] at h⟩
    simp [run_mayuPi0, Dbl.eq, Dbl.div, Dbl.le, Dbl.ge, Dbl.lt]

/-- Witness of C14 (amended): `fptol = 3` false positives over 12 implicated targets. -/
theorem run_mayuPi0_cases_witness :
    (0 : Nat) < 12 ∧
    ((Dbl.fin 3).isnan = true → (run_mayuPi0 {} (Dbl.fin 3) 12).pi0 = Dbl.nan) ∧
    ((Dbl.fin 3).isnan = false →
      (Dbl.eq (Dbl.fin 3) (Dbl.fin (-1)) = true →
        (run_mayuPi0 {} (Dbl.fin 3) 12).pi0 = Dbl.fin 1) ∧
      (Dbl.eq (Dbl.fin 3) (Dbl.fin (-1)) = false →
        ((Dbl.gt ((Dbl.fin 3).div (Dbl.ofNat 12)) (Dbl.fin 0) = true ∧
            Dbl.le ((Dbl.fin 3).div (Dbl.ofNat 12)) (Dbl.fin 1) = true) →
          (run_mayuPi0 {} (Dbl.fin 3) 12).pi0 = (Dbl.fin 3).div (Dbl.ofNat 12)) ∧
        ((Dbl.le ((Dbl.fin 3).div (Dbl.ofNat 12)) (Dbl.fin 0) = true ∨
            Dbl.gt ((Dbl.fin 3).div (Dbl.ofNat 12)) (Dbl.fin 1) = true) →
          (run_mayuPi0 {} (Dbl.fin 3) 12).pi0 = Dbl.fin 1)) ∧
      ∃ q : ℚ, (run_mayuPi0 {} (Dbl.fin 3) 12).pi0 = Dbl.fin q ∧ 0 < q ∧ q ≤ 1) :=
  ⟨by decide, run_mayuPi0_cases {} (Dbl.fin 3) 12 (by decide)⟩

/-- C22 fails as stated: on the ranked list `(0.25, [P1]), (+inf, [random_A])` the
per-protein mode skips the decoy name and repeats the q-value `0.25`, while the
ties-as-one-protein mode on the flattened list (the same two entries) adds
`+inf * 0 = NaN` to the running sum, so that its second quotient is `NaN`, stored as
`1.0`: the `qvalues` are `(0.25, 0.25)` and `(0.25, 1)`. -/
theorem per_protein_differs_on_infinite_probability :
    infiniteDecoyEstimator.tiesAsOneProtein = false ∧
    (tiesOnFlattened infiniteDecoyEstimator).pepProteins =
      [(Dbl.fin (1/4), ["P1"]), (Dbl.pinf, ["random_A"])] ∧
    (estimateQValues infiniteDecoyEstimator).qvalues = [Dbl.fin (1/4), Dbl.fin (1/4)] ∧
    (estimateQValues (tiesOnFlattened infiniteDecoyEstimator)).qvalues =
      [Dbl.fin (1/4), Dbl.fin 1] := by
  decide!

/-- C28 fails as stated: in binary64, on the segment from `(1e8, 0)` to `(1e8 + 1, 1)`
under the bound `2e8` (so `x1 < x2 <= bound`), the two antiderivatives are rounded to the
same double and `area` returns `0`, while the trapezoid `(x2 - x1) * (y1 + y2) / 2` is
`0.5`, which is also what `area` gives in exact arithmetic. -/
theorem area_binary64_not_trapezoid :
    Dbl.lt (Dbl.fin 100000000) (Dbl.fin 100000001) = true ∧
    Dbl.le (Dbl.fin 100000001) (Dbl.fin 200000000) = true ∧
    areaWith binary64 (Dbl.fin 100000000) (Dbl.fin 0) (Dbl.fin 100000001) (Dbl.fin 1)
      (Dbl.fin 200000000) = Dbl.fin 0 ∧
    binary64.div (binary64.mul (binary64.sub (Dbl.fin 100000001) (Dbl.fin 100000000))
      (binary64.add (Dbl.fin 0) (Dbl.fin 1))) (Dbl.fin 2) = Dbl.fin (1/2) ∧
    area (Dbl.fin 100000000) (Dbl.fin 0) (Dbl.fin 100000001) (Dbl.fin 1)
      (Dbl.fin 200000000) = Dbl.fin (1/2) := by
  decide!

/-- C28 (amended): a zero-width segment contributes zero, `area(x, y1, x, y2, bound) = 0`
and `areaSq(x, y1, x, y2, bound) = 0` for all operands, in exact arithmetic and in
binary64 (the slope is an infinity or `NaN`, the difference of antiderivatives is `NaN`,
and `NaN` is returned as `0.0`). -/
theorem area_zero_width_is_zero (x y1 y2 bound : Dbl) :
    area x y1 x y2 bound = Dbl.fin 0 ∧ areaSq x y1 x y2 bound = Dbl.fin 0 ∧
    areaWith binary64 x y1 x y2 bound = Dbl.fin 0 ∧
    areaSqWith binary64 x y1 x y2 bound = Dbl.fin 0 :=
  ⟨area_zero_width x y1 y2 bound, areaSq_zero_width x y1 y2 bound,
    areaWith_binary64_zero_width x y1 y2 bound, areaSqWith_binary64_zero_width x y1 y2 bound⟩

end Percolator
